import Mathlib

/-!
Verification of the non-linear preferential attachment generator
(`rust-nlpa`): a shallow embedding of the weight function, the
run-length sampler, the sequential and parallel poly-PA engines and
the proposal-list compaction protocol, with theorems checking the
specified properties against the embedded code.

Modelling conventions:
* `usize` values are embedded as `Nat`;
* `f64` values are embedded as exact scalars: a linear-ordered field
  `F` (instantiated with `ℚ` where executability matters, with `ℝ`
  and `Real.rpow` where the semantics of `f64::powf` matters); the
  float primitive `powf` is passed as an explicit parameter;
* random draws are embedded as oracle streams (`Nat → Nat` for index
  draws, `Nat → Bool` for accept/reject coins): the claims under
  check are distribution-independent;
* the concurrent phases of the parallel engine are embedded at epoch
  granularity: the net effect of the atomic fetch-add / fetch-max /
  swap operations performed by all workers between two barriers is
  applied as one sequential transition, which is sound because every
  per-node quantity is only combined through commutative monotone
  read-modify-write operations.
-/

namespace NLPA

/-- Number of precomputed entries of the weight table
(`NUM_PRECOMPUTED` in `src/weight_function.rs`). -/
def NUM_PRECOMPUTED : Nat := 100

/-- The weight function `w(d) = d^γ + c` of `src/weight_function.rs`:
exponent `γ`, offset `c` and the table filled by `WeightFunction::new`.
`F` stands for `f64`. -/
structure WeightFunction (F : Type) where
  exponent : F
  offset : F
  precomputed : List F

namespace WeightFunction

/-- `WeightFunction::compute`: `(degree as f64).powf(exponent) + offset`.
The `f64::powf` primitive is the parameter `powf`. -/
def compute {F : Type} [Semiring F] (powf : F → F → F) (exponent offset : F)
    (degree : Nat) : F :=
  powf (degree : F) exponent + offset

/-- `WeightFunction::new`: precomputes `compute` on degrees
`0, …, NUM_PRECOMPUTED − 1`. -/
def new {F : Type} [Semiring F] (powf : F → F → F) (exponent offset : F) :
    WeightFunction F :=
  { exponent := exponent
    offset := offset
    precomputed := (List.range NUM_PRECOMPUTED).map (compute powf exponent offset) }

/-- `WeightFunction::get`: serve degrees below `NUM_PRECOMPUTED` from the
table, compute the rest directly. -/
def get {F : Type} [Semiring F] (powf : F → F → F) (wf : WeightFunction F)
    (degree : Nat) : F :=
  if degree < NUM_PRECOMPUTED then wf.precomputed.getD degree 0
  else compute powf wf.exponent wf.offset degree

end WeightFunction

/-- The three growth regimes (`Regime` in `src/weight_function.rs`). -/
inductive Regime where
  | Sublinear
  | Linear
  | Superlinear
deriving DecidableEq, Repr

/-- `WeightFunction::regime`: three-way comparison of the exponent with
`1.0` (`partial_cmp` never sees a NaN in the embedding, where `F` is a
linear order). -/
def WeightFunction.regime {F : Type} [LinearOrder F] [One F]
    (wf : WeightFunction F) : Regime :=
  if wf.exponent < 1 then Regime.Sublinear
  else if wf.exponent = 1 then Regime.Linear
  else Regime.Superlinear

/-- Table entries of `WeightFunction.new` agree with direct computation. -/
theorem WeightFunction.precomputed_new_getD {F : Type} [Semiring F]
    (powf : F → F → F) (exponent offset : F) (d : Nat) (hd : d < NUM_PRECOMPUTED) :
    (WeightFunction.new powf exponent offset).precomputed.getD d 0 =
      WeightFunction.compute powf exponent offset d := by
  unfold WeightFunction.new
  simp only [List.getD_eq_getElem?_getD, List.getElem?_map, List.getElem?_range hd,
    Option.map_some', Option.getD_some]

/-- Both branches of `WeightFunction.get` return the directly computed value. -/
theorem WeightFunction.get_new_eq_compute {F : Type} [Semiring F]
    (powf : F → F → F) (exponent offset : F) (d : Nat) :
    (WeightFunction.new powf exponent offset).get powf d =
      WeightFunction.compute powf exponent offset d := by
  unfold WeightFunction.get
  split
  · exact WeightFunction.precomputed_new_getD powf exponent offset d (by assumption)
  · rfl

/-- C6. Weight-function contract: with `f64` modelled as `ℝ` and `powf`
as `Real.rpow`, `get(d)` equals `d^γ + c` for every degree (in
particular the table path for `d < 100` agrees exactly with the direct
computation), and the result is within relative error `1e-6` of the
reference `d^γ + c`. -/
theorem claim_C6_weight_function_contract (γ c : ℝ) (d : Nat) :
    (WeightFunction.new (fun b e => Real.rpow b e) γ c).get
        (fun b e => Real.rpow b e) d = Real.rpow d γ + c ∧
      |(WeightFunction.new (fun b e => Real.rpow b e) γ c).get
          (fun b e => Real.rpow b e) d - (Real.rpow d γ + c)| ≤
        1e-6 * |Real.rpow d γ + c| := by
  have h := WeightFunction.get_new_eq_compute (fun b e => Real.rpow b e) γ c d
  refine ⟨h, ?_⟩
  rw [h]
  unfold WeightFunction.compute
  simp only [sub_self, abs_zero]
  positivity

/-- C7. Regime classification: for exponent `γ ≥ 0` (modelled in `ℚ`),
`regime()` is `Sublinear` iff `γ < 1`, `Linear` iff `γ = 1` and
`Superlinear` iff `γ > 1`. -/
theorem claim_C7_regime_classification (powf : ℚ → ℚ → ℚ) (γ c : ℚ)
    (hγ : 0 ≤ γ) :
    ((WeightFunction.new powf γ c).regime = Regime.Sublinear ↔ γ < 1) ∧
      ((WeightFunction.new powf γ c).regime = Regime.Linear ↔ γ = 1) ∧
      ((WeightFunction.new powf γ c).regime = Regime.Superlinear ↔ 1 < γ) := by
  clear hγ
  unfold WeightFunction.regime WeightFunction.new
  dsimp only
  split_ifs with h1 h2
  · exact ⟨iff_of_true rfl h1, iff_of_false (by simp) (ne_of_lt h1),
      iff_of_false (by simp) (lt_asymm h1)⟩
  · subst h2
    exact ⟨iff_of_false (by simp) (lt_irrefl 1), iff_of_true rfl rfl,
      iff_of_false (by simp) (lt_irrefl 1)⟩
  · have h3 : 1 < γ := lt_of_le_of_ne (not_lt.mp h1) (Ne.symm h2)
    exact ⟨iff_of_false (by simp) (lt_asymm h3), iff_of_false (by simp) h2,
      iff_of_true rfl h3⟩

/-- Witness for C7 at `γ = 1/2`, `c = 0`. -/
theorem claim_C7_regime_classification_witness :
    (0 ≤ (1/2 : ℚ)) ∧
      (((WeightFunction.new (fun a _ => a) (1/2 : ℚ) 0).regime = Regime.Sublinear ↔
          (1/2 : ℚ) < 1) ∧
        ((WeightFunction.new (fun a _ => a) (1/2 : ℚ) 0).regime = Regime.Linear ↔
          (1/2 : ℚ) = 1) ∧
        ((WeightFunction.new (fun a _ => a) (1/2 : ℚ) 0).regime = Regime.Superlinear ↔
          1 < (1/2 : ℚ))) :=
  ⟨by norm_num, claim_C7_regime_classification (fun a _ => a) (1/2) 0 (by norm_num)⟩

/-- Algorithm selector (`SamplingAlgorithm` in `src/parameters.rs`). -/
inductive SamplingAlgorithm where
  | DynWeightIndex
  | PolyPA
  | PolyPAPrefetch
  | ParallelPolyPa
deriving DecidableEq, Repr

/-- CLI options (`Parameters` in `src/parameters.rs`); the `f64` fields
`exponent` and `offset` are embedded as `ℚ` (the parsed decimal
literals), the `u64` seed as `Nat`. -/
structure Parameters where
  algorithm : SamplingAlgorithm
  seed_nodes : Option Nat
  seed_value : Option Nat
  nodes : Nat
  initial_degree : Nat
  exponent : ℚ
  offset : ℚ
  without_replacement : Bool
  resample_previous : Bool
  report_degree_distribution : Bool
  num_threads : Option Nat
deriving DecidableEq, Repr

/-- `get_and_check_options` (`src/parameters.rs`): the chain of
startup assertions; a failed assertion (Rust panic, exit non-zero) is
embedded as `none`. `Option.getD` plays `unwrap_or` / the `-i`
defaulting. -/
def get_and_check_options (opt : Parameters) : Option Parameters :=
  if opt.initial_degree < 1 then none
  else if opt.seed_nodes.getD (opt.initial_degree * 10) < opt.initial_degree then none
  else if opt.seed_nodes.getD (opt.initial_degree * 10) % 2 ≠ 0 then none
  else if opt.exponent < 0 then none
  else if opt.offset < 0 then none
  else if opt.num_threads.getD 1 = 0 then none
  else some { opt with seed_nodes := some (opt.seed_nodes.getD (opt.initial_degree * 10)) }

/-- C8. Configuration-error handling: option checking fails exactly on
`d < 1`, defaulted seed count `< d` or odd, `γ < 0`, `c < 0`, or an
explicit thread count of `0`; an absent `-i` defaults the seed count to
`10·d`; and under the accepted preconditions `γ ≥ 0`, `c ≥ 0` the later
assertion `w(1) > 0` (checked in `Algorithm::from_parameters`) never
fails. -/
theorem claim_C8_configuration_error_handling (p : Parameters) :
    (get_and_check_options p = none ↔
      (p.initial_degree < 1 ∨
        p.seed_nodes.getD (p.initial_degree * 10) < p.initial_degree ∨
        p.seed_nodes.getD (p.initial_degree * 10) % 2 = 1 ∨
        p.exponent < 0 ∨ p.offset < 0 ∨ p.num_threads = some 0)) ∧
      (∀ q : Parameters, get_and_check_options p = some q →
        q.seed_nodes = some (p.seed_nodes.getD (p.initial_degree * 10))) ∧
      (∀ γ c : ℝ, 0 ≤ γ → 0 ≤ c →
        0 < (WeightFunction.new (fun b e => Real.rpow b e) γ c).get
          (fun b e => Real.rpow b e) 1) := by
  refine ⟨?_, ?_, ?_⟩
  · unfold get_and_check_options
    have hthr : p.num_threads.getD 1 = 0 ↔ p.num_threads = some 0 := by
      cases p.num_threads <;> simp [Option.getD]
    split_ifs with h1 h2 h3 h4 h5 h6
    · exact iff_of_true rfl (Or.inl h1)
    · exact iff_of_true rfl (Or.inr (Or.inl h2))
    · exact iff_of_true rfl (Or.inr (Or.inr (Or.inl (by omega))))
    · exact iff_of_true rfl (Or.inr (Or.inr (Or.inr (Or.inl h4))))
    · exact iff_of_true rfl (Or.inr (Or.inr (Or.inr (Or.inr (Or.inl h5)))))
    · exact iff_of_true rfl
        (Or.inr (Or.inr (Or.inr (Or.inr (Or.inr (hthr.mp h6))))))
    · refine iff_of_false (by simp) ?_
      push_neg at h3 h4 h5
      rintro (hc | hc | hc | hc | hc | hc)
      · exact h1 hc
      · exact h2 hc
      · omega
      · exact absurd hc (not_lt.mpr h4)
      · exact absurd hc (not_lt.mpr h5)
      · exact h6 (hthr.mpr hc)
  · intro q hq
    unfold get_and_check_options at hq
    split_ifs at hq
    exact (congrArg Parameters.seed_nodes (Option.some.inj hq)).symm
  · intro γ c hγ hc
    have h1 : Real.rpow ((1 : Nat) : ℝ) γ = 1 := by
      rw [Nat.cast_one]
      exact Real.one_rpow γ
    rw [WeightFunction.get_new_eq_compute]
    unfold WeightFunction.compute
    show 0 < Real.rpow ((1 : Nat) : ℝ) γ + c
    rw [h1]
    linarith

/-- Witness for C8 at a concrete accepted configuration and `γ = 1`,
`c = 0`. -/
theorem claim_C8_configuration_error_handling_witness :
    0 < (WeightFunction.new (fun b e => Real.rpow b e) (1 : ℝ) 0).get
      (fun b e => Real.rpow b e) 1 :=
  (claim_C8_configuration_error_handling
      { algorithm := SamplingAlgorithm.PolyPA, seed_nodes := none,
        seed_value := some 42, nodes := 100, initial_degree := 1,
        exponent := 1, offset := 0, without_replacement := false,
        resample_previous := false, report_degree_distribution := false,
        num_threads := none }).2.2 1 0 zero_le_one (le_refl 0)

/-- State of `RunlengthSampler`
(`src/algorithm/algo_parallel_poly_pa/run_length.rs`): the atomic
cells are embedded as plain fields, read and written at the epoch
boundary. -/
structure RunlengthSampler (F : Type) where
  weight_function : WeightFunction F
  initial_degree : Nat
  total_weight : F
  max_degree : Nat
  lower : Nat
  upper : Nat
  real_lower : Nat
  weight_initial_degree : F
  weight_max_degree : F

namespace RunlengthSampler

/-- `RunlengthSampler::new`: caches `w(initial_degree)`, zeroes the
rest. -/
def new {F : Type} [LinearOrderedField F] (powf : F → F → F)
    (wf : WeightFunction F) (initial_degree : Nat) : RunlengthSampler F :=
  { weight_function := wf
    initial_degree := initial_degree
    weight_initial_degree := wf.get powf initial_degree
    total_weight := 0
    max_degree := 0
    lower := 0
    upper := 0
    real_lower := 0
    weight_max_degree := 0 }

/-- `RunlengthSampler::setup_epoch`: stores the epoch snapshot; the
`fetch_update` on `upper` only replaces an exhausted bound. -/
def setup_epoch {F : Type} [LinearOrderedField F] (powf : F → F → F)
    (s : RunlengthSampler F) (lower upper : Nat) (max_degree : Nat)
    (total_weight : F) : RunlengthSampler F :=
  { s with
    lower := lower
    real_lower := lower
    upper := if s.upper ≤ lower then upper else s.upper
    total_weight := total_weight
    max_degree := max_degree
    weight_max_degree := s.weight_function.get powf max_degree }

/-- `RunlengthSampler::total_weight_and_upper_bound_for` (lines
123–146 of `run_length.rs`). -/
def total_weight_and_upper_bound_for {F : Type} [LinearOrderedField F]
    (powf : F → F → F) (s : RunlengthSampler F) (node : Nat) : F × F :=
  let nodes_in_epoch := node - s.real_lower
  let hosts_in_epoch := nodes_in_epoch * s.initial_degree
  let total_weight := s.total_weight
  let upper_bound_weight_increase :=
    match s.weight_function.regime with
    | Regime.Sublinear =>
        s.weight_initial_degree * (nodes_in_epoch : F) + (hosts_in_epoch : F)
    | Regime.Superlinear =>
        let ub_dmax := s.max_degree + nodes_in_epoch
        let weight_ub_dmax := s.weight_function.get powf ub_dmax
        s.weight_initial_degree * (nodes_in_epoch : F) +
          (weight_ub_dmax - s.weight_max_degree) * (s.initial_degree : F)
    | Regime.Linear => 2 * (hosts_in_epoch : F)
  (total_weight, total_weight + upper_bound_weight_increase)

/-- `RunlengthSampler::probability_is_independent`. -/
def probability_is_independent {F : Type} [LinearOrderedField F]
    (powf : F → F → F) (s : RunlengthSampler F) (node : Nat) : F :=
  let p := total_weight_and_upper_bound_for powf s node
  p.1 / p.2

end RunlengthSampler

/-- The per-epoch snapshot a `Worker` holds
(`src/algorithm/algo_parallel_poly_pa/worker.rs`): the fields read by
`Worker::probability_is_independent`. -/
structure WorkerView (F : Type) where
  epoch_starts_with_node : Nat
  total_weight : F
  max_degree : Nat
  weight_min_degree : F
  weight_max_degree : F
  initial_degree : Nat
  weight_function : WeightFunction F

namespace WorkerView

/-- `Worker::setup_local_state_for_new_epoch` (lines 124–134 of
`worker.rs`), reading epoch start, shared total weight and shared
maximum degree. -/
def setup_local_state_for_new_epoch {F : Type} [LinearOrderedField F]
    (powf : F → F → F) (wf : WeightFunction F) (initial_degree : Nat)
    (epoch_start : Nat) (shared_total_weight : F) (shared_max_degree : Nat) :
    WorkerView F :=
  { epoch_starts_with_node := epoch_start
    total_weight := shared_total_weight
    max_degree := shared_max_degree
    weight_max_degree := wf.get powf shared_max_degree
    weight_min_degree := wf.get powf initial_degree
    initial_degree := initial_degree
    weight_function := wf }

/-- `Worker::probability_is_independent` (lines 175–195 of
`worker.rs`). -/
def probability_is_independent {F : Type} [LinearOrderedField F]
    (powf : F → F → F) (w : WorkerView F) (node : Nat) : F :=
  let nodes_in_epoch := node - w.epoch_starts_with_node
  let hosts_in_epoch := nodes_in_epoch * w.initial_degree
  let upper_bound_on_total_weight :=
    (match w.weight_function.regime with
      | Regime.Sublinear =>
          w.weight_min_degree * (nodes_in_epoch : F) + (hosts_in_epoch : F)
      | Regime.Superlinear =>
          let ub_dmax := w.max_degree + nodes_in_epoch
          let weight_ub_dmax := w.weight_function.get powf ub_dmax
          w.weight_min_degree * (nodes_in_epoch : F) +
            (weight_ub_dmax - w.weight_max_degree) * (w.initial_degree : F)
      | Regime.Linear => 2 * (hosts_in_epoch : F)) + w.total_weight
  w.total_weight / upper_bound_on_total_weight

end WorkerView

/-- The weight-growth upper bound `ΔW` exactly as the specification
states it, per regime: `w(d)·Δn + d·Δn` (sublinear), `2·d·Δn`
(linear), `w(d)·Δn + (w(dmax+Δn) − w(dmax))·d` (superlinear). Stated
separately from the code’s computation so the two can be compared. -/
def specUpperBoundIncrease {F : Type} [LinearOrderedField F]
    (powf : F → F → F) (wf : WeightFunction F) (d dmax Δn : Nat) : F :=
  match wf.regime with
  | Regime.Sublinear => wf.get powf d * (Δn : F) + (d : F) * (Δn : F)
  | Regime.Linear => 2 * (d : F) * (Δn : F)
  | Regime.Superlinear =>
      wf.get powf d * (Δn : F) +
        (wf.get powf (dmax + Δn) - wf.get powf dmax) * (d : F)

/-- C4. Run-length sampler formula: for an epoch with start `e₀`,
snapshot weight `W`, attachment degree `d` and snapshot maximum degree
`dmax`, at every node `k ≥ e₀` with `Δn = k − e₀` the computed upper
bound equals `W + ΔW` with `ΔW` the specified per-regime increase, and
both the sampler’s and the worker’s independence probability equal
`W / (W + ΔW)`. -/
theorem claim_C4_run_length_sampler_formula (powf : ℚ → ℚ → ℚ)
    (wf : WeightFunction ℚ) (d e₀ up dmax : Nat) (W : ℚ) (k : Nat)
    (hk : e₀ ≤ k) :
    ((RunlengthSampler.new powf wf d).setup_epoch powf e₀ up dmax W
        ).total_weight_and_upper_bound_for powf k =
      (W, W + specUpperBoundIncrease powf wf d dmax (k - e₀)) ∧
      ((RunlengthSampler.new powf wf d).setup_epoch powf e₀ up dmax W
          ).probability_is_independent powf k =
        W / (W + specUpperBoundIncrease powf wf d dmax (k - e₀)) ∧
      (WorkerView.setup_local_state_for_new_epoch powf wf d e₀ W dmax
          ).probability_is_independent powf k =
        W / (W + specUpperBoundIncrease powf wf d dmax (k - e₀)) := by
  clear hk
  have hs : ((RunlengthSampler.new powf wf d).setup_epoch powf e₀ up dmax W
      ).total_weight_and_upper_bound_for powf k =
      (W, W + specUpperBoundIncrease powf wf d dmax (k - e₀)) := by
    unfold RunlengthSampler.total_weight_and_upper_bound_for
      RunlengthSampler.setup_epoch RunlengthSampler.new specUpperBoundIncrease
    dsimp only
    cases wf.regime <;> · push_cast; ring_nf
  refine ⟨hs, ?_, ?_⟩
  · unfold RunlengthSampler.probability_is_independent
    rw [hs]
  · unfold WorkerView.probability_is_independent
      WorkerView.setup_local_state_for_new_epoch specUpperBoundIncrease
    dsimp only
    cases wf.regime <;> · push_cast; ring_nf

/-- Witness for C4 at a concrete epoch snapshot. -/
theorem claim_C4_run_length_sampler_formula_witness :
    (10 ≤ (13 : Nat)) ∧
      ((RunlengthSampler.new (fun a _ => a)
            (WeightFunction.new (fun a _ => a) (0 : ℚ) 3) 2).setup_epoch
          (fun a _ => a) 10 20 5 (7 : ℚ)).total_weight_and_upper_bound_for
          (fun a _ => a) 13 =
        (7, 7 + specUpperBoundIncrease (fun a _ => a)
          (WeightFunction.new (fun a _ => a) (0 : ℚ) 3) 2 5 (13 - 10)) :=
  ⟨by decide,
    (claim_C4_run_length_sampler_formula (fun a _ => a)
      (WeightFunction.new (fun a _ => a) (0 : ℚ) 3) 2 10 20 5 7 13
      (by decide)).1⟩

/-- `SCALE` of `algo_poly_pa.rs`: `2.0 * (1u64 << 63) as f64`. -/
def SCALE : ℚ := 2 * 2 ^ 63

/-- `NodeInfo` of `src/algorithm/algo_poly_pa.rs` (all fields
`Default`-initialised to zero). -/
structure SeqNodeInfo where
  degree : Nat
  count : Nat
  weight : ℚ
  excess : ℚ
deriving DecidableEq, Repr

instance : Inhabited SeqNodeInfo := ⟨⟨0, 0, 0, 0⟩⟩

/-- State of the sequential `AlgoPolyPa` engine
(`src/algorithm/algo_poly_pa.rs`). The weight function appears through
its only used entry point as `w : Nat → ℚ` (standing for
`self.weight_function.get`); the statistics cells (`num_samples`, …)
are not modelled. -/
structure AlgoPolyPa where
  num_total_nodes : Nat
  num_seed_nodes : Nat
  num_current_nodes : Nat
  initial_degree : Nat
  without_replacement : Bool
  resample : Bool
  w : Nat → ℚ
  nodes : List SeqNodeInfo
  proposal_list : List Nat
  total_weight : ℚ
  wmax : ℚ
  wmax_scaled : ℚ

/-- The random draws consumed by the sequential engine, as oracle
streams indexed by a draw counter: `choose` stands for the uniform
index into the proposal list, `accept` for the comparison of a fresh
`u64` against the scaled excess, and `genq` for `gen_range(0.0..t)`. -/
structure SeqRng where
  choose : Nat → Nat
  accept : Nat → Bool
  genq : Nat → ℚ

namespace AlgoPolyPa

/-- `AlgoPolyPa::new`. -/
def new (w : Nat → ℚ) (num_seed_nodes num_rand_nodes initial_degree : Nat)
    (without_replacement resample : Bool) : AlgoPolyPa :=
  { num_total_nodes := num_seed_nodes + num_rand_nodes
    num_seed_nodes := num_seed_nodes
    num_current_nodes := 0
    initial_degree := initial_degree
    without_replacement := without_replacement
    resample := resample
    w := w
    nodes := List.replicate (num_seed_nodes + num_rand_nodes) default
    proposal_list := []
    total_weight := 0
    wmax := 0
    wmax_scaled := 0 }

/-- `AlgoPolyPa::update_node_counts_in_proposal_list`: push replicas of
`node` until its count reaches
`⌈num_current_nodes · weight / total_weight⌉`, then refresh the
excess and possibly `wmax`. -/
def update_node_counts_in_proposal_list (st : AlgoPolyPa) (node : Nat) :
    AlgoPolyPa :=
  let info := st.nodes.getD node default
  let target_count :=
    (Int.ceil ((st.num_current_nodes : ℚ) * info.weight / st.total_weight)).toNat
  let pushes := target_count - info.count
  let count := info.count + pushes
  let excess := info.weight / (count : ℚ)
  let info := { info with count := count, excess := excess }
  { st with
    nodes := st.nodes.set node info
    proposal_list := st.proposal_list ++ List.replicate pushes node
    wmax := if st.wmax < excess then excess else st.wmax
    wmax_scaled := if st.wmax < excess then SCALE / excess else st.wmax_scaled }

/-- `AlgoPolyPa::set_degree`: store the degree, refresh the cached
weight and the running total weight, then update the replica count. -/
def set_degree (st : AlgoPolyPa) (node degree : Nat) : AlgoPolyPa :=
  let info := st.nodes.getD node default
  let weight_before := info.weight
  let weight := st.w degree
  let info := { info with degree := degree, weight := weight }
  let st := { st with
    nodes := st.nodes.set node info
    total_weight := st.total_weight + (weight - weight_before) }
  update_node_counts_in_proposal_list st node

/-- `AlgoPolyPa::increase_degree`. -/
def increase_degree (st : AlgoPolyPa) (node : Nat) : AlgoPolyPa :=
  set_degree st node ((st.nodes.getD node default).degree + 1)

/-- One step of the seed-degree loop of
`AlgoPolyPa::set_seed_graph_degrees`: write degree and weight of slot
`p.1` and accumulate the total weight. -/
def seed_step (st : AlgoPolyPa) (p : Nat × Nat) : AlgoPolyPa :=
  let info := st.nodes.getD p.1 default
  let info := { info with degree := p.2, weight := st.w p.2 }
  { st with
    nodes := st.nodes.set p.1 info
    total_weight := st.total_weight + st.w p.2 }

/-- `AlgoPolyPa::set_seed_graph_degrees`: write the seed degrees and
weights, then insert the initial replicas. The `assert_eq` on the
number of input degrees is the `none` branch. -/
def set_seed_graph_degrees (st : AlgoPolyPa) (degrees : List Nat) :
    Option AlgoPolyPa :=
  if degrees.length = st.num_seed_nodes then
    let st := degrees.enum.foldl seed_step st
    let st := { st with num_current_nodes := st.num_seed_nodes }
    some ((List.range st.num_seed_nodes).foldl
      update_node_counts_in_proposal_list st)
  else none

/-- `AlgoPolyPa::sample_host`: rejection sampling over the proposal
list. One loop iteration consumes an index draw and an accept coin;
`fuel` bounds the number of iterations (the claims condition on the
loop having terminated); an empty proposal list is the `unwrap` panic
of `choose`. Returns the host and the advanced draw counter. -/
def sample_host (rng : SeqRng) (st : AlgoPolyPa) (reject_early : Nat → Bool) :
    Nat → Nat → Option (Nat × Nat)
  | 0, _ => none
  | fuel + 1, t =>
    if h : st.proposal_list.length = 0 then none
    else
      let proposal := st.proposal_list.getD (rng.choose t % st.proposal_list.length) 0
      if reject_early proposal then sample_host rng st reject_early fuel (t + 2)
      else if rng.accept (t + 1) then some (proposal, t + 2)
      else sample_host rng st reject_early fuel (t + 2)

/-- The while loop of `AlgoPolyPa::run` filling the host vector,
driven by the number of hosts still missing (each source-loop
iteration appends exactly one host, so the loop body runs
`initial_degree − hosts.len()` times). -/
def fill_hosts_aux (rng : SeqRng) (st : AlgoPolyPa)
    (reject : List Nat → Nat → Bool) :
    Nat → List Nat → Nat → Nat → Option (List Nat × Nat)
  | 0, hosts, _, t => some (hosts, t)
  | need + 1, hosts, fuel, t =>
    match sample_host rng st (reject hosts) fuel t with
    | none => none
    | some (h, t2) => fill_hosts_aux rng st reject need (hosts ++ [h]) fuel t2

/-- The `while hosts.len() < self.initial_degree` filling loops of
`AlgoPolyPa::run`, with the early-rejection predicate depending on
the hosts already taken. -/
def fill_hosts (rng : SeqRng) (st : AlgoPolyPa) (reject : List Nat → Nat → Bool)
    (hosts : List Nat) (fuel t : Nat) : Option (List Nat × Nat) :=
  fill_hosts_aux rng st reject (st.initial_degree - hosts.length) hosts fuel t

/-- The reverse weighted scan of the `resample` branch of
`AlgoPolyPa::run` (`find_map` over `prev_hosts.iter().enumerate().rev()`):
given the enumerated previous hosts in reverse order, find the first
entry whose weight exceeds the remaining random mass, subtracting as
it goes; `none` is the `unwrap` panic. -/
def find_prev_host : List (Nat × Nat × ℚ) → ℚ → Option (Nat × Nat × ℚ)
  | [], _ => none
  | (i, node, host_weight) :: rest, random_weight =>
    if random_weight < host_weight then some (i, node, host_weight)
    else find_prev_host rest (random_weight - host_weight)

/-- The `resample` branch host loop, again driven by the number of
missing hosts: draw a random mass; below the previous-hosts mass,
reuse (and remove) a previous host; otherwise rejection-sample a
fresh host avoiding previous and current hosts. -/
def resample_hosts_aux (rng : SeqRng) (st : AlgoPolyPa) :
    Nat → List (Nat × ℚ) → List Nat → ℚ → ℚ → Nat → Nat →
      Option (List Nat × Nat)
  | 0, _, hosts, _, _, _, t => some (hosts, t)
  | need + 1, prev_hosts, hosts, total_weight, hosts_total_weight, fuel, t =>
    let random_weight := rng.genq t
    if random_weight < hosts_total_weight then
      match find_prev_host prev_hosts.enum.reverse random_weight with
      | none => none
      | some (index, node, host_weight) =>
        resample_hosts_aux rng st need (prev_hosts.eraseIdx index)
          (hosts ++ [node]) (total_weight - host_weight)
          (hosts_total_weight - host_weight) fuel (t + 1)
    else
      match sample_host rng st
          (fun u => prev_hosts.any (fun p => p.1 = u) || hosts.contains u)
          fuel (t + 1) with
      | none => none
      | some (h, t2) =>
        resample_hosts_aux rng st need prev_hosts (hosts ++ [h])
          (total_weight - (st.nodes.getD h default).weight)
          hosts_total_weight fuel t2

/-- Entry point of the `resample` branch host loop. -/
def resample_hosts (rng : SeqRng) (st : AlgoPolyPa)
    (prev_hosts : List (Nat × ℚ)) (hosts : List Nat)
    (total_weight hosts_total_weight : ℚ) (fuel t : Nat) :
    Option (List Nat × Nat) :=
  resample_hosts_aux rng st (st.initial_degree - hosts.length) prev_hosts
    hosts total_weight hosts_total_weight fuel t

/-- The host-selection half of one `for new_node in …` iteration of
`AlgoPolyPa::run`: choose the `d` hosts according to the
`without_replacement` / `resample` flags (`prev` is the host vector
left over from the previous iteration). -/
def choose_hosts (rng : SeqRng) (st : AlgoPolyPa) (prev : List Nat)
    (fuel t : Nat) : Option (List Nat × Nat) :=
  if st.without_replacement then
    if st.resample && !prev.isEmpty then
      let prev_hosts := (prev.map fun s => (s, (st.nodes.getD s default).weight)
        ).mergeSort (fun a b => decide (a.2 ≤ b.2))
      resample_hosts rng st prev_hosts []
        st.total_weight (prev_hosts.map (fun p => p.2)).sum fuel t
    else
      fill_hosts rng st (fun hosts u => hosts.contains u) [] fuel t
  else
    fill_hosts rng st (fun _ _ => false) [] fuel t

/-- The commit half of one `for new_node in …` iteration: update
`num_current_nodes`, raise each chosen host's degree and emit the
edge, then give the new node its degree. -/
def run_step (rng : SeqRng) (st : AlgoPolyPa) (prev : List Nat)
    (new_node fuel t : Nat) : Option (AlgoPolyPa × List Nat × List (Nat × Nat) × Nat) :=
  match choose_hosts rng st prev fuel t with
  | none => none
  | some (hosts, t2) =>
    let st := { st with num_current_nodes := new_node }
    let st := hosts.foldl increase_degree st
    let edges := hosts.map fun h => (new_node, h)
    some (set_degree st new_node st.initial_degree, hosts, edges, t2)

/-- `AlgoPolyPa::run`: iterate `run_step` over
`num_seed_nodes..num_total_nodes` (the `remaining` counter runs the
loop `num_total_nodes − new_node` times), accumulating the edges
passed to the writer. -/
def run_from (rng : SeqRng) :
    Nat → AlgoPolyPa → List Nat → List (Nat × Nat) → Nat → Nat → Nat →
      Option (AlgoPolyPa × List (Nat × Nat))
  | 0, st, _, edges, _, _, _ => some (st, edges)
  | remaining + 1, st, prev, edges, new_node, fuel, t =>
    match run_step rng st prev new_node fuel t with
    | none => none
    | some (st2, hosts, es, t2) =>
      run_from rng remaining st2 hosts (edges ++ es) (new_node + 1) fuel t2

/-- `AlgoPolyPa::run` entry point. -/
def run (rng : SeqRng) (st : AlgoPolyPa) (fuel t : Nat) :
    Option (AlgoPolyPa × List (Nat × Nat)) :=
  run_from rng (st.num_total_nodes - st.num_seed_nodes) st [] []
    st.num_seed_nodes fuel t

end AlgoPolyPa

/-- Auxiliary: setting a list cell and adding back the old value is
adding the new value. -/
theorem list_sum_set (l : List Nat) (i v : Nat) (h : i < l.length) :
    (l.set i v).sum + l.getD i 0 = l.sum + v := by
  induction l generalizing i with
  | nil => simp at h
  | cons x xs ih =>
    cases i with
    | zero => simp [List.set]; omega
    | succ n =>
      simp only [List.set, List.sum_cons, List.getD_cons_succ]
      have := ih n (by simpa using h)
      omega

/-- Auxiliary: reading back a written cell. -/
theorem list_getD_set_self {α : Type} (l : List α) (i : Nat) (v dflt : α)
    (h : i < l.length) : (l.set i v).getD i dflt = v := by
  induction l generalizing i with
  | nil => simp at h
  | cons x xs ih =>
    cases i with
    | zero => rfl
    | succ n => exact ih n (by simpa using h)

/-- Auxiliary: writing one cell leaves the others unchanged. -/
theorem list_getD_set_ne {α : Type} (l : List α) (i j : Nat) (v dflt : α)
    (h : i ≠ j) : (l.set i v).getD j dflt = l.getD j dflt := by
  induction l generalizing i j with
  | nil => rfl
  | cons x xs ih =>
    cases i with
    | zero =>
      cases j with
      | zero => exact absurd rfl h
      | succ m => rfl
    | succ n =>
      cases j with
      | zero => rfl
      | succ m => exact ih n m (by omega)

/-- Auxiliary: writing back the value already present is a no-op. -/
theorem list_set_getD {α : Type} (l : List α) (i : Nat) (dflt : α) :
    l.set i (l.getD i dflt) = l := by
  induction l generalizing i with
  | nil => rfl
  | cons x xs ih =>
    cases i with
    | zero => rfl
    | succ n => simpa [List.set] using ih n

/-- Auxiliary: `getD` commutes with `map`. -/
theorem list_getD_map {α β : Type} (f : α → β) (l : List α) (i : Nat) (dflt : α) :
    (l.map f).getD i (f dflt) = f (l.getD i dflt) := by
  induction l generalizing i with
  | nil => rfl
  | cons x xs ih =>
    cases i with
    | zero => rfl
    | succ n => exact ih n

/-- Auxiliary: `set` commutes with `map`. -/
theorem list_map_set {α β : Type} (f : α → β) (l : List α) (i : Nat) (a : α) :
    (l.set i a).map f = (l.map f).set i (f a) := by
  induction l generalizing i with
  | nil => rfl
  | cons x xs ih =>
    cases i with
    | zero => rfl
    | succ n => simpa [List.set] using ih n

/-- Auxiliary: an in-range `getD` is a member. -/
theorem list_getD_mem {α : Type} (l : List α) (i : Nat) (dflt : α)
    (h : i < l.length) : l.getD i dflt ∈ l := by
  induction l generalizing i with
  | nil => simp at h
  | cons x xs ih =>
    cases i with
    | zero => exact List.mem_cons_self x xs
    | succ n => exact List.mem_cons_of_mem x (ih n (by simpa using h))

/-- Auxiliary: the payload of an `enumFrom` entry is a member. -/
theorem list_mem_enumFrom_snd {α : Type} :
    ∀ (l : List α) (s i : Nat) (x : α), (i, x) ∈ l.enumFrom s → x ∈ l := by
  intro l
  induction l with
  | nil => intro s i x h; simp [List.enumFrom] at h
  | cons y ys ih =>
    intro s i x h
    rcases List.mem_cons.mp h with h1 | h1
    · cases h1
      exact List.mem_cons_self y ys
    · exact List.mem_cons_of_mem y (ih (s + 1) i x h1)

/-- Auxiliary: `eraseIdx` only removes elements. -/
theorem list_mem_eraseIdx {α : Type} :
    ∀ (l : List α) (i : Nat) (x : α), x ∈ l.eraseIdx i → x ∈ l := by
  intro l
  induction l with
  | nil => intro i x h; simp [List.eraseIdx] at h
  | cons y ys ih =>
    intro i x h
    cases i with
    | zero => exact List.mem_cons_of_mem y h
    | succ n =>
      rcases List.mem_cons.mp h with h1 | h1
      · exact h1 ▸ List.mem_cons_self y ys
      · exact List.mem_cons_of_mem y (ih n x h1)

namespace AlgoPolyPa

/-- Degrees of all node slots, in slot order. -/
def degList (st : AlgoPolyPa) : List Nat := st.nodes.map (fun i => i.degree)

/-- Degree of one node slot (0 beyond the vector, as in `Default`). -/
def degOf (st : AlgoPolyPa) (u : Nat) : Nat := (degList st).getD u 0

/-- Sum of all node degrees. -/
def degreeSum (st : AlgoPolyPa) : Nat := (degList st).sum

/-- Configuration fields untouched by the engine loop. -/
def SameCfg (st st2 : AlgoPolyPa) : Prop :=
  st2.num_total_nodes = st.num_total_nodes ∧
    st2.num_seed_nodes = st.num_seed_nodes ∧
    st2.initial_degree = st.initial_degree

theorem sameCfg_refl (st : AlgoPolyPa) : SameCfg st st := ⟨rfl, rfl, rfl⟩

theorem sameCfg_trans {a b c : AlgoPolyPa} (h1 : SameCfg a b) (h2 : SameCfg b c) :
    SameCfg a c :=
  ⟨h2.1.trans h1.1, h2.2.1.trans h1.2.1, h2.2.2.trans h1.2.2⟩

/-- Effect summary of `update_node_counts_in_proposal_list`: degrees
are untouched, the proposal list only receives replicas of `node`. -/
theorem update_counts_spec (st : AlgoPolyPa) (u : Nat) :
    degList (update_node_counts_in_proposal_list st u) = degList st ∧
      (update_node_counts_in_proposal_list st u).nodes.length = st.nodes.length ∧
      SameCfg st (update_node_counts_in_proposal_list st u) ∧
      (update_node_counts_in_proposal_list st u).num_current_nodes =
        st.num_current_nodes ∧
      ∀ x ∈ (update_node_counts_in_proposal_list st u).proposal_list,
        x ∈ st.proposal_list ∨ x = u := by
  unfold update_node_counts_in_proposal_list
  refine ⟨?_, by simp, ⟨rfl, rfl, rfl⟩, rfl, ?_⟩
  · show (st.nodes.set u _).map _ = _
    rw [degList, list_map_set]
    show (st.nodes.map _).set u ((st.nodes.getD u default).degree) = _
    have := list_getD_map (fun i : SeqNodeInfo => i.degree) st.nodes u default
    rw [← this, list_set_getD]
  · intro x hx
    rcases List.mem_append.mp hx with h | h
    · exact Or.inl h
    · exact Or.inr (List.eq_of_mem_replicate h)

/-- Effect summary of `set_degree`: the degree vector gets cell `u`
set to `deg`, and the proposal list only receives replicas of `u`. -/
theorem set_degree_spec (st : AlgoPolyPa) (u deg : Nat) :
    degList (set_degree st u deg) = (degList st).set u deg ∧
      (set_degree st u deg).nodes.length = st.nodes.length ∧
      SameCfg st (set_degree st u deg) ∧
      (set_degree st u deg).num_current_nodes = st.num_current_nodes ∧
      ∀ x ∈ (set_degree st u deg).proposal_list,
        x ∈ st.proposal_list ∨ x = u := by
  unfold set_degree
  obtain ⟨h1, h2, h3, h4, h5⟩ := update_counts_spec
    { st with
      nodes := st.nodes.set u
        { st.nodes.getD u default with degree := deg, weight := st.w deg }
      total_weight := st.total_weight +
        (st.w deg - (st.nodes.getD u default).weight) } u
  refine ⟨?_, ?_, ?_, h4, h5⟩
  · rw [h1]
    show (st.nodes.set u _).map _ = _
    rw [degList, list_map_set]
  · rw [h2]
    simp
  · exact sameCfg_trans ⟨rfl, rfl, rfl⟩ h3

/-- Effect summary of `increase_degree`. -/
theorem increase_degree_spec (st : AlgoPolyPa) (u : Nat) :
    degList (increase_degree st u) =
        (degList st).set u ((degList st).getD u 0 + 1) ∧
      (increase_degree st u).nodes.length = st.nodes.length ∧
      SameCfg st (increase_degree st u) ∧
      (increase_degree st u).num_current_nodes = st.num_current_nodes ∧
      ∀ x ∈ (increase_degree st u).proposal_list,
        x ∈ st.proposal_list ∨ x = u := by
  unfold increase_degree
  obtain ⟨h1, h2, h3, h4, h5⟩ :=
    set_degree_spec st u ((st.nodes.getD u default).degree + 1)
  have hdeg : (degList st).getD u 0 = (st.nodes.getD u default).degree := by
    show (st.nodes.map fun i => i.degree).getD u ((default : SeqNodeInfo).degree) = _
    exact list_getD_map (fun i : SeqNodeInfo => i.degree) st.nodes u default
  refine ⟨?_, h2, h3, h4, h5⟩
  rw [h1, ← hdeg]

/-- Effect summary of the host-commit fold
(`for h in hosts { increase_degree(h); … }`). -/
theorem foldl_increase_spec :
    ∀ (hosts : List Nat) (st : AlgoPolyPa),
      (∀ h ∈ hosts, h < st.nodes.length) →
      degreeSum (hosts.foldl increase_degree st) =
          degreeSum st + hosts.length ∧
        (∀ v, v ∉ hosts →
          degOf (hosts.foldl increase_degree st) v = degOf st v) ∧
        (hosts.foldl increase_degree st).nodes.length = st.nodes.length ∧
        SameCfg st (hosts.foldl increase_degree st) ∧
        (hosts.foldl increase_degree st).num_current_nodes =
          st.num_current_nodes ∧
        ∀ x ∈ (hosts.foldl increase_degree st).proposal_list,
          x ∈ st.proposal_list ∨ x ∈ hosts := by
  intro hosts
  induction hosts with
  | nil => intro st _; exact ⟨by simp, fun v _ => rfl, rfl, sameCfg_refl st, rfl,
      fun x hx => Or.inl hx⟩
  | cons h hs ih =>
    intro st hbound
    obtain ⟨s1, s2, s3, s4, s5⟩ := increase_degree_spec st h
    have hlen : ∀ x ∈ hs, x < (increase_degree st h).nodes.length := by
      intro x hx
      rw [s2]
      exact hbound x (List.mem_cons_of_mem h hx)
    obtain ⟨i1, i2, i3, i4, i5, i6⟩ := ih (increase_degree st h) hlen
    have hh : h < st.nodes.length := hbound h (List.mem_cons_self h hs)
    have hlen2 : h < (degList st).length := by
      rw [degList, List.length_map]; exact hh
    simp only [List.foldl_cons]
    constructor
    · rw [i1]
      have hsum := list_sum_set (degList st) h ((degList st).getD h 0 + 1) hlen2
      show degreeSum (increase_degree st h) + hs.length =
        degreeSum st + (h :: hs).length
      unfold degreeSum
      rw [s1]
      simp only [List.length_cons]
      omega
    constructor
    · intro v hv
      have hv1 : v ∉ hs := fun hc => hv (List.mem_cons_of_mem h hc)
      have hv2 : v ≠ h := fun hc => hv (hc ▸ List.mem_cons_self h hs)
      rw [i2 v hv1]
      unfold degOf
      rw [s1, list_getD_set_ne _ _ _ _ _ (fun hc => hv2 hc.symm)]
    refine ⟨by rw [i3, s2], sameCfg_trans s3 i4, by rw [i5, s4], ?_⟩
    · intro x hx
      rcases i6 x hx with h1 | h1
      · rcases s5 x h1 with h2 | h2
        · exact Or.inl h2
        · exact Or.inr (h2 ▸ List.mem_cons_self h hs)
      · exact Or.inr (List.mem_cons_of_mem h h1)

end AlgoPolyPa

namespace AlgoPolyPa

/-- A successful `sample_host` returns an element of the proposal
list. -/
theorem sample_host_mem (rng : SeqRng) (st : AlgoPolyPa)
    (reject : Nat → Bool) :
    ∀ (fuel t h t2 : Nat), sample_host rng st reject fuel t = some (h, t2) →
      h ∈ st.proposal_list := by
  intro fuel
  induction fuel with
  | zero => intro t h t2 hs; simp [sample_host] at hs
  | succ n ih =>
    intro t h t2 hs
    unfold sample_host at hs
    by_cases hlen : st.proposal_list.length = 0
    · rw [dif_pos hlen] at hs
      exact absurd hs (by simp)
    · rw [dif_neg hlen] at hs
      dsimp only at hs
      split_ifs at hs with hrej hacc
      · exact ih _ _ _ hs
      · have hmod : rng.choose t % st.proposal_list.length <
            st.proposal_list.length :=
          Nat.mod_lt _ (Nat.pos_of_ne_zero hlen)
        have := list_getD_mem st.proposal_list
          (rng.choose t % st.proposal_list.length) 0 hmod
        cases hs
        exact this
      · exact ih _ _ _ hs

/-- A successful filling loop produces `need` more hosts, each taken
from the existing hosts or the proposal list. -/
theorem fill_hosts_aux_spec (rng : SeqRng) (st : AlgoPolyPa)
    (reject : List Nat → Nat → Bool) :
    ∀ (need : Nat) (hosts : List Nat) (fuel t : Nat)
      (out : List Nat × Nat),
      fill_hosts_aux rng st reject need hosts fuel t = some out →
      out.1.length = hosts.length + need ∧
        ∀ x ∈ out.1, x ∈ hosts ∨ x ∈ st.proposal_list := by
  intro need
  induction need with
  | zero =>
    intro hosts fuel t out hs
    cases hs
    exact ⟨rfl, fun x hx => Or.inl hx⟩
  | succ n ih =>
    intro hosts fuel t out hs
    unfold fill_hosts_aux at hs
    cases hsh : sample_host rng st (reject hosts) fuel t with
    | none => rw [hsh] at hs; exact absurd hs (by simp)
    | some p =>
      rw [hsh] at hs
      obtain ⟨h1, h2⟩ := ih (hosts ++ [p.1]) fuel p.2 out hs
      constructor
      · rw [h1]; simp; omega
      · intro x hx
        rcases h2 x hx with hx1 | hx1
        · rcases List.mem_append.mp hx1 with hx2 | hx2
          · exact Or.inl hx2
          · have : x = p.1 := by simpa using hx2
            exact Or.inr (this ▸ sample_host_mem rng st _ fuel t p.1 p.2
              (by rw [hsh]))
        · exact Or.inr hx1

/-- A successful reverse weighted scan returns an entry of its input
list. -/
theorem find_prev_host_mem :
    ∀ (l : List (Nat × Nat × ℚ)) (rw : ℚ) (i node : Nat) (wq : ℚ),
      find_prev_host l rw = some (i, node, wq) → (i, node, wq) ∈ l := by
  intro l
  induction l with
  | nil => intro rw i node wq hs; simp [find_prev_host] at hs
  | cons e rest ih =>
    intro rw i node wq hs
    obtain ⟨j, nd, w⟩ := e
    unfold find_prev_host at hs
    split_ifs at hs with hlt
    · cases hs
      exact List.mem_cons_self _ _
    · exact List.mem_cons_of_mem _ (ih _ i node wq hs)

/-- A successful resampling loop produces `need` more hosts, each a
current host, a previous host, or a proposal-list entry. -/
theorem resample_hosts_aux_spec (rng : SeqRng) (st : AlgoPolyPa) :
    ∀ (need : Nat) (prev_hosts : List (Nat × ℚ)) (hosts : List Nat)
      (tw htw : ℚ) (fuel t : Nat) (out : List Nat × Nat),
      resample_hosts_aux rng st need prev_hosts hosts tw htw fuel t =
        some out →
      out.1.length = hosts.length + need ∧
        ∀ x ∈ out.1, x ∈ hosts ∨ (∃ q, (x, q) ∈ prev_hosts) ∨
          x ∈ st.proposal_list := by
  intro need
  induction need with
  | zero =>
    intro prev_hosts hosts tw htw fuel t out hs
    cases hs
    exact ⟨rfl, fun x hx => Or.inl hx⟩
  | succ n ih =>
    intro prev_hosts hosts tw htw fuel t out hs
    unfold resample_hosts_aux at hs
    dsimp only at hs
    split_ifs at hs with hlt
    · cases hfind : find_prev_host prev_hosts.enum.reverse (rng.genq t) with
      | none => rw [hfind] at hs; exact absurd hs (by simp)
      | some p =>
        obtain ⟨index, node, host_weight⟩ := p
        rw [hfind] at hs
        obtain ⟨h1, h2⟩ := ih (prev_hosts.eraseIdx index) (hosts ++ [node]) _ _
          fuel (t + 1) out hs
        have hnodemem : (node, host_weight) ∈ prev_hosts := by
          have hm := find_prev_host_mem _ _ _ _ _ hfind
          have hm2 := List.mem_reverse.mp hm
          exact list_mem_enumFrom_snd prev_hosts 0 index (node, host_weight) hm2
        constructor
        · rw [h1]; simp; omega
        · intro x hx
          rcases h2 x hx with hx1 | hx1 | hx1
          · rcases List.mem_append.mp hx1 with hx2 | hx2
            · exact Or.inl hx2
            · have hxn : x = node := by simpa using hx2
              exact Or.inr (Or.inl ⟨host_weight, hxn ▸ hnodemem⟩)
          · obtain ⟨q, hq⟩ := hx1
            exact Or.inr (Or.inl ⟨q, list_mem_eraseIdx _ _ _ hq⟩)
          · exact Or.inr (Or.inr hx1)
    · cases hsh : sample_host rng st
          (fun u => prev_hosts.any (fun p => p.1 = u) || hosts.contains u)
          fuel (t + 1) with
      | none => rw [hsh] at hs; exact absurd hs (by simp)
      | some p =>
        rw [hsh] at hs
        obtain ⟨h1, h2⟩ := ih prev_hosts (hosts ++ [p.1]) _ _ fuel p.2 out hs
        constructor
        · rw [h1]; simp; omega
        · intro x hx
          rcases h2 x hx with hx1 | hx1 | hx1
          · rcases List.mem_append.mp hx1 with hx2 | hx2
            · exact Or.inl hx2
            · have hxp : x = p.1 := by simpa using hx2
              exact Or.inr (Or.inr (hxp ▸ sample_host_mem rng st _ fuel (t + 1)
                p.1 p.2 (by rw [hsh])))
          · exact Or.inr (Or.inl hx1)
          · exact Or.inr (Or.inr hx1)

end AlgoPolyPa

namespace AlgoPolyPa

/-- Any successfully chosen host vector has exactly `initial_degree`
entries, each a previous host or a proposal-list entry. -/
theorem choose_hosts_spec (rng : SeqRng) (st : AlgoPolyPa) (prev : List Nat)
    (fuel t : Nat) (out : List Nat × Nat)
    (hrun : choose_hosts rng st prev fuel t = some out) :
    out.1.length = st.initial_degree ∧
      ∀ x ∈ out.1, x ∈ prev ∨ x ∈ st.proposal_list := by
  unfold choose_hosts at hrun
  split_ifs at hrun with h1 h2
  · obtain ⟨hl, hm⟩ := resample_hosts_aux_spec rng st _ _ _ _ _ _ _ _ hrun
    refine ⟨by simpa using hl, ?_⟩
    intro x hx
    rcases hm x hx with hx1 | hx1 | hx1
    · simp at hx1
    · obtain ⟨q, hq⟩ := hx1
      have hq2 := (List.mergeSort_perm
        (prev.map fun s => (s, (st.nodes.getD s default).weight)) _).mem_iff.mp hq
      obtain ⟨s, hs, hsx⟩ := List.mem_map.mp hq2
      exact Or.inl ((Prod.mk.injEq _ _ _ _).mp hsx |>.1 ▸ hs)
    · exact Or.inr hx1
  · obtain ⟨hl, hm⟩ := fill_hosts_aux_spec rng st _ _ _ _ _ _ hrun
    refine ⟨by simpa using hl, ?_⟩
    intro x hx
    rcases hm x hx with hx1 | hx1
    · simp at hx1
    · exact Or.inr hx1
  · obtain ⟨hl, hm⟩ := fill_hosts_aux_spec rng st _ _ _ _ _ _ hrun
    refine ⟨by simpa using hl, ?_⟩
    intro x hx
    rcases hm x hx with hx1 | hx1
    · simp at hx1
    · exact Or.inr hx1

/-- Effect summary of one loop iteration of `AlgoPolyPa::run`: the
degree sum grows by `2·d`, proposal-list entries and positive degrees
stay below the node counter, and the iteration emits exactly the `d`
edges `(new_node, host)`. -/
theorem run_step_spec (rng : SeqRng) (st : AlgoPolyPa) (prev : List Nat)
    (m fuel t : Nat) (out : AlgoPolyPa × List Nat × List (Nat × Nat) × Nat)
    (hrun : run_step rng st prev m fuel t = some out)
    (hlen : st.nodes.length = st.num_total_nodes)
    (hm : m < st.num_total_nodes)
    (hprop : ∀ x ∈ st.proposal_list, x < m)
    (hprev : ∀ x ∈ prev, x < m)
    (hzero : ∀ v, m ≤ v → degOf st v = 0) :
    SameCfg st out.1 ∧
      out.1.nodes.length = st.num_total_nodes ∧
      (∀ x ∈ out.1.proposal_list, x < m + 1) ∧
      (∀ v, m + 1 ≤ v → degOf out.1 v = 0) ∧
      degreeSum out.1 = degreeSum st + 2 * st.initial_degree ∧
      out.2.1.length = st.initial_degree ∧
      (∀ x ∈ out.2.1, x < m) ∧
      out.2.2.1 = out.2.1.map (fun h => (m, h)) := by
  unfold run_step at hrun
  cases hch : choose_hosts rng st prev fuel t with
  | none => rw [hch] at hrun; exact absurd hrun (by simp)
  | some p =>
    rw [hch] at hrun
    obtain ⟨hosts, t2⟩ := p
    dsimp only at hrun
    obtain ⟨hclen, hcmem⟩ := choose_hosts_spec rng st prev fuel t _ hch
    have hhost : ∀ x ∈ hosts, x < m := by
      intro x hx
      rcases hcmem x hx with h1 | h1
      · exact hprev x h1
      · exact hprop x h1
    cases hrun
    set stA : AlgoPolyPa := { st with num_current_nodes := m } with hstA
    have hAdeg : degList stA = degList st := rfl
    have hAlen : stA.nodes.length = st.nodes.length := rfl
    have hAbound : ∀ h ∈ hosts, h < stA.nodes.length := by
      intro h hh
      rw [hAlen, hlen]
      exact lt_trans (hhost h hh) hm
    obtain ⟨f1, f2, f3, f4, f5, f6⟩ := foldl_increase_spec hosts stA hAbound
    set stB : AlgoPolyPa := hosts.foldl increase_degree stA with hstB
    have hBm : degOf stB m = 0 := by
      have hnm : m ∉ hosts := fun hc => lt_irrefl m (hhost m hc)
      rw [f2 m hnm]
      show (degList stA).getD m 0 = 0
      rw [hAdeg]
      exact hzero m (le_refl m)
    have hBlen : stB.nodes.length = st.nodes.length := by rw [f3, hAlen]
    have hBinit : stB.initial_degree = st.initial_degree := f4.2.2
    obtain ⟨s1, s2, s3, s4, s5⟩ := set_degree_spec stB m stB.initial_degree
    have hmlen : m < (degList stB).length := by
      rw [degList, List.length_map, hBlen, hlen]
      exact hm
    refine ⟨?_, ?_, ?_, ?_, ?_, hclen, hhost, rfl⟩
    · exact sameCfg_trans (sameCfg_trans (sameCfg_refl st) f4) s3
    · rw [s2, hBlen, hlen]
    · intro x hx
      rcases s5 x hx with h1 | h1
      · rcases f6 x h1 with h2 | h2
        · exact lt_trans (hprop x h2) (Nat.lt_succ_self m)
        · exact lt_trans (hhost x h2) (Nat.lt_succ_self m)
      · omega
    · intro v hv
      show (degList _).getD v 0 = 0
      rw [s1, list_getD_set_ne _ _ _ _ _ (by omega)]
      have hvnot : v ∉ hosts := fun hc => by
        have := hhost v hc
        omega
      have := f2 v hvnot
      show (degList stB).getD v 0 = 0
      have h0 : degOf stB v = 0 := by
        rw [this]
        show (degList stA).getD v 0 = 0
        rw [hAdeg]
        exact hzero v (by omega)
      exact h0
    · show (degList (set_degree stB m stB.initial_degree)).sum =
        (degList st).sum + 2 * st.initial_degree
      rw [s1]
      have hsum := list_sum_set (degList stB) m stB.initial_degree hmlen
      have hBsum : (degList stB).sum = (degList stA).sum + hosts.length := f1
      have hAsum : (degList stA).sum = (degList st).sum := by rw [hAdeg]
      have hgB : (degList stB).getD m 0 = 0 := hBm
      have hBi : stB.initial_degree = st.initial_degree := hBinit
      have hcl : hosts.length = st.initial_degree := hclen
      omega

/-- Effect summary of the whole `AlgoPolyPa::run` loop, by induction
over the remaining iterations. -/
theorem run_from_spec (rng : SeqRng) :
    ∀ (r : Nat) (st : AlgoPolyPa) (prev : List Nat)
      (edges : List (Nat × Nat)) (m fuel t : Nat)
      (out : AlgoPolyPa × List (Nat × Nat)),
      run_from rng r st prev edges m fuel t = some out →
      st.nodes.length = st.num_total_nodes →
      m + r = st.num_total_nodes →
      (∀ x ∈ st.proposal_list, x < m) →
      (∀ x ∈ prev, x < m) →
      (∀ v, m ≤ v → degOf st v = 0) →
      degreeSum out.1 = degreeSum st + 2 * st.initial_degree * r ∧
        out.2.length = edges.length + st.initial_degree * r ∧
        (∀ e ∈ out.2, e ∈ edges ∨
          (e.1 < st.num_total_nodes ∧ e.2 < st.num_total_nodes)) := by
  intro r
  induction r with
  | zero =>
    intro st prev edges m fuel t out hrun _ _ _ _ _
    cases hrun
    exact ⟨by simp, by simp, fun e he => Or.inl he⟩
  | succ n ih =>
    intro st prev edges m fuel t out hrun hlen hmr hprop hprev hzero
    unfold run_from at hrun
    cases hst : run_step rng st prev m fuel t with
    | none => rw [hst] at hrun; exact absurd hrun (by simp)
    | some q =>
      rw [hst] at hrun
      obtain ⟨st2, hosts, es, t2⟩ := q
      dsimp only at hrun
      have hm : m < st.num_total_nodes := by omega
      obtain ⟨p1, p2, p3, p4, p5, p6, p7, p8⟩ :=
        run_step_spec rng st prev m fuel t _ hst hlen hm hprop hprev hzero
      dsimp only at p1 p2 p3 p4 p5 p6 p7 p8
      have hcfg := p1
      have hlen2 : st2.nodes.length = st2.num_total_nodes := by
        rw [p2, hcfg.1]
      have hmr2 : (m + 1) + n = st2.num_total_nodes := by
        rw [hcfg.1]; omega
      have hprev2 : ∀ x ∈ hosts, x < m + 1 := by
        intro x hx
        exact lt_trans (p7 x hx) (Nat.lt_succ_self m)
      obtain ⟨c1, c2, c3⟩ := ih st2 hosts (edges ++ es) (m + 1) fuel t2 out
        hrun hlen2 hmr2 p3 hprev2 p4
      have hd : st2.initial_degree = st.initial_degree := hcfg.2.2
      refine ⟨?_, ?_, ?_⟩
      · rw [c1, p5, hd]
        ring
      · rw [c2]
        have heslen : es.length = st.initial_degree := by
          rw [p8, List.length_map, p6]
        simp only [List.length_append, heslen, hd]
        ring
      · intro e he
        rcases c3 e he with h1 | h1
        · rcases List.mem_append.mp h1 with h2 | h2
          · exact Or.inl h2
          · right
            rw [p8] at h2
            obtain ⟨h0, hh0, hech⟩ := List.mem_map.mp h2
            constructor
            · rw [← hech]; exact hm
            · rw [← hech]
              exact lt_trans (p7 h0 hh0) hm
        · right
          rw [hcfg.1] at h1
          exact h1

end AlgoPolyPa

/-- Auxiliary: every `getD` of a constant list with matching default
is that constant. -/
theorem list_getD_replicate {α : Type} (a : α) :
    ∀ (n i : Nat), (List.replicate n a).getD i a = a := by
  intro n
  induction n with
  | zero => intro i; simp
  | succ m ih =>
    intro i
    cases i with
    | zero => rfl
    | succ j => exact ih j

namespace AlgoPolyPa

/-- Effect summary of the seed-degree fold: each slot `s + i` receives
degree `degrees[i]`; previously zero degrees make the sum grow by
exactly the seed-degree sum. -/
theorem seed_fold_spec :
    ∀ (degrees : List Nat) (s : Nat) (st : AlgoPolyPa),
      s + degrees.length ≤ st.nodes.length →
      (∀ i, s ≤ i → degOf st i = 0) →
      degreeSum ((degrees.enumFrom s).foldl seed_step st) =
          degreeSum st + degrees.sum ∧
        (∀ v, s + degrees.length ≤ v →
          degOf ((degrees.enumFrom s).foldl seed_step st) v = 0) ∧
        ((degrees.enumFrom s).foldl seed_step st).nodes.length =
          st.nodes.length ∧
        ((degrees.enumFrom s).foldl seed_step st).proposal_list =
          st.proposal_list ∧
        SameCfg st ((degrees.enumFrom s).foldl seed_step st) ∧
        ((degrees.enumFrom s).foldl seed_step st).num_current_nodes =
          st.num_current_nodes := by
  intro degrees
  induction degrees with
  | nil =>
    intro s st _ hz
    exact ⟨by simp [List.enumFrom], fun v hv => hz v (by simpa using hv),
      by simp [List.enumFrom], by simp [List.enumFrom],
      by simp [List.enumFrom, sameCfg_refl], by simp [List.enumFrom]⟩
  | cons dg rest ih =>
    intro s st hle hz
    have hstep : (List.enumFrom s (dg :: rest)).foldl seed_step st =
        (List.enumFrom (s + 1) rest).foldl seed_step (seed_step st (s, dg)) := rfl
    have hslen : s < st.nodes.length := by
      simp only [List.length_cons] at hle
      omega
    have hdlen : s < (degList st).length := by
      rw [degList, List.length_map]; exact hslen
    -- effect of the single step
    have e1 : degList (seed_step st (s, dg)) = (degList st).set s dg := by
      unfold seed_step
      show (st.nodes.set s _).map _ = _
      rw [degList, list_map_set]
    have e2 : (seed_step st (s, dg)).nodes.length = st.nodes.length := by
      unfold seed_step; simp
    have e3 : (seed_step st (s, dg)).proposal_list = st.proposal_list := rfl
    have e4 : SameCfg st (seed_step st (s, dg)) := ⟨rfl, rfl, rfl⟩
    have e5 : (seed_step st (s, dg)).num_current_nodes =
        st.num_current_nodes := rfl
    have hz1 : ∀ i, s + 1 ≤ i → degOf (seed_step st (s, dg)) i = 0 := by
      intro i hi
      show (degList _).getD i 0 = 0
      rw [e1, list_getD_set_ne _ _ _ _ _ (by omega)]
      exact hz i (by omega)
    have hle1 : (s + 1) + rest.length ≤ (seed_step st (s, dg)).nodes.length := by
      rw [e2]
      simp only [List.length_cons] at hle
      omega
    obtain ⟨i1, i2, i3, i4, i5, i6⟩ := ih (s + 1) (seed_step st (s, dg)) hle1 hz1
    rw [hstep]
    refine ⟨?_, ?_, by rw [i3, e2], by rw [i4, e3], sameCfg_trans e4 i5,
      by rw [i6, e5]⟩
    · rw [i1]
      have hsum := list_sum_set (degList st) s dg hdlen
      have hg : (degList st).getD s 0 = 0 := hz s (le_refl s)
      show degreeSum (seed_step st (s, dg)) + rest.sum =
        degreeSum st + (dg :: rest).sum
      unfold degreeSum
      rw [e1]
      simp only [List.sum_cons]
      omega
    · intro v hv
      simp only [List.length_cons] at hv
      exact i2 v (by omega)

/-- Effect summary of the initial replica loop: degrees untouched,
proposal entries come from the iterated node list. -/
theorem foldl_update_counts_spec :
    ∀ (L : List Nat) (st : AlgoPolyPa),
      degList (L.foldl update_node_counts_in_proposal_list st) = degList st ∧
        (L.foldl update_node_counts_in_proposal_list st).nodes.length =
          st.nodes.length ∧
        SameCfg st (L.foldl update_node_counts_in_proposal_list st) ∧
        (L.foldl update_node_counts_in_proposal_list st).num_current_nodes =
          st.num_current_nodes ∧
        ∀ x ∈ (L.foldl update_node_counts_in_proposal_list st).proposal_list,
          x ∈ st.proposal_list ∨ x ∈ L := by
  intro L
  induction L with
  | nil => intro st; exact ⟨rfl, rfl, sameCfg_refl st, rfl, fun x hx => Or.inl hx⟩
  | cons u us ih =>
    intro st
    obtain ⟨u1, u2, u3, u4, u5⟩ := update_counts_spec st u
    obtain ⟨i1, i2, i3, i4, i5⟩ := ih (update_node_counts_in_proposal_list st u)
    simp only [List.foldl_cons]
    refine ⟨by rw [i1, u1], by rw [i2, u2], sameCfg_trans u3 i3,
      by rw [i4, u4], ?_⟩
    intro x hx
    rcases i5 x hx with h1 | h1
    · rcases u5 x h1 with h2 | h2
      · exact Or.inl h2
      · exact Or.inr (h2 ▸ List.mem_cons_self u us)
    · exact Or.inr (List.mem_cons_of_mem u h1)

/-- Effect summary of `set_seed_graph_degrees` on a freshly constructed
state. -/
theorem set_seed_spec (st st0 : AlgoPolyPa) (degrees : List Nat)
    (hseed : set_seed_graph_degrees st degrees = some st0)
    (hle : degrees.length ≤ st.nodes.length)
    (hz : ∀ i, degOf st i = 0) :
    degreeSum st0 = degreeSum st + degrees.sum ∧
      (∀ v, degrees.length ≤ v → degOf st0 v = 0) ∧
      st0.nodes.length = st.nodes.length ∧
      SameCfg st st0 ∧
      st0.num_current_nodes = st.num_seed_nodes ∧
      ∀ x ∈ st0.proposal_list,
        x ∈ st.proposal_list ∨ x < st.num_seed_nodes := by
  unfold set_seed_graph_degrees at hseed
  split_ifs at hseed with hguard
  obtain ⟨s1, s2, s3, s4, s5, s6⟩ :=
    seed_fold_spec degrees 0 st (by simpa using hle) (fun i _ => hz i)
  set stS : AlgoPolyPa := (degrees.enumFrom 0).foldl seed_step st with hstS
  set stC : AlgoPolyPa := { stS with num_current_nodes := stS.num_seed_nodes }
    with hstC
  have hCdeg : degList stC = degList stS := rfl
  have hClen : stC.nodes.length = stS.nodes.length := rfl
  have hCprop : stC.proposal_list = stS.proposal_list := rfl
  obtain ⟨f1, f2, f3, f4, f5⟩ :=
    foldl_update_counts_spec (List.range stS.num_seed_nodes) stC
  have hout : st0 = (List.range stS.num_seed_nodes).foldl
      update_node_counts_in_proposal_list stC := by
    have : List.enum degrees = List.enumFrom 0 degrees := rfl
    cases hseed
    rfl
  rw [hout]
  have hseedcfg : stS.num_seed_nodes = st.num_seed_nodes := s5.2.1
  refine ⟨?_, ?_, ?_, ?_, ?_, ?_⟩
  · show (degList _).sum = _
    rw [f1, hCdeg]
    exact s1
  · intro v hv
    show (degList _).getD v 0 = 0
    rw [f1, hCdeg]
    exact s2 v (by omega)
  · rw [f2, hClen, s3]
  · exact sameCfg_trans s5 (sameCfg_trans ⟨rfl, rfl, rfl⟩ f3)
  · rw [f4]
    show stS.num_seed_nodes = st.num_seed_nodes
    exact hseedcfg
  · intro x hx
    rcases f5 x hx with h1 | h1
    · rw [hCprop, s4] at h1
      exact Or.inl h1
    · right
      rw [← hseedcfg]
      exact List.mem_range.mp h1

end AlgoPolyPa

/-- Epoch-level degree bookkeeping of the parallel engine
(`src/algorithm/algo_parallel_poly_pa/worker.rs`). One `Epoch` record
captures the committed outcome of one barrier-to-barrier round:
`epoch_end` is the agreed `epoch_ends_with_node` (the
`epoch_ends_with_node` cell lives in the shared state used by
`worker.rs`; its declaration is not part of the `shared_state.rs`
snapshot, so it is carried here directly), `phase2_hosts` are the
hosts committed by all workers in `phase2_update_proposal_list`
(`d` per contributed node, the seam node excluded), and
`phase3_hosts` are the seam node's hosts drawn in
`phase3_sample_collision`. -/
structure Epoch where
  epoch_end : Nat
  phase2_hosts : List Nat
  phase3_hosts : List Nat

namespace ParPolyPa

/-- Well-formedness of an epoch sequence, mirroring what the worker
protocol guarantees at each barrier: every epoch commits at least its
seam node and at most the remaining nodes, phase-2 hosts were sampled
against the previous epochs' proposal list (hence are committed
nodes), one host batch of size `d` exists per contributed node, and
the seam hosts are drawn after compaction from nodes below the new
boundary. -/
def WfEpochs (d n : Nat) : Nat → List Epoch → Prop
  | _, [] => True
  | ncur, ep :: rest =>
    ncur < ep.epoch_end ∧ ep.epoch_end ≤ n ∧
      ep.phase2_hosts.length = (ep.epoch_end - ncur - 1) * d ∧
      (∀ h ∈ ep.phase2_hosts, h < ncur) ∧
      ep.phase3_hosts.length = d ∧
      (∀ h ∈ ep.phase3_hosts, h < ep.epoch_end) ∧
      WfEpochs d n ep.epoch_end rest

/-- Decision procedure for `WfEpochs`. -/
def WfEpochs.dec (d n : Nat) :
    (ncur : Nat) → (eps : List Epoch) → Decidable (WfEpochs d n ncur eps)
  | _, [] => Decidable.isTrue trivial
  | ncur, ep :: rest =>
    haveI : Decidable (WfEpochs d n ep.epoch_end rest) :=
      WfEpochs.dec d n ep.epoch_end rest
    inferInstanceAs (Decidable (_ ∧ _ ∧ _ ∧ _ ∧ _ ∧ _ ∧ _))

instance (d n ncur : Nat) (eps : List Epoch) :
    Decidable (WfEpochs d n ncur eps) :=
  WfEpochs.dec d n ncur eps

end ParPolyPa

/-- `AlgoParallelPolyPa::run`
(`src/algorithm/algo_parallel_poly_pa/mod.rs`, lines 100–120) receives
its writer argument as `_writer` and never calls `add_edge` on it; the
body only spawns and joins the worker threads. The recorded list of
`add_edge` calls of a parallel run is therefore empty, whatever the
epochs commit. -/
def AlgoParallelPolyPa.run_add_edge_calls (eps : List Epoch) :
    List (Nat × Nat) :=
  []

/-- Extraction of the input-length assertion of
`set_seed_graph_degrees`. -/
theorem AlgoPolyPa.set_seed_guard (st st0 : AlgoPolyPa) (degrees : List Nat)
    (hseed : st.set_seed_graph_degrees degrees = some st0) :
    degrees.length = st.num_seed_nodes := by
  unfold AlgoPolyPa.set_seed_graph_degrees at hseed
  split_ifs at hseed with hguard
  exact hguard

/-- All degrees of a freshly constructed sequential state are zero. -/
theorem AlgoPolyPa.degOf_new (w : Nat → ℚ) (n₀ nr d : Nat)
    (worep res : Bool) (i : Nat) :
    (AlgoPolyPa.new w n₀ nr d worep res).degOf i = 0 := by
  show ((List.replicate (n₀ + nr) (default : SeqNodeInfo)).map
    (fun i => i.degree)).getD i 0 = 0
  rw [List.map_replicate]
  exact list_getD_replicate 0 (n₀ + nr) i

/-- Common part of C1 and C2: the loop effect of a full sequential run
started from an accepted seeding. -/
theorem AlgoPolyPa.seeded_run_spec (w : Nat → ℚ) (n₀ nr d : Nat)
    (degrees : List Nat) (worep res : Bool) (rng : SeqRng) (fuel t : Nat)
    (st0 st1 : AlgoPolyPa) (edges : List (Nat × Nat))
    (hseed : (AlgoPolyPa.new w n₀ nr d worep res).set_seed_graph_degrees
      degrees = some st0)
    (hrun : AlgoPolyPa.run rng st0 fuel t = some (st1, edges)) :
    AlgoPolyPa.degreeSum st1 = degrees.sum + 2 * d * nr ∧
      edges.length = d * nr ∧
      ∀ e ∈ edges, e.1 < n₀ + nr ∧ e.2 < n₀ + nr := by
  have hguard := AlgoPolyPa.set_seed_guard _ _ _ hseed
  have hNseed : (AlgoPolyPa.new w n₀ nr d worep res).num_seed_nodes = n₀ := rfl
  have hlen0 : degrees.length ≤
      (AlgoPolyPa.new w n₀ nr d worep res).nodes.length := by
    rw [hguard, hNseed]
    show n₀ ≤ (List.replicate (n₀ + nr) default).length
    simp
  obtain ⟨q1, q2, q3, q4, q5, q6⟩ := AlgoPolyPa.set_seed_spec _ st0 degrees
    hseed hlen0 (AlgoPolyPa.degOf_new w n₀ nr d worep res)
  have h0tot : st0.num_total_nodes = n₀ + nr := q4.1
  have h0seed : st0.num_seed_nodes = n₀ := q4.2.1
  have h0init : st0.initial_degree = d := q4.2.2
  have h0len : st0.nodes.length = st0.num_total_nodes := by
    rw [q3, h0tot]
    show (List.replicate (n₀ + nr) default).length = n₀ + nr
    simp
  have hsum0 : AlgoPolyPa.degreeSum st0 = degrees.sum := by
    rw [q1]
    have h1 : AlgoPolyPa.degreeSum (AlgoPolyPa.new w n₀ nr d worep res) = 0 := by
      show ((List.replicate (n₀ + nr) (default : SeqNodeInfo)).map
        (fun i => i.degree)).sum = 0
      rw [List.map_replicate]
      show (List.replicate (n₀ + nr) (0 : Nat)).sum = 0
      simp
    rw [h1]
    omega
  unfold AlgoPolyPa.run at hrun
  have hr : st0.num_seed_nodes +
      (st0.num_total_nodes - st0.num_seed_nodes) = st0.num_total_nodes := by
    rw [h0tot, h0seed]
    omega
  obtain ⟨r1, r2, r3⟩ := AlgoPolyPa.run_from_spec rng
    (st0.num_total_nodes - st0.num_seed_nodes) st0 [] []
    st0.num_seed_nodes fuel t (st1, edges) hrun h0len hr
    (fun x hx => by
      rcases q6 x hx with h1 | h1
      · exact absurd h1 (by
          show x ∉ ([] : List Nat)
          simp)
      · rw [hNseed] at h1
        rw [h0seed]
        exact h1)
    (by simp)
    (fun v hv => q2 v (by rw [hguard, hNseed] at *; omega))
  dsimp only at r1 r2 r3
  have hrsub : st0.num_total_nodes - st0.num_seed_nodes = nr := by
    rw [h0tot, h0seed]
    omega
  refine ⟨?_, ?_, ?_⟩
  · rw [r1, hsum0, h0init, hrsub]
  · rw [r2, h0init, hrsub]
    simp
  · intro e he
    rcases r3 e he with h1 | h1
    · exact absurd h1 (by simp)
    · rw [h0tot] at h1
      exact h1

/-- C2 as stated (for every algorithm variant the writer receives
exactly `d·(n − n₀)` `add_edge` calls) is refuted by the parallel
variant: its `run` ignores the writer, so a parallel run over one
epoch with `n₀ = 2`, `n = 3`, `d = 1` makes `0 ≠ 1·(3 − 2)` calls. -/
theorem claim_C2_counterexample_parallel_run :
    (AlgoParallelPolyPa.run_add_edge_calls
        [{ epoch_end := 3, phase2_hosts := [], phase3_hosts := [0] }]).length
        = 0 ∧
      1 * (3 - 2) = 1 ∧
      (AlgoParallelPolyPa.run_add_edge_calls
        [{ epoch_end := 3, phase2_hosts := [], phase3_hosts := [0] }]).length
        ≠ 1 * (3 - 2) := by
  refine ⟨rfl, rfl, ?_⟩
  decide

/-- C2 (amended). Edge-count and edge-bounds invariant, scoped to the
variants that drive the writer: every completed sequential poly-PA run
(with any flags and any accepted seed graph) calls `add_edge` exactly
`d·(n − n₀)` times and always with both endpoints below `n`; the
parallel variant never calls `add_edge`. -/
theorem claim_C2_edge_count_and_bounds :
    (∀ (w : Nat → ℚ) (n₀ nr d : Nat) (degrees : List Nat)
      (worep res : Bool) (rng : SeqRng) (fuel t : Nat)
      (st0 st1 : AlgoPolyPa) (edges : List (Nat × Nat)),
      (AlgoPolyPa.new w n₀ nr d worep res).set_seed_graph_degrees degrees =
        some st0 →
      AlgoPolyPa.run rng st0 fuel t = some (st1, edges) →
      edges.length = d * nr ∧
        ∀ e ∈ edges, e.1 < n₀ + nr ∧ e.2 < n₀ + nr) ∧
    ∀ (eps : List Epoch),
      (AlgoParallelPolyPa.run_add_edge_calls eps).length = 0 := by
  constructor
  · intro w n₀ nr d degrees worep res rng fuel t st0 st1 edges hseed hrun
    obtain ⟨_, h2, h3⟩ := AlgoPolyPa.seeded_run_spec w n₀ nr d degrees
      worep res rng fuel t st0 st1 edges hseed hrun
    exact ⟨h2, h3⟩
  · intro eps
    rfl

/-- Witness for C2 (amended) at the empty accepted run and the empty
parallel epoch list. -/
theorem claim_C2_edge_count_and_bounds_witness :
    ([] : List (Nat × Nat)).length = 1 * 0 ∧
      (AlgoParallelPolyPa.run_add_edge_calls []).length = 0 :=
  ⟨(claim_C2_edge_count_and_bounds.1 (fun _ => 1) 0 0 1 (List.replicate 0 1)
      false false ⟨fun _ => 0, fun _ => true, fun _ => 0⟩ 0 0
      (AlgoPolyPa.new (fun _ => 1) 0 0 1 false false)
      (AlgoPolyPa.new (fun _ => 1) 0 0 1 false false) [] rfl rfl).1,
    claim_C2_edge_count_and_bounds.2 []⟩

/-- Per-node record of the parallel engine
(`NodeInfo` in `src/algorithm/algo_parallel_poly_pa/shared_state.rs`):
`degree` starts at 0, `count` at 1, `weight` at 0. -/
structure ParNodeInfo where
  degree : Nat
  count : Nat
  weight : ℚ
deriving DecidableEq, Repr

instance : Inhabited ParNodeInfo := ⟨⟨0, 1, 0⟩⟩

/-- The shared `State` of the parallel engine restricted to the fields
the node-table operations read and write (`shared_state.rs`,
`worker.rs`). The worker-local `total_weight` accumulator is merged
into the state because the claims under check concern the per-node
`degree` and `count` cells only; `w` stands for
`weight_function.get`. -/
structure ParState where
  nodes : List ParNodeInfo
  proposal_list : List Nat
  total_weight : ℚ
  wmax : ℚ
  max_degree : Nat
  num_seed_nodes : Nat
  w : Nat → ℚ

namespace ParState

/-- Construction (`AlgoParallelPolyPa::new`): all node records are
`Default`. -/
def new (w : Nat → ℚ) (num_total_nodes num_seed_nodes : Nat) : ParState :=
  { nodes := List.replicate num_total_nodes default
    proposal_list := []
    total_weight := 0
    wmax := 0
    max_degree := 0
    num_seed_nodes := num_seed_nodes
    w := w }

/-- Degree cell of a node. -/
def degreeOf (st : ParState) (u : Nat) : Nat :=
  (st.nodes.getD u default).degree

/-- Count cell of a node. -/
def countOf (st : ParState) (u : Nat) : Nat :=
  (st.nodes.getD u default).count

/-- `Worker::increase_degree_of_node` (`worker.rs` lines 270–295):
`degree.fetch_add`, `weight.fetch_max`, total-weight delta, and the
raise-only `count.fetch_update` followed by pushing the fresh
replicas. -/
def increase_degree_of_node (st : ParState) (node degree_increase : Nat)
    (assumed_num_nodes : ℚ) : ParState :=
  let info := st.nodes.getD node default
  let old_degree := info.degree
  let new_degree := old_degree + degree_increase
  let new_weight := st.w new_degree
  let total_weight := st.total_weight + (new_weight - info.weight)
  let count := (Int.ceil (assumed_num_nodes * new_weight / total_weight)).toNat
  let raised := ¬ info.count ≥ count
  let new_count := if info.count ≥ count then info.count else count
  { st with
    nodes := st.nodes.set node
      { degree := new_degree, count := new_count,
        weight := max info.weight new_weight }
    total_weight := total_weight
    max_degree := max st.max_degree new_degree
    proposal_list :=
      if raised then st.proposal_list ++ List.replicate (count - info.count) node
      else st.proposal_list }

/-- `State::sequential_set_degree` (`shared_state.rs` lines 42–55):
`degree.swap`, `max_degree.fetch_max`, `weight.fetch_max` and the
total-weight delta. -/
def sequential_set_degree (st : ParState) (node degree : Nat) : ParState :=
  let info := st.nodes.getD node default
  let old_degree := info.degree
  let old_weight := st.w old_degree
  let new_weight := st.w degree
  { st with
    nodes := st.nodes.set node
      { degree := degree, count := info.count,
        weight := max info.weight new_weight }
    max_degree := max st.max_degree degree
    total_weight := st.total_weight + (new_weight - old_weight) }

/-- `State::sequential_increase_degree`. -/
def sequential_increase_degree (st : ParState) (node : Nat) : ParState :=
  sequential_set_degree st node ((st.nodes.getD node default).degree + 1)

/-- `State::sequential_update_node_counts_in_proposal_list`
(`shared_state.rs` lines 61–75): raise `count` to the ceiling target
only if it exceeds the current value, pushing the difference as
replicas, then refresh `wmax`. -/
def sequential_update_node_counts_in_proposal_list (st : ParState)
    (node : Nat) : ParState :=
  let info := st.nodes.getD node default
  let target_count :=
    (Int.ceil ((st.num_seed_nodes : ℚ) * info.weight / st.total_weight)).toNat
  let new_count := if info.count < target_count then target_count else info.count
  let st2 :=
    if info.count < target_count then
      { st with
        nodes := st.nodes.set node { info with count := new_count }
        proposal_list :=
          st.proposal_list ++ List.replicate (target_count - info.count) node }
    else st
  let info2 := st2.nodes.getD node default
  { st2 with wmax := max st.wmax (info2.weight / (info2.count : ℚ)) }

end ParState

/-- The node-table mutations of the parallel engine, as a transition
alphabet. -/
inductive ParOp where
  | increase (node degree_increase : Nat) (assumed_num_nodes : ℚ)
  | setDegree (node degree : Nat)
  | updateCounts (node : Nat)

/-- Apply one operation. -/
def ParState.applyOp (st : ParState) : ParOp → ParState
  | ParOp.increase node degree_increase assumed_num_nodes =>
    st.increase_degree_of_node node degree_increase assumed_num_nodes
  | ParOp.setDegree node degree => st.sequential_set_degree node degree
  | ParOp.updateCounts node =>
    st.sequential_update_node_counts_in_proposal_list node

/-- Call-site precondition: `sequential_set_degree` is only invoked
with a degree at least the current one (seed degrees replace the
initial 0; the phase-3 seam swap rewrites the value phase 2 already
committed; `sequential_increase_degree` passes `degree + 1`). -/
def ParOp.ok (st : ParState) : ParOp → Prop
  | ParOp.setDegree node degree => (st.nodes.getD node default).degree ≤ degree
  | _ => True

/-- Apply a sequence of operations. -/
def ParState.applyOps : ParState → List ParOp → ParState
  | st, [] => st
  | st, op :: rest => ParState.applyOps (st.applyOp op) rest

/-- Validity of a sequence of operations. -/
def ParOpsOk : ParState → List ParOp → Prop
  | _, [] => True
  | st, op :: rest => ParOp.ok st op ∧ ParOpsOk (st.applyOp op) rest

/-- Monotonicity of a single operation. -/
theorem ParState.applyOp_mono (st : ParState) (op : ParOp)
    (hok : ParOp.ok st op) (u : Nat) :
    st.degreeOf u ≤ (st.applyOp op).degreeOf u ∧
      st.countOf u ≤ (st.applyOp op).countOf u := by
  cases op with
  | increase node degree_increase assumed_num_nodes =>
    dsimp only [ParState.applyOp]
    unfold ParState.increase_degree_of_node ParState.degreeOf ParState.countOf
    dsimp only
    by_cases hu : node = u
    · subst hu
      by_cases hlen : node < st.nodes.length
      · rw [list_getD_set_self _ _ _ _ hlen]
        dsimp only
        constructor
        · omega
        · split_ifs with hc
          · exact le_refl _
          · omega
      · rw [List.set_eq_of_length_le (by omega)]
        exact ⟨le_refl _, le_refl _⟩
    · rw [list_getD_set_ne _ _ _ _ _ hu]
      exact ⟨le_refl _, le_refl _⟩
  | setDegree node degree =>
    dsimp only [ParState.applyOp]
    unfold ParState.sequential_set_degree ParState.degreeOf ParState.countOf
    unfold ParOp.ok at hok
    dsimp only
    by_cases hu : node = u
    · subst hu
      by_cases hlen : node < st.nodes.length
      · rw [list_getD_set_self _ _ _ _ hlen]
        exact ⟨hok, le_refl _⟩
      · rw [List.set_eq_of_length_le (by omega)]
        exact ⟨le_refl _, le_refl _⟩
    · rw [list_getD_set_ne _ _ _ _ _ hu]
      exact ⟨le_refl _, le_refl _⟩
  | updateCounts node =>
    dsimp only [ParState.applyOp]
    unfold ParState.sequential_update_node_counts_in_proposal_list
      ParState.degreeOf ParState.countOf
    dsimp only
    split_ifs with hc
    · dsimp only
      by_cases hu : node = u
      · subst hu
        by_cases hlen : node < st.nodes.length
        · rw [list_getD_set_self _ _ _ _ hlen]
          dsimp only
          constructor
          · exact le_refl _
          · omega
        · rw [List.set_eq_of_length_le (by omega)]
          exact ⟨le_refl _, le_refl _⟩
      · rw [list_getD_set_ne _ _ _ _ _ hu]
        exact ⟨le_refl _, le_refl _⟩
    · exact ⟨le_refl _, le_refl _⟩

/-- C5. Monotonicity: on the parallel node table, every reachable
operation (degree fetch-add; degree swap at its call sites, where the
new value is at least the current one; raise-only count update) leaves
each node's degree and count unchanged or larger; counts start at 1
and never drop below 1; hence the degree and count of every node
observed at the end of any epoch are at least the values observed at
the end of any earlier epoch. -/
theorem claim_C5_monotonicity :
    (∀ (w : Nat → ℚ) (n n₀ v : Nat),
      1 ≤ (ParState.new w n n₀).countOf v) ∧
    ∀ (st : ParState) (ops : List ParOp) (u : Nat),
      ParOpsOk st ops →
      st.degreeOf u ≤ (st.applyOps ops).degreeOf u ∧
        st.countOf u ≤ (st.applyOps ops).countOf u ∧
        ((∀ v, 1 ≤ st.countOf v) → ∀ v, 1 ≤ (st.applyOps ops).countOf v) := by
  constructor
  · intro w n n₀ v
    show 1 ≤ ((List.replicate n (default : ParNodeInfo)).getD v default).count
    rw [list_getD_replicate]
    exact le_refl 1
  · intro st ops
    induction ops generalizing st with
    | nil =>
      intro u _
      exact ⟨le_refl _, le_refl _, fun h v => h v⟩
    | cons op rest ih =>
      intro u hok
      obtain ⟨hok1, hok2⟩ := hok
      obtain ⟨m1, m2⟩ := ParState.applyOp_mono st op hok1 u
      obtain ⟨i1, i2, i3⟩ := ih (st.applyOp op) u hok2
      refine ⟨le_trans m1 i1, le_trans m2 i2, ?_⟩
      intro h v
      exact i3 (fun x => le_trans (h x)
        (ParState.applyOp_mono st op hok1 x).2) v

/-- Witness for C5 at a concrete state and operation sequence. -/
theorem claim_C5_monotonicity_witness :
    (ParState.new (fun _ => 1) 3 2).degreeOf 0 ≤
        ((ParState.new (fun _ => 1) 3 2).applyOps
          [ParOp.setDegree 0 1]).degreeOf 0 ∧
      (ParState.new (fun _ => 1) 3 2).countOf 0 ≤
        ((ParState.new (fun _ => 1) 3 2).applyOps
          [ParOp.setDegree 0 1]).countOf 0 ∧
      ((∀ v, 1 ≤ (ParState.new (fun _ => 1) 3 2).countOf v) →
        ∀ v, 1 ≤ ((ParState.new (fun _ => 1) 3 2).applyOps
          [ParOp.setDegree 0 1]).countOf v) :=
  claim_C5_monotonicity.2 (ParState.new (fun _ => 1) 3 2)
    [ParOp.setDegree 0 1] 0
    ⟨by
      show (((ParState.new (fun _ => 1) 3 2).nodes.getD 0 default)).degree ≤ 1
      decide, trivial⟩

/-- Sentinel cell value of the proposal list
(`UNINITIALIZED = Node::MAX` in
`src/algorithm/algo_parallel_poly_pa/proposal_list.rs`, with
`Node = usize` on a 64-bit target). -/
def UNINITIALIZED : Nat := 2 ^ 64 - 1

/-- Reservation block size (`BLOCK_SIZE`). -/
def BLOCK_SIZE : Nat := 128

/-- A half-open index range (`std::ops::Range<usize>`); `stop` plays
the role of the reserved word `end`. -/
structure BlockRange where
  start : Nat
  stop : Nat
deriving DecidableEq, Repr

instance : Inhabited BlockRange := ⟨⟨0, 0⟩⟩

/-- The shared `ProposalList`
(`src/algorithm/algo_parallel_poly_pa/proposal_list.rs`): buffer of
atomic cells, global reservation cursor, one unfinished-range slot per
writer, and the producer-id counter. -/
structure ProposalList where
  proposal_list : List Nat
  begin_of_next_block : Nat
  unfinished_blocks : List BlockRange
  producer_id : Nat
deriving DecidableEq, Repr

namespace ProposalList

/-- `ProposalList::new`: all cells start `UNINITIALIZED`. -/
def new (size num_threads : Nat) : ProposalList :=
  { proposal_list :=
      List.replicate (size + 2 * num_threads * BLOCK_SIZE) UNINITIALIZED
    begin_of_next_block := 0
    unfinished_blocks := List.replicate num_threads default
    producer_id := 0 }

/-- `ProposalList::unbuffered_push`: store `count` copies of `node` at
the cursor, advancing it. -/
def unbuffered_push : ProposalList → Nat → Nat → ProposalList
  | pl, _, 0 => pl
  | pl, node, count + 1 =>
    unbuffered_push
      { pl with
        proposal_list := pl.proposal_list.set pl.begin_of_next_block node
        begin_of_next_block := pl.begin_of_next_block + 1 }
      node count

end ProposalList

/-- A proposal-list `Writer` (one per worker); `start`/`stop` are the
source's `begin`/`end` cursor pair into the currently reserved
block. -/
structure Writer where
  producer_id : Nat
  start : Nat
  stop : Nat
deriving DecidableEq, Repr

namespace Writer

/-- `Writer::new`: take the next producer id; the `assert!` that it
indexes an unfinished-blocks slot is the `none` branch. -/
def new (pl : ProposalList) : Option (Writer × ProposalList) :=
  if pl.producer_id < pl.unfinished_blocks.length then
    some ({ producer_id := pl.producer_id, start := 0, stop := 0 },
      { pl with producer_id := pl.producer_id + 1 })
  else none

/-- `Writer::fetch_new_range`: advance the global cursor by one block;
the bounds `assert!` is the `none` branch. -/
def fetch_new_range (w : Writer) (pl : ProposalList) :
    Option (Writer × ProposalList) :=
  let b := pl.begin_of_next_block
  if b + BLOCK_SIZE < pl.proposal_list.length then
    some ({ w with start := b, stop := b + BLOCK_SIZE },
      { pl with begin_of_next_block := b + BLOCK_SIZE })
  else none

/-- `Writer::push`: store `count` copies of `node` into the reserved
range, fetching a fresh block whenever the range is exhausted. The
source loop stores `min(count, end − begin)` cells per block before
re-fetching; the embedding performs the same stores and fetches one
cell per step. The returned list collects the indices of the
performed unchecked stores (ghost information for the claims). -/
def push : Writer → ProposalList → Nat → Nat →
    Option (Writer × ProposalList × List Nat)
  | w, pl, _, 0 => some (w, pl, [])
  | w, pl, node, count + 1 =>
    match (if w.start = w.stop then w.fetch_new_range pl else some (w, pl)) with
    | none => none
    | some (w2, pl2) =>
      let pl3 := { pl2 with
        proposal_list := pl2.proposal_list.set w2.start node }
      match push { w2 with start := w2.start + 1 } pl3 node count with
      | none => none
      | some (w3, pl4, writes) => some (w3, pl4, w2.start :: writes)

/-- `Writer::free_unfinished_range`: record the unwritten remainder of
the current block in this writer's slot and park the cursor. -/
def free_unfinished_range (w : Writer) (pl : ProposalList) :
    Writer × ProposalList :=
  ({ w with start := w.stop },
   { pl with
      unfinished_blocks :=
        pl.unfinished_blocks.set w.producer_id ⟨w.start, w.stop⟩ })

end Writer

namespace ProposalList

/-- The stretches of initialised cells between consecutive gaps
(`tuple_windows` over the ascending gap list in
`compact_unfinished_ranges`). -/
def windows : List BlockRange → List BlockRange
  | [] => []
  | [_] => []
  | a :: b :: rest => ⟨a.stop, b.start⟩ :: windows (b :: rest)

/-- The two nested loops of `ProposalList::compact_from_lists`
(`'compacting` and the gap-filling loop) as one step function: the
`none` state is the head of the outer loop, `some gap_range` the head
of the inner loop. The source keeps `gap_list` sorted by descending
start and `set_list` ascending and pops both from the back; the
embedding keeps the same two stacks with the pop end at the head
(`gapsAsc` ascending, `setsDesc` descending), performing the identical
pops. The source stores `min(count, end - begin)` cells of a block in
an inner `for`; the embedding moves one cell per step, which performs
the same sequence of stores. `fuel` makes the recursion structural;
the loops always terminate and the theorems condition on the call
returning a value. -/
def compact_loop (buf : List Nat) (gapsAsc setsDesc : List BlockRange)
    (sr : BlockRange) : Option BlockRange → Nat → Option (Nat × List Nat)
  | _, 0 => none
  | none, fuel + 1 =>
    match gapsAsc with
    | [] => none
    | [g] => some (min g.start sr.stop, buf)
    | gr :: grest =>
      if sr.stop < gr.start then some (sr.stop, buf)
      else compact_loop buf grest setsDesc sr (some gr) fuel
  | some gr, fuel + 1 =>
    if sr.stop ≤ sr.start then
      match setsDesc with
      | [] => some (gr.start, buf)
      | b :: srest =>
        if gr.stop ≤ b.start then compact_loop buf gapsAsc srest b (some gr) fuel
        else some (gr.start, buf)
    else
      let sEnd := sr.stop - 1
      let value := buf.getD sEnd 0
      let buf2 := (buf.set gr.start value).set sEnd UNINITIALIZED
      if gr.stop ≤ gr.start + 1 then
        compact_loop buf2 gapsAsc setsDesc ⟨sr.start, sEnd⟩ none fuel
      else
        compact_loop buf2 gapsAsc setsDesc ⟨sr.start, sEnd⟩
          (some ⟨gr.start + 1, gr.stop⟩) fuel

/-- `ProposalList::compact_from_lists` entry: an empty set list
returns the top gap's start; otherwise the loops run with the highest
set as the initial source range. -/
def compact_from_lists (buf : List Nat) (gapsAsc setsDesc : List BlockRange)
    (fuel : Nat) : Option (Nat × List Nat) :=
  match setsDesc with
  | [] =>
    match gapsAsc with
    | [] => none
    | _ => some ((gapsAsc.getLastD default).start, buf)
  | b :: rest => compact_loop buf gapsAsc rest b none fuel

/-- `ProposalList::compact_unfinished_ranges`: collect the non-empty
recorded ranges as gaps, build the initialised stretches between them
(plus the final stretch up to the cursor when the highest gap does not
reach it), run the compaction and reset the cursor to the returned
end. The source sorts the gaps by descending start and pops from the
back; the embedding sorts ascending and pops from the front, the same
stack. Distinct recorded ranges have distinct starts, so the choice of
comparison sort (`sort_unstable_by_key` there, insertion sort here)
does not matter. -/
def compact_unfinished_ranges (pl : ProposalList) (fuel : Nat) :
    Option (Nat × ProposalList) :=
  let gap_list := pl.unfinished_blocks.filter (fun r => decide (r.start < r.stop))
  if gap_list.isEmpty then some (pl.begin_of_next_block, pl)
  else
    let gapsAsc := List.insertionSort (fun a b => a.start ≤ b.start) gap_list
    let setsAsc :=
      if (gapsAsc.getLastD default).stop ≠ pl.begin_of_next_block then
        windows gapsAsc ++
          [⟨(gapsAsc.getLastD default).stop, pl.begin_of_next_block⟩]
      else windows gapsAsc
    match compact_from_lists pl.proposal_list gapsAsc setsAsc.reverse fuel with
    | none => none
    | some (e, buf) =>
      some (e, { pl with proposal_list := buf, begin_of_next_block := e })

end ProposalList

namespace Writer

/-- Invariant of a writer cursor pair: the unwritten part of the
reserved block, if any, ends strictly below the buffer length (the
bound established by the `assert!` in `fetch_new_range`; `Writer::new`
starts with `begin = end = 0`). -/
def Inv (w : Writer) (pl : ProposalList) : Prop :=
  w.start ≤ w.stop ∧ (w.start < w.stop → w.stop < pl.proposal_list.length)

theorem push_spec : ∀ (count : Nat) (w : Writer) (pl : ProposalList)
    (node : Nat) (w' : Writer) (pl' : ProposalList) (writes : List Nat),
    Inv w pl → push w pl node count = some (w', pl', writes) →
    writes.length = count ∧
    (∀ i ∈ writes, i < pl.proposal_list.length) ∧
    pl'.proposal_list.length = pl.proposal_list.length ∧
    (∀ i ∈ writes, pl'.proposal_list.getD i 0 = node) ∧
    (∀ j, j ∉ writes → pl'.proposal_list.getD j 0 = pl.proposal_list.getD j 0) ∧
    Inv w' pl' := by
  intro count
  induction count with
  | zero =>
    intro w pl node w' pl' writes hinv h
    simp only [push, Option.some.injEq, Prod.mk.injEq] at h
    obtain ⟨h1, h2, h3⟩ := h
    subst h1; subst h2; subst h3
    refine ⟨rfl, by simp, rfl, by simp, fun j _ => rfl, hinv⟩
  | succ n ih =>
    intro w pl node w' pl' writes hinv h
    have key : ∀ (w2 : Writer) (pl2 : ProposalList) (w3 : Writer)
        (pl4 : ProposalList) (rest : List Nat),
        pl2.proposal_list = pl.proposal_list →
        w2.start < w2.stop → w2.stop < pl2.proposal_list.length →
        push { w2 with start := w2.start + 1 }
            { pl2 with proposal_list := pl2.proposal_list.set w2.start node }
            node n = some (w3, pl4, rest) →
        w3 = w' → pl4 = pl' → w2.start :: rest = writes →
        writes.length = n + 1 ∧
        (∀ i ∈ writes, i < pl.proposal_list.length) ∧
        pl'.proposal_list.length = pl.proposal_list.length ∧
        (∀ i ∈ writes, pl'.proposal_list.getD i 0 = node) ∧
        (∀ j, j ∉ writes →
          pl'.proposal_list.getD j 0 = pl.proposal_list.getD j 0) ∧
        Inv w' pl' := by
      intro w2 pl2 w3 pl4 rest hpp hlt hstop hp hw3 hpl4 hwr
      subst hw3; subst hpl4; subst hwr
      have hb : w2.start < pl2.proposal_list.length := lt_trans hlt hstop
      have hinv3 : Inv { w2 with start := w2.start + 1 }
          { pl2 with proposal_list := pl2.proposal_list.set w2.start node } := by
        refine ⟨hlt, fun _ => ?_⟩
        simpa using hstop
      obtain ⟨ihl, ihb, ihlen, ihval, ihfr, ihinv⟩ :=
        ih _ _ node _ _ rest hinv3 hp
      have hblen : w2.start < pl.proposal_list.length := by rw [← hpp]; exact hb
      refine ⟨by simp [ihl], ?_, ?_, ?_, ?_, ihinv⟩
      · intro i hi
        rcases List.mem_cons.mp hi with rfl | h1
        · exact hblen
        · have h3 : i < (pl2.proposal_list.set w2.start node).length :=
            ihb i h1
          simp only [List.length_set] at h3
          rw [← hpp]; exact h3
      · rw [ihlen]; simp [hpp]
      · intro i hi
        rcases List.mem_cons.mp hi with rfl | h1
        · by_cases hmem : w2.start ∈ rest
          · exact ihval _ hmem
          · have h3 : pl4.proposal_list.getD w2.start 0 =
                (pl2.proposal_list.set w2.start node).getD w2.start 0 :=
              ihfr _ hmem
            rw [h3]
            exact list_getD_set_self pl2.proposal_list w2.start node 0 hb
        · exact ihval i h1
      · intro j hj
        have hj1 : j ≠ w2.start := fun hc => hj (hc ▸ List.mem_cons_self _ _)
        have hj2 : j ∉ rest := fun hc => hj (List.mem_cons_of_mem _ hc)
        have h3 : pl4.proposal_list.getD j 0 =
            (pl2.proposal_list.set w2.start node).getD j 0 := ihfr j hj2
        rw [h3, ← hpp]
        exact list_getD_set_ne pl2.proposal_list w2.start j node 0
          (fun hc => hj1 hc.symm)
    by_cases he : w.start = w.stop
    · rw [push, if_pos he] at h
      rcases hf : fetch_new_range w pl with _ | ⟨w2, pl2⟩ <;> rw [hf] at h
      · exact absurd h (by simp)
      · unfold fetch_new_range at hf
        by_cases hc : pl.begin_of_next_block + BLOCK_SIZE <
            pl.proposal_list.length
        · rw [if_pos hc] at hf
          simp only [Option.some.injEq, Prod.mk.injEq] at hf
          obtain ⟨hw2, hpl2⟩ := hf
          dsimp only at h
          rcases hp : push { w2 with start := w2.start + 1 }
              { pl2 with proposal_list := pl2.proposal_list.set w2.start node }
              node n with _ | ⟨w3, pl4, rest⟩ <;> rw [hp] at h
          · exact absurd h (by simp)
          · simp only [Option.some.injEq, Prod.mk.injEq] at h
            exact key w2 pl2 w3 pl4 rest (by rw [← hpl2])
              (by rw [← hw2]; simp [BLOCK_SIZE])
              (by rw [← hw2, ← hpl2]; simpa using hc)
              hp h.1 h.2.1 h.2.2
        · rw [if_neg hc] at hf
          exact absurd hf (by simp)
    · rw [push, if_neg he] at h
      dsimp only at h
      have hlt : w.start < w.stop := lt_of_le_of_ne hinv.1 he
      rcases hp : push { w with start := w.start + 1 }
          { pl with proposal_list := pl.proposal_list.set w.start node }
          node n with _ | ⟨w3, pl4, rest⟩ <;> rw [hp] at h
      · exact absurd h (by simp)
      · simp only [Option.some.injEq, Prod.mk.injEq] at h
        exact key w pl w3 pl4 rest rfl hlt (hinv.2 hlt) hp h.1 h.2.1 h.2.2

end Writer

/-- C10: for a writer whose cursor pair satisfies the bound
established by the `fetch_new_range` assertion, every unchecked store
of `push(node, count)` targets an index strictly below the buffer
length, exactly `count` cells are stored (all holding `node`
afterwards), all other cells and the buffer length are untouched, and
the cursor bound is re-established. -/
theorem claim_C10_writer_push_in_bounds
    (w : Writer) (pl : ProposalList) (node count : Nat)
    (w' : Writer) (pl' : ProposalList) (writes : List Nat)
    (hinv : Writer.Inv w pl)
    (h : Writer.push w pl node count = some (w', pl', writes)) :
    writes.length = count ∧
    (∀ i ∈ writes, i < pl.proposal_list.length) ∧
    pl'.proposal_list.length = pl.proposal_list.length ∧
    (∀ i ∈ writes, pl'.proposal_list.getD i 0 = node) ∧
    (∀ j, j ∉ writes → pl'.proposal_list.getD j 0 = pl.proposal_list.getD j 0) ∧
    Writer.Inv w' pl' :=
  Writer.push_spec count w pl node w' pl' writes hinv h

set_option maxRecDepth 10000 in
theorem claim_C10_writer_push_in_bounds_witness :
    ([(0 : Nat)]).length = 1 ∧
    (∀ i ∈ [(0 : Nat)], i < (ProposalList.new 0 1).proposal_list.length) := by
  have h := claim_C10_writer_push_in_bounds ⟨0, 0, 0⟩ (ProposalList.new 0 1) 3 1
    ⟨0, 1, 128⟩
    ⟨(List.replicate 256 UNINITIALIZED).set 0 3, 128, List.replicate 1 default, 0⟩
    [0] (by constructor <;> simp [Writer.Inv]) (by decide)
  exact ⟨h.1, h.2.1⟩

/-- A reachable proposal-list state driving the compaction
counterexample: writer A reserves block `[0, 128)` and pushes two
cells, writer B reserves `[128, 256)` and fills it exactly; both then
record their unfinished ranges, so the only gap is `[2, 128)` and the
buffer holds valid data up to the cursor 256 exactly outside that gap.
A single compaction call follows. -/
def compactionCounterexample : Option (Nat × ProposalList) :=
  match Writer.new (ProposalList.new 10 2) with
  | none => none
  | some (wA, pl) =>
    match Writer.new pl with
    | none => none
    | some (wB, pl) =>
      match wA.push pl 7 2 with
      | none => none
      | some (wA, pl, _) =>
        let (_, pl) := wA.free_unfinished_range pl
        match wB.push pl 5 128 with
        | none => none
        | some (wB, pl, _) =>
          let (_, pl) := wB.free_unfinished_range pl
          ProposalList.compact_unfinished_ranges pl 10

set_option maxRecDepth 100000 in
/-- C3 counterexample: on the state of `compactionCounterexample` the
compaction returns `next_free = 2`, yet cell 128 (an index in
`[next_free, capacity)`, the capacity being 522) still holds the node
id 5 rather than `UNINITIALIZED`: the initialised block `[128, 256)`
above the highest gap is stranded, refuting the claimed
postcondition. -/
theorem claim_C3_compaction_counterexample :
    compactionCounterexample.map Prod.fst = some 2 ∧
    compactionCounterexample.map
      (fun p => p.2.proposal_list.getD 128 0) = some 5 ∧
    compactionCounterexample.map
      (fun p => p.2.proposal_list.length) = some 522 ∧
    (2 : Nat) ≤ 128 ∧ (128 : Nat) < 522 ∧ (5 : Nat) ≠ UNINITIALIZED := by
  decide

namespace ProposalList

/-- Postcondition claimed for the compaction: no sentinel below `e`,
only sentinel from `e` up to the buffer length. -/
def CompactPost (L e : Nat) (buf : List Nat) : Prop :=
  (∀ i, i < e → buf.getD i 0 ≠ UNINITIALIZED) ∧
  (∀ i, e ≤ i → i < L → buf.getD i 0 = UNINITIALIZED)

end ProposalList

theorem getLastD_congr {α : Type} (l : List α) (h : l ≠ []) (d1 d2 : α) :
    l.getLastD d1 = l.getLastD d2 := by
  induction l with
  | nil => exact absurd rfl h
  | cons a t iht =>
    cases t with
    | nil => rfl
    | cons b t2 => simpa [List.getLastD_cons] using iht (by simp)

theorem getLastD_cons_ne {α : Type} (a d : α) (l : List α) (h : l ≠ []) :
    (a :: l).getLastD d = l.getLastD d := by
  cases l with
  | nil => exact absurd rfl h
  | cons b t => simpa [List.getLastD_cons] using getLastD_congr (b :: t) (by simp) a d

theorem chain_gap_all (g : BlockRange) (gs : List BlockRange)
    (hch : List.Chain' (fun a b => a.stop < b.start) (g :: gs))
    (hne : ∀ x ∈ gs, x.start < x.stop) :
    ∀ b ∈ gs, g.stop < b.start := by
  induction gs generalizing g with
  | nil => intro b hb; simp at hb
  | cons c t iht =>
    intro b hb
    have h1 : g.stop < c.start := (List.chain'_cons.mp hch).1
    rcases List.mem_cons.mp hb with rfl | hb2
    · exact h1
    · have h2 := iht c (List.chain'_cons.mp hch).2
        (fun x hx => hne x (List.mem_cons_of_mem _ hx)) b hb2
      have h3 : c.start < c.stop := hne c (List.mem_cons_self _ _)
      omega

theorem chain_set_all (x : BlockRange) (sets : List BlockRange)
    (hch : List.Chain' (fun a b => b.stop ≤ a.start) (x :: sets))
    (hne : ∀ s ∈ sets, s.start < s.stop) :
    ∀ s ∈ sets, s.stop ≤ x.start := by
  induction sets generalizing x with
  | nil => intro s hs; simp at hs
  | cons c t iht =>
    intro s hs
    have h1 : c.stop ≤ x.start := (List.chain'_cons.mp hch).1
    rcases List.mem_cons.mp hs with rfl | hs2
    · exact h1
    · have h2 := iht c (List.chain'_cons.mp hch).2
        (fun y hy => hne y (List.mem_cons_of_mem _ hy)) s hs2
      have h3 : c.start < c.stop := hne c (List.mem_cons_self _ _)
      omega

theorem chain_stop_le_last (l : List BlockRange) (d : BlockRange)
    (hch : List.Chain' (fun a b => a.stop < b.start) l)
    (hne : ∀ x ∈ l, x.start < x.stop) :
    ∀ g ∈ l, g.stop ≤ (l.getLastD d).stop := by
  induction l generalizing d with
  | nil => intro g hg; simp at hg
  | cons a t iht =>
    intro g hg
    cases t with
    | nil =>
      rcases List.mem_cons.mp hg with rfl | hg2
      · exact le_refl _
      · simp at hg2
    | cons b t2 =>
      rw [getLastD_cons_ne a d (b :: t2) (by simp)]
      rcases List.mem_cons.mp hg with rfl | hg2
      · have h1 : g.stop < b.start := (List.chain'_cons.mp hch).1
        have h2 := iht d (List.chain'_cons.mp hch).2
          (fun x hx => hne x (List.mem_cons_of_mem _ hx)) b (List.mem_cons_self _ _)
        have h3 : b.start < b.stop := hne b (by simp)
        omega
      · exact iht d (List.chain'_cons.mp hch).2
          (fun x hx => hne x (List.mem_cons_of_mem _ hx)) g hg2

theorem chain_start_le_last (l : List BlockRange) (d : BlockRange)
    (hch : List.Chain' (fun a b => a.stop < b.start) l)
    (hne : ∀ x ∈ l, x.start < x.stop) :
    ∀ g ∈ l, g.start ≤ (l.getLastD d).start := by
  induction l generalizing d with
  | nil => intro g hg; simp at hg
  | cons a t iht =>
    intro g hg
    cases t with
    | nil =>
      rcases List.mem_cons.mp hg with rfl | hg2
      · exact le_refl _
      · simp at hg2
    | cons b t2 =>
      rw [getLastD_cons_ne a d (b :: t2) (by simp)]
      rcases List.mem_cons.mp hg with rfl | hg2
      · have h1 : g.stop < b.start := (List.chain'_cons.mp hch).1
        have h2 := iht d (List.chain'_cons.mp hch).2
          (fun x hx => hne x (List.mem_cons_of_mem _ hx)) b (List.mem_cons_self _ _)
        have h3 : g.start < g.stop := hne g (by simp)
        omega
      · exact iht d (List.chain'_cons.mp hch).2
          (fun x hx => hne x (List.mem_cons_of_mem _ hx)) g hg2

theorem ranges_disjoint_of_valid_sent (buf : List Nat) (s g : BlockRange)
    (hsne : s.start < s.stop) (hgne : g.start < g.stop)
    (hs : ∀ i, s.start ≤ i → i < s.stop → buf.getD i 0 ≠ UNINITIALIZED)
    (hg : ∀ i, g.start ≤ i → i < g.stop → buf.getD i 0 = UNINITIALIZED) :
    s.stop ≤ g.start ∨ g.stop ≤ s.start := by
  by_contra hc
  push_neg at hc
  obtain ⟨h1, h2⟩ := hc
  have h3 := hs (max s.start g.start) (le_max_left _ _) (by omega)
  have h4 := hg (max s.start g.start) (le_max_right _ _) (by omega)
  exact h3 h4

namespace ProposalList

/-- Invariant at the head of the outer `'compacting` loop over the
remaining gap stack (`gaps`, ascending), set stack (`sets`,
descending) and the current source range `sr`. -/
structure OuterInv (buf : List Nat) (gaps sets : List BlockRange)
    (sr : BlockRange) : Prop where
  gaps_ne : gaps ≠ []
  gaps_nonempty : ∀ g ∈ gaps, g.start < g.stop
  gaps_bound : ∀ g ∈ gaps, g.stop ≤ buf.length
  gaps_chain : List.Chain' (fun a b => a.stop < b.start) gaps
  sr_le : sr.start ≤ sr.stop
  sr_bound : sr.stop ≤ buf.length
  sr_top : sr.stop ≤ (gaps.getLastD default).start
  sets_nonempty : ∀ s ∈ sets, s.start < s.stop
  sets_chain : List.Chain' (fun a b => b.stop ≤ a.start) (sr :: sets)
  high : ∀ i, sr.stop ≤ i → i < buf.length → buf.getD i 0 = UNINITIALIZED
  sr_valid : ∀ i, sr.start ≤ i → i < sr.stop → buf.getD i 0 ≠ UNINITIALIZED
  sets_valid : ∀ s ∈ sets, ∀ i, s.start ≤ i → i < s.stop →
    buf.getD i 0 ≠ UNINITIALIZED
  gaps_sent : ∀ g ∈ gaps, ∀ i, g.start ≤ i → i < g.stop →
    buf.getD i 0 = UNINITIALIZED
  low_valid : ∀ i, i < sr.stop → buf.getD i 0 ≠ UNINITIALIZED →
    i < (gaps.headD default).start ∨ (∃ s ∈ sets, s.start ≤ i ∧ i < s.stop) ∨
      (sr.start ≤ i ∧ i < sr.stop)
  low_sent : ∀ i, i < sr.stop → buf.getD i 0 = UNINITIALIZED →
    ∃ g ∈ gaps, g.start ≤ i ∧ i < g.stop
  nontop_side : ∀ g ∈ gaps.dropLast, sr.stop < g.start ∨ g.stop ≤ sr.start

/-- Invariant at the head of the inner gap-filling loop; `gr` is the
gap currently being filled (already popped off the gap stack). -/
structure InnerInv (buf : List Nat) (gaps sets : List BlockRange)
    (sr gr : BlockRange) : Prop where
  gaps_ne : gaps ≠ []
  gaps_nonempty : ∀ g ∈ gaps, g.start < g.stop
  gaps_bound : ∀ g ∈ gaps, g.stop ≤ buf.length
  gaps_chain : List.Chain' (fun a b => a.stop < b.start) gaps
  gr_nonempty : gr.start < gr.stop
  gr_bound : gr.stop ≤ buf.length
  gr_below : ∀ g ∈ gaps, gr.stop ≤ g.start
  gr_sr : gr.stop ≤ sr.start
  sr_le : sr.start ≤ sr.stop
  sr_bound : sr.stop ≤ buf.length
  sr_top : sr.stop ≤ (gaps.getLastD default).start
  sets_nonempty : ∀ s ∈ sets, s.start < s.stop
  sets_chain : List.Chain' (fun a b => b.stop ≤ a.start) (sr :: sets)
  high : ∀ i, sr.stop ≤ i → i < buf.length → buf.getD i 0 = UNINITIALIZED
  sr_valid : ∀ i, sr.start ≤ i → i < sr.stop → buf.getD i 0 ≠ UNINITIALIZED
  sets_valid : ∀ s ∈ sets, ∀ i, s.start ≤ i → i < s.stop →
    buf.getD i 0 ≠ UNINITIALIZED
  gaps_sent : ∀ g ∈ gaps, ∀ i, g.start ≤ i → i < g.stop →
    buf.getD i 0 = UNINITIALIZED
  gr_sent : ∀ i, gr.start ≤ i → i < gr.stop → buf.getD i 0 = UNINITIALIZED
  low_valid : ∀ i, i < sr.stop → buf.getD i 0 ≠ UNINITIALIZED →
    i < gr.start ∨ (∃ s ∈ sets, s.start ≤ i ∧ i < s.stop) ∨
      (sr.start ≤ i ∧ i < sr.stop)
  low_sent : ∀ i, i < sr.stop → buf.getD i 0 = UNINITIALIZED →
    (gr.start ≤ i ∧ i < gr.stop) ∨ ∃ g ∈ gaps, g.start ≤ i ∧ i < g.stop

theorem compact_loop_spec : ∀ (fuel : Nat) (buf : List Nat)
    (gaps sets : List BlockRange) (sr : BlockRange) (gr? : Option BlockRange)
    (e : Nat) (buf2 : List Nat),
    (match gr? with
     | none => OuterInv buf gaps sets sr
     | some gr => InnerInv buf gaps sets sr gr) →
    compact_loop buf gaps sets sr gr? fuel = some (e, buf2) →
    buf2.length = buf.length ∧ CompactPost buf.length e buf2 := by
  intro fuel
  induction fuel with
  | zero =>
    intro buf gaps sets sr gr? e buf2 hinv h
    exact absurd h (by cases gr? <;> simp [compact_loop])
  | succ n ih =>
    intro buf gaps sets sr gr? e buf2 hinv h
    cases gr? with
    | none =>
      replace hinv : OuterInv buf gaps sets sr := hinv
      simp only [compact_loop] at h
      cases gaps with
      | nil => exact absurd rfl hinv.gaps_ne
      | cons g0 rest =>
        cases rest with
        | nil =>
          simp only [Option.some.injEq, Prod.mk.injEq] at h
          obtain ⟨he, hb⟩ := h
          subst hb
          have htop : sr.stop ≤ g0.start := by
            have := hinv.sr_top
            simpa using this
          have hemin : e = sr.stop := by omega
          subst hemin
          refine ⟨rfl, ?_, ?_⟩
          · intro i hi hu
            obtain ⟨g, hg, hg1, hg2⟩ := hinv.low_sent i hi hu
            have : g = g0 := by simpa using hg
            subst this
            omega
          · intro i h1 h2
            exact hinv.high i h1 h2
        | cons g1 rest2 =>
          dsimp only at h
          by_cases hlt : sr.stop < g0.start
          · rw [if_pos hlt] at h
            simp only [Option.some.injEq, Prod.mk.injEq] at h
            obtain ⟨he, hb⟩ := h
            subst hb; subst he
            refine ⟨rfl, ?_, ?_⟩
            · intro i hi hu
              obtain ⟨g, hg, hg1, hg2⟩ := hinv.low_sent i hi hu
              rcases List.mem_cons.mp hg with rfl | hgtail
              · omega
              · have h3 := chain_gap_all g0 (g1 :: rest2) hinv.gaps_chain
                  (fun x hx => hinv.gaps_nonempty x (List.mem_cons_of_mem _ hx))
                  g hgtail
                have h4 : g0.start < g0.stop :=
                  hinv.gaps_nonempty g0 (List.mem_cons_self _ _)
                omega
            · intro i h1 h2
              exact hinv.high i h1 h2
          · rw [if_neg hlt] at h
            have hg0ne : g0.start < g0.stop :=
              hinv.gaps_nonempty g0 (List.mem_cons_self _ _)
            have hg0drop : g0 ∈ (g0 :: g1 :: rest2).dropLast := by
              rw [List.dropLast_cons₂]
              exact List.mem_cons_self _ _
            have hgr_sr : g0.stop ≤ sr.start := by
              rcases hinv.nontop_side g0 hg0drop with h1 | h1
              · omega
              · exact h1
            have hbelow := chain_gap_all g0 (g1 :: rest2) hinv.gaps_chain
              (fun x hx => hinv.gaps_nonempty x (List.mem_cons_of_mem _ hx))
            have hlast : ((g1 :: rest2).getLastD default) =
                ((g0 :: g1 :: rest2).getLastD default) :=
              (getLastD_cons_ne g0 default (g1 :: rest2) (by simp)).symm
            refine ih buf (g1 :: rest2) sets sr (some g0) e buf2 ?_ h
            exact {
              gaps_ne := by simp
              gaps_nonempty := fun g hg =>
                hinv.gaps_nonempty g (List.mem_cons_of_mem _ hg)
              gaps_bound := fun g hg =>
                hinv.gaps_bound g (List.mem_cons_of_mem _ hg)
              gaps_chain := (List.chain'_cons.mp hinv.gaps_chain).2
              gr_nonempty := hg0ne
              gr_bound := hinv.gaps_bound g0 (List.mem_cons_self _ _)
              gr_below := fun g hg => le_of_lt (hbelow g hg)
              gr_sr := hgr_sr
              sr_le := hinv.sr_le
              sr_bound := hinv.sr_bound
              sr_top := by rw [hlast]; exact hinv.sr_top
              sets_nonempty := hinv.sets_nonempty
              sets_chain := hinv.sets_chain
              high := hinv.high
              sr_valid := hinv.sr_valid
              sets_valid := hinv.sets_valid
              gaps_sent := fun g hg =>
                hinv.gaps_sent g (List.mem_cons_of_mem _ hg)
              gr_sent := hinv.gaps_sent g0 (List.mem_cons_self _ _)
              low_valid := by
                intro i hi hv
                have := hinv.low_valid i hi hv
                simpa using this
              low_sent := by
                intro i hi hu
                obtain ⟨g, hg, hg1, hg2⟩ := hinv.low_sent i hi hu
                rcases List.mem_cons.mp hg with rfl | hgtail
                · exact Or.inl ⟨hg1, hg2⟩
                · exact Or.inr ⟨g, hgtail, hg1, hg2⟩ }
    | some gr =>
      replace hinv : InnerInv buf gaps sets sr gr := hinv
      simp only [compact_loop] at h
      by_cases hse : sr.stop ≤ sr.start
      · rw [if_pos hse] at h
        cases sets with
        | nil =>
          simp only [Option.some.injEq, Prod.mk.injEq] at h
          obtain ⟨he, hb⟩ := h
          subst hb; subst he
          refine ⟨rfl, ?_, ?_⟩
          · intro i hi hu
            have hgrne := hinv.gr_nonempty
            have hgrsr := hinv.gr_sr
            have hsrle := hinv.sr_le
            have hi2 : i < sr.stop := by omega
            rcases hinv.low_sent i hi2 hu with ⟨h1, h2⟩ | ⟨g, hg, h1, h2⟩
            · omega
            · have := hinv.gr_below g hg; omega
          · intro i h1 h2
            by_cases h3 : sr.stop ≤ i
            · exact hinv.high i h3 h2
            · push_neg at h3
              by_contra hv
              rcases hinv.low_valid i h3 hv with h4 | ⟨s, hs, h4, h5⟩ | ⟨h4, h5⟩
              · omega
              · simp at hs
              · omega
        | cons b srest =>
          dsimp only at h
          by_cases hguard : gr.stop ≤ b.start
          · rw [if_pos hguard] at h
            have hchainb : List.Chain' (fun x y => y.stop ≤ x.start) (b :: srest) :=
              (List.chain'_cons.mp hinv.sets_chain).2
            have hbstop : b.stop ≤ sr.start :=
              (List.chain'_cons.mp hinv.sets_chain).1
            have hbne : b.start < b.stop :=
              hinv.sets_nonempty b (List.mem_cons_self _ _)
            have hsetall := chain_set_all b srest hchainb
              (fun y hy => hinv.sets_nonempty y (List.mem_cons_of_mem _ hy))
            refine ih buf gaps srest b (some gr) e buf2 ?_ h
            exact {
              gaps_ne := hinv.gaps_ne
              gaps_nonempty := hinv.gaps_nonempty
              gaps_bound := hinv.gaps_bound
              gaps_chain := hinv.gaps_chain
              gr_nonempty := hinv.gr_nonempty
              gr_bound := hinv.gr_bound
              gr_below := hinv.gr_below
              gr_sr := hguard
              sr_le := le_of_lt hbne
              sr_bound := by
                have h1 := hinv.sr_bound
                have h2 := hinv.sr_le
                omega
              sr_top := by
                have h1 := hinv.sr_top
                have h2 := hinv.sr_le
                omega
              sets_nonempty := fun s hs =>
                hinv.sets_nonempty s (List.mem_cons_of_mem _ hs)
              sets_chain := hchainb
              high := by
                intro i h1 h2
                by_cases h3 : sr.stop ≤ i
                · exact hinv.high i h3 h2
                · push_neg at h3
                  by_contra hv
                  rcases hinv.low_valid i h3 hv with h4 | ⟨s, hs, h4, h5⟩ | ⟨h4, h5⟩
                  · have := hinv.gr_nonempty; omega
                  · rcases List.mem_cons.mp hs with rfl | hstail
                    · omega
                    · have := hsetall s hstail; omega
                  · omega
              sr_valid := hinv.sets_valid b (List.mem_cons_self _ _)
              sets_valid := fun s hs =>
                hinv.sets_valid s (List.mem_cons_of_mem _ hs)
              gaps_sent := hinv.gaps_sent
              gr_sent := hinv.gr_sent
              low_valid := by
                intro i hi hv
                have hi2 : i < sr.stop := by have := hinv.sr_le; omega
                rcases hinv.low_valid i hi2 hv with h4 | ⟨s, hs, h4, h5⟩ | ⟨h4, h5⟩
                · exact Or.inl h4
                · rcases List.mem_cons.mp hs with rfl | hstail
                  · exact Or.inr (Or.inr ⟨h4, h5⟩)
                  · exact Or.inr (Or.inl ⟨s, hstail, h4, h5⟩)
                · omega
              low_sent := by
                intro i hi hu
                have hi2 : i < sr.stop := by have := hinv.sr_le; omega
                exact hinv.low_sent i hi2 hu }
          · rw [if_neg hguard] at h
            simp only [Option.some.injEq, Prod.mk.injEq] at h
            obtain ⟨he, hb⟩ := h
            subst hb; subst he
            have hbne : b.start < b.stop :=
              hinv.sets_nonempty b (List.mem_cons_self _ _)
            have hdisj := ranges_disjoint_of_valid_sent buf b gr hbne
              hinv.gr_nonempty (hinv.sets_valid b (List.mem_cons_self _ _))
              hinv.gr_sent
            have hbgr : b.stop ≤ gr.start := by
              rcases hdisj with h1 | h1
              · exact h1
              · omega
            have hsetall := chain_set_all b srest
              (List.chain'_cons.mp hinv.sets_chain).2
              (fun y hy => hinv.sets_nonempty y (List.mem_cons_of_mem _ hy))
            refine ⟨rfl, ?_, ?_⟩
            · intro i hi hu
              have hgrne := hinv.gr_nonempty
              have hgrsr := hinv.gr_sr
              have hsrle := hinv.sr_le
              have hi2 : i < sr.stop := by omega
              rcases hinv.low_sent i hi2 hu with ⟨h1, h2⟩ | ⟨g, hg, h1, h2⟩
              · omega
              · have := hinv.gr_below g hg; omega
            · intro i h1 h2
              by_cases h3 : sr.stop ≤ i
              · exact hinv.high i h3 h2
              · push_neg at h3
                by_contra hv
                rcases hinv.low_valid i h3 hv with h4 | ⟨s, hs, h4, h5⟩ | ⟨h4, h5⟩
                · omega
                · rcases List.mem_cons.mp hs with rfl | hstail
                  · omega
                  · have := hsetall s hstail; omega
                · have := hinv.sr_le; omega
      · push_neg at hse
        rw [if_neg (by omega)] at h
        have hgrne := hinv.gr_nonempty
        have hgrsr := hinv.gr_sr
        have hsrb := hinv.sr_bound
        have hgrb := hinv.gr_bound
        have htlen : gr.start < buf.length := by omega
        have hselen : sr.stop - 1 < buf.length := by omega
        have hval : buf.getD (sr.stop - 1) 0 ≠ UNINITIALIZED :=
          hinv.sr_valid _ (by omega) (by omega)
        have hsetall := chain_set_all sr sets hinv.sets_chain hinv.sets_nonempty
        have hlen2 : ((buf.set gr.start (buf.getD (sr.stop - 1) 0)).set
            (sr.stop - 1) UNINITIALIZED).length = buf.length := by simp
        have hother : ∀ j, j ≠ gr.start → j ≠ sr.stop - 1 →
            ((buf.set gr.start (buf.getD (sr.stop - 1) 0)).set
              (sr.stop - 1) UNINITIALIZED).getD j 0 = buf.getD j 0 := by
          intro j h1 h2
          rw [list_getD_set_ne _ _ _ _ _ (fun hc => h2 hc.symm),
            list_getD_set_ne _ _ _ _ _ (fun hc => h1 hc.symm)]
        have htval : ((buf.set gr.start (buf.getD (sr.stop - 1) 0)).set
            (sr.stop - 1) UNINITIALIZED).getD gr.start 0 =
            buf.getD (sr.stop - 1) 0 := by
          rw [list_getD_set_ne _ _ _ _ _ (by omega)]
          exact list_getD_set_self buf gr.start _ 0 htlen
        have hsval : ((buf.set gr.start (buf.getD (sr.stop - 1) 0)).set
            (sr.stop - 1) UNINITIALIZED).getD (sr.stop - 1) 0 =
            UNINITIALIZED :=
          list_getD_set_self _ (sr.stop - 1) _ 0 (by simpa using hselen)
        have hheadmem : gaps.headD default ∈ gaps := by
          cases gaps with
          | nil => exact absurd rfl hinv.gaps_ne
          | cons a t => exact List.mem_cons_self _ _
        have hheadge : gr.stop ≤ (gaps.headD default).start :=
          hinv.gr_below _ hheadmem
        -- shared field proofs over the updated buffer
        have high2 : ∀ i, sr.stop - 1 ≤ i →
            i < ((buf.set gr.start (buf.getD (sr.stop - 1) 0)).set
              (sr.stop - 1) UNINITIALIZED).length →
            ((buf.set gr.start (buf.getD (sr.stop - 1) 0)).set
              (sr.stop - 1) UNINITIALIZED).getD i 0 = UNINITIALIZED := by
          intro i h1 h2
          rw [hlen2] at h2
          by_cases h3 : i = sr.stop - 1
          · rw [h3]; exact hsval
          · rw [hother i (by omega) h3]
            exact hinv.high i (by omega) h2
        have srval2 : ∀ i, sr.start ≤ i → i < sr.stop - 1 →
            ((buf.set gr.start (buf.getD (sr.stop - 1) 0)).set
              (sr.stop - 1) UNINITIALIZED).getD i 0 ≠ UNINITIALIZED := by
          intro i h1 h2
          rw [hother i (by omega) (by omega)]
          exact hinv.sr_valid i h1 (by omega)
        have setsval2 : ∀ s ∈ sets, ∀ i, s.start ≤ i → i < s.stop →
            ((buf.set gr.start (buf.getD (sr.stop - 1) 0)).set
              (sr.stop - 1) UNINITIALIZED).getD i 0 ≠ UNINITIALIZED := by
          intro s hs i h1 h2
          have hsa := hsetall s hs
          by_cases h3 : i = gr.start
          · exact absurd (hinv.gr_sent i (by omega) (by omega))
              (hinv.sets_valid s hs i h1 h2)
          · rw [hother i h3 (by omega)]
            exact hinv.sets_valid s hs i h1 h2
        have gapssent2 : ∀ g ∈ gaps, ∀ i, g.start ≤ i → i < g.stop →
            ((buf.set gr.start (buf.getD (sr.stop - 1) 0)).set
              (sr.stop - 1) UNINITIALIZED).getD i 0 = UNINITIALIZED := by
          intro g hg i h1 h2
          have hgb := hinv.gr_below g hg
          by_cases h3 : i = sr.stop - 1
          · exact absurd (hinv.gaps_sent g hg i h1 h2)
              (by rw [h3]; exact hval)
          · rw [hother i (by omega) h3]
            exact hinv.gaps_sent g hg i h1 h2
        by_cases hfull : gr.stop ≤ gr.start + 1
        · rw [if_pos hfull] at h
          have hstopeq : gr.stop = gr.start + 1 := by omega
          refine (ih _ gaps sets ⟨sr.start, sr.stop - 1⟩ none e buf2 ?_ h).imp
            (fun h1 => by rw [h1, hlen2]) (fun hpost => by rwa [hlen2] at hpost)
          exact {
            gaps_ne := hinv.gaps_ne
            gaps_nonempty := hinv.gaps_nonempty
            gaps_bound := fun g hg => by
              rw [hlen2]; exact hinv.gaps_bound g hg
            gaps_chain := hinv.gaps_chain
            sr_le := show sr.start ≤ sr.stop - 1 by omega
            sr_bound := show sr.stop - 1 ≤ _ by rw [hlen2]; omega
            sr_top := show sr.stop - 1 ≤ _ by
              have := hinv.sr_top; omega
            sets_nonempty := hinv.sets_nonempty
            sets_chain := by
              cases sets with
              | nil => simp
              | cons c t =>
                refine List.chain'_cons.mpr ⟨?_, (List.chain'_cons.mp hinv.sets_chain).2⟩
                exact (List.chain'_cons.mp hinv.sets_chain).1
            high := high2
            sr_valid := srval2
            sets_valid := setsval2
            gaps_sent := gapssent2
            low_valid := by
              intro i hi hv
              have hi' : i < sr.stop - 1 := hi
              by_cases h3 : i = gr.start
              · exact Or.inl (show i < (gaps.headD default).start by omega)
              · rw [hother i h3 (by omega)] at hv
                rcases hinv.low_valid i (by omega) hv with h4 | ⟨s, hs, h4, h5⟩ | ⟨h4, h5⟩
                · exact Or.inl (show i < (gaps.headD default).start by omega)
                · exact Or.inr (Or.inl ⟨s, hs, h4, h5⟩)
                · exact Or.inr (Or.inr
                    (show sr.start ≤ i ∧ i < sr.stop - 1 from ⟨h4, by omega⟩))
            low_sent := by
              intro i hi hu
              have hi' : i < sr.stop - 1 := hi
              by_cases h3 : i = gr.start
              · rw [h3, htval] at hu
                exact absurd hu hval
              · rw [hother i h3 (by omega)] at hu
                rcases hinv.low_sent i (by omega) hu with ⟨h4, h5⟩ | ⟨g, hg, h4, h5⟩
                · omega
                · exact ⟨g, hg, h4, h5⟩
            nontop_side := by
              intro g hg
              have hgmem : g ∈ gaps := (List.dropLast_sublist gaps).subset hg
              have hgne2 : g.start < g.stop := hinv.gaps_nonempty g hgmem
              rcases ranges_disjoint_of_valid_sent buf sr g (by omega) hgne2
                  hinv.sr_valid (hinv.gaps_sent g hgmem) with h1 | h1
              · exact Or.inl (show sr.stop - 1 < g.start by omega)
              · exact Or.inr h1 }
        · rw [if_neg hfull] at h
          refine (ih _ gaps sets ⟨sr.start, sr.stop - 1⟩
            (some ⟨gr.start + 1, gr.stop⟩) e buf2 ?_ h).imp
            (fun h1 => by rw [h1, hlen2]) (fun hpost => by rwa [hlen2] at hpost)
          exact {
            gaps_ne := hinv.gaps_ne
            gaps_nonempty := hinv.gaps_nonempty
            gaps_bound := fun g hg => by
              rw [hlen2]; exact hinv.gaps_bound g hg
            gaps_chain := hinv.gaps_chain
            gr_nonempty := show gr.start + 1 < gr.stop by omega
            gr_bound := show gr.stop ≤ _ by rw [hlen2]; exact hgrb
            gr_below := fun g hg => hinv.gr_below g hg
            gr_sr := show gr.stop ≤ sr.start from hgrsr
            sr_le := show sr.start ≤ sr.stop - 1 by omega
            sr_bound := show sr.stop - 1 ≤ _ by rw [hlen2]; omega
            sr_top := show sr.stop - 1 ≤ _ by
              have := hinv.sr_top; omega
            sets_nonempty := hinv.sets_nonempty
            sets_chain := by
              cases sets with
              | nil => simp
              | cons c t =>
                refine List.chain'_cons.mpr ⟨?_, (List.chain'_cons.mp hinv.sets_chain).2⟩
                exact (List.chain'_cons.mp hinv.sets_chain).1
            high := high2
            sr_valid := srval2
            sets_valid := setsval2
            gaps_sent := gapssent2
            gr_sent := by
              intro i h1 h2
              have h1' : gr.start + 1 ≤ i := h1
              have h2' : i < gr.stop := h2
              rw [hother i (by omega) (by omega)]
              exact hinv.gr_sent i (by omega) h2'
            low_valid := by
              intro i hi hv
              have hi' : i < sr.stop - 1 := hi
              by_cases h3 : i = gr.start
              · exact Or.inl (show i < gr.start + 1 by omega)
              · rw [hother i h3 (by omega)] at hv
                rcases hinv.low_valid i (by omega) hv with h4 | ⟨s, hs, h4, h5⟩ | ⟨h4, h5⟩
                · exact Or.inl (show i < gr.start + 1 by omega)
                · exact Or.inr (Or.inl ⟨s, hs, h4, h5⟩)
                · exact Or.inr (Or.inr
                    (show sr.start ≤ i ∧ i < sr.stop - 1 from ⟨h4, by omega⟩))
            low_sent := by
              intro i hi hu
              have hi' : i < sr.stop - 1 := hi
              by_cases h3 : i = gr.start
              · rw [h3, htval] at hu
                exact absurd hu hval
              · rw [hother i h3 (by omega)] at hu
                rcases hinv.low_sent i (by omega) hu with ⟨h4, h5⟩ | ⟨g, hg, h4, h5⟩
                · exact Or.inl
                    (show gr.start + 1 ≤ i ∧ i < gr.stop from ⟨by omega, h5⟩)
                · exact Or.inr ⟨g, hg, h4, h5⟩ }

theorem list_count_set (l : List Nat) (i a v : Nat) (h : i < l.length) :
    (l.set i a).count v + (if l.getD i 0 = v then 1 else 0) =
      l.count v + (if a = v then 1 else 0) := by
  induction l generalizing i with
  | nil => simp at h
  | cons x t iht =>
    cases i with
    | zero =>
      simp only [List.set_cons_zero, List.getD_cons_zero, List.count_cons,
        beq_iff_eq]
      split_ifs <;> omega
    | succ m =>
      simp only [List.set_cons_succ, List.getD_cons_succ, List.count_cons,
        beq_iff_eq]
      have := iht m (by simpa using h)
      split_ifs at this ⊢ <;> omega

theorem list_count_move (buf : List Nat) (t sE : Nat)
    (ht : t < buf.length) (hs : sE < buf.length) (hts : t ≠ sE)
    (htU : buf.getD t 0 = UNINITIALIZED)
    (hsU : buf.getD sE 0 ≠ UNINITIALIZED)
    (v : Nat) (hv : v ≠ UNINITIALIZED) :
    ((buf.set t (buf.getD sE 0)).set sE UNINITIALIZED).count v =
      buf.count v := by
  have c1 := list_count_set buf t (buf.getD sE 0) v ht
  have hgs : (buf.set t (buf.getD sE 0)).getD sE 0 = buf.getD sE 0 :=
    list_getD_set_ne _ _ _ _ _ hts
  have c2 := list_count_set (buf.set t (buf.getD sE 0)) sE UNINITIALIZED v
    (by simpa using hs)
  rw [hgs] at c2
  have h1 : ¬ (buf.getD t 0 = v) := by rw [htU]; exact fun hc => hv hc.symm
  have h2 : ¬ (UNINITIALIZED = v) := fun hc => hv hc.symm
  split_ifs at c1 c2 <;> omega

/-- The content-preservation invariant of the compaction loops: every
move sources an initialised cell of the current set stack and targets
a sentinel cell of the gap being filled. It does not constrain the
relative position of the source region and the remaining gaps, so it
holds with or without a final initialised stretch above the highest
gap. -/
structure WeakInv (buf : List Nat) (gaps sets : List BlockRange)
    (sr : BlockRange) : Prop where
  gaps_nonempty : ∀ g ∈ gaps, g.start < g.stop
  gaps_bound : ∀ g ∈ gaps, g.stop ≤ buf.length
  gaps_chain : List.Chain' (fun a b => a.stop < b.start) gaps
  sr_le : sr.start ≤ sr.stop
  sr_bound : sr.stop ≤ buf.length
  sets_nonempty : ∀ s ∈ sets, s.start < s.stop
  sets_chain : List.Chain' (fun a b => b.stop ≤ a.start) (sr :: sets)
  sr_valid : ∀ i, sr.start ≤ i → i < sr.stop → buf.getD i 0 ≠ UNINITIALIZED
  sets_valid : ∀ s ∈ sets, ∀ i, s.start ≤ i → i < s.stop →
    buf.getD i 0 ≠ UNINITIALIZED
  gaps_sent : ∀ g ∈ gaps, ∀ i, g.start ≤ i → i < g.stop →
    buf.getD i 0 = UNINITIALIZED

/-- Gap-range side conditions carried while the inner loop fills
`gr`. -/
structure WeakGrInv (buf : List Nat) (gaps : List BlockRange)
    (gr : BlockRange) : Prop where
  gr_nonempty : gr.start < gr.stop
  gr_bound : gr.stop ≤ buf.length
  gr_below : ∀ g ∈ gaps, gr.stop ≤ g.start
  gr_sent : ∀ i, gr.start ≤ i → i < gr.stop → buf.getD i 0 = UNINITIALIZED

theorem compact_loop_counts : ∀ (fuel : Nat) (buf : List Nat)
    (gaps sets : List BlockRange) (sr : BlockRange) (gr? : Option BlockRange)
    (e : Nat) (buf2 : List Nat),
    WeakInv buf gaps sets sr →
    (∀ gr, gr? = some gr → WeakGrInv buf gaps gr) →
    compact_loop buf gaps sets sr gr? fuel = some (e, buf2) →
    buf2.length = buf.length ∧
    ∀ v, v ≠ UNINITIALIZED → buf2.count v = buf.count v := by
  intro fuel
  induction fuel with
  | zero =>
    intro buf gaps sets sr gr? e buf2 hinv hgr h
    exact absurd h (by cases gr? <;> simp [compact_loop])
  | succ n ih =>
    intro buf gaps sets sr gr? e buf2 hinv hgr h
    cases gr? with
    | none =>
      simp only [compact_loop] at h
      cases gaps with
      | nil => exact absurd h (by simp)
      | cons g0 rest =>
        cases rest with
        | nil =>
          simp only [Option.some.injEq, Prod.mk.injEq] at h
          obtain ⟨he, hb⟩ := h
          subst hb
          exact ⟨rfl, fun v _ => rfl⟩
        | cons g1 rest2 =>
          dsimp only at h
          by_cases hlt : sr.stop < g0.start
          · rw [if_pos hlt] at h
            simp only [Option.some.injEq, Prod.mk.injEq] at h
            obtain ⟨he, hb⟩ := h
            subst hb
            exact ⟨rfl, fun v _ => rfl⟩
          · rw [if_neg hlt] at h
            refine ih buf (g1 :: rest2) sets sr (some g0) e buf2 ?_ ?_ h
            · exact {
                gaps_nonempty := fun g hg =>
                  hinv.gaps_nonempty g (List.mem_cons_of_mem _ hg)
                gaps_bound := fun g hg =>
                  hinv.gaps_bound g (List.mem_cons_of_mem _ hg)
                gaps_chain := (List.chain'_cons.mp hinv.gaps_chain).2
                sr_le := hinv.sr_le
                sr_bound := hinv.sr_bound
                sets_nonempty := hinv.sets_nonempty
                sets_chain := hinv.sets_chain
                sr_valid := hinv.sr_valid
                sets_valid := hinv.sets_valid
                gaps_sent := fun g hg =>
                  hinv.gaps_sent g (List.mem_cons_of_mem _ hg) }
            · intro gr hgr2
              cases hgr2
              exact {
                gr_nonempty := hinv.gaps_nonempty g0 (List.mem_cons_self _ _)
                gr_bound := hinv.gaps_bound g0 (List.mem_cons_self _ _)
                gr_below := fun g hg => le_of_lt
                  (chain_gap_all g0 (g1 :: rest2) hinv.gaps_chain
                    (fun x hx => hinv.gaps_nonempty x (List.mem_cons_of_mem _ hx))
                    g hg)
                gr_sent := hinv.gaps_sent g0 (List.mem_cons_self _ _) }
    | some gr =>
      obtain ⟨hgrne, hgrb, hgrbelow, hgrsent⟩ := hgr gr rfl
      simp only [compact_loop] at h
      by_cases hse : sr.stop ≤ sr.start
      · rw [if_pos hse] at h
        cases sets with
        | nil =>
          simp only [Option.some.injEq, Prod.mk.injEq] at h
          obtain ⟨he, hb⟩ := h
          subst hb
          exact ⟨rfl, fun v _ => rfl⟩
        | cons b srest =>
          dsimp only at h
          by_cases hguard : gr.stop ≤ b.start
          · rw [if_pos hguard] at h
            have hbne : b.start < b.stop :=
              hinv.sets_nonempty b (List.mem_cons_self _ _)
            have hbstop : b.stop ≤ sr.start :=
              (List.chain'_cons.mp hinv.sets_chain).1
            refine ih buf gaps srest b (some gr) e buf2 ?_ ?_ h
            · exact {
                gaps_nonempty := hinv.gaps_nonempty
                gaps_bound := hinv.gaps_bound
                gaps_chain := hinv.gaps_chain
                sr_le := le_of_lt hbne
                sr_bound := by have := hinv.sr_le; have := hinv.sr_bound; omega
                sets_nonempty := fun s hs =>
                  hinv.sets_nonempty s (List.mem_cons_of_mem _ hs)
                sets_chain := (List.chain'_cons.mp hinv.sets_chain).2
                sr_valid := hinv.sets_valid b (List.mem_cons_self _ _)
                sets_valid := fun s hs =>
                  hinv.sets_valid s (List.mem_cons_of_mem _ hs)
                gaps_sent := hinv.gaps_sent }
            · intro gr2 hgr2
              cases hgr2
              exact ⟨hgrne, hgrb, hgrbelow, hgrsent⟩
          · rw [if_neg hguard] at h
            simp only [Option.some.injEq, Prod.mk.injEq] at h
            obtain ⟨he, hb⟩ := h
            subst hb
            exact ⟨rfl, fun v _ => rfl⟩
      · push_neg at hse
        rw [if_neg (by omega)] at h
        have hsrb := hinv.sr_bound
        have htlen : gr.start < buf.length := by omega
        have hselen : sr.stop - 1 < buf.length := by omega
        have hval : buf.getD (sr.stop - 1) 0 ≠ UNINITIALIZED :=
          hinv.sr_valid _ (by omega) (by omega)
        have htU : buf.getD gr.start 0 = UNINITIALIZED :=
          hgrsent gr.start (le_refl _) hgrne
        have hts : gr.start ≠ sr.stop - 1 := by
          intro hc
          rw [hc] at htU
          exact hval htU
        have hsetall := chain_set_all sr sets hinv.sets_chain hinv.sets_nonempty
        have hlen2 : ((buf.set gr.start (buf.getD (sr.stop - 1) 0)).set
            (sr.stop - 1) UNINITIALIZED).length = buf.length := by simp
        have hother : ∀ j, j ≠ gr.start → j ≠ sr.stop - 1 →
            ((buf.set gr.start (buf.getD (sr.stop - 1) 0)).set
              (sr.stop - 1) UNINITIALIZED).getD j 0 = buf.getD j 0 := by
          intro j h1 h2
          rw [list_getD_set_ne _ _ _ _ _ (fun hc => h2 hc.symm),
            list_getD_set_ne _ _ _ _ _ (fun hc => h1 hc.symm)]
        have hsval : ((buf.set gr.start (buf.getD (sr.stop - 1) 0)).set
            (sr.stop - 1) UNINITIALIZED).getD (sr.stop - 1) 0 =
            UNINITIALIZED :=
          list_getD_set_self _ (sr.stop - 1) _ 0 (by simpa using hselen)
        have hcnt : ∀ v, v ≠ UNINITIALIZED →
            ((buf.set gr.start (buf.getD (sr.stop - 1) 0)).set
              (sr.stop - 1) UNINITIALIZED).count v = buf.count v :=
          fun v hv => list_count_move buf gr.start (sr.stop - 1) htlen hselen
            hts htU hval v hv
        have hwk : WeakInv ((buf.set gr.start (buf.getD (sr.stop - 1) 0)).set
            (sr.stop - 1) UNINITIALIZED) gaps sets ⟨sr.start, sr.stop - 1⟩ := {
          gaps_nonempty := hinv.gaps_nonempty
          gaps_bound := fun g hg => by rw [hlen2]; exact hinv.gaps_bound g hg
          gaps_chain := hinv.gaps_chain
          sr_le := show sr.start ≤ sr.stop - 1 by omega
          sr_bound := show sr.stop - 1 ≤ _ by rw [hlen2]; omega
          sets_nonempty := hinv.sets_nonempty
          sets_chain := by
            cases sets with
            | nil => simp
            | cons c t =>
              exact List.chain'_cons.mpr ⟨(List.chain'_cons.mp hinv.sets_chain).1,
                (List.chain'_cons.mp hinv.sets_chain).2⟩
          sr_valid := by
            intro i h1 h2
            have h1' : sr.start ≤ i := h1
            have h2' : i < sr.stop - 1 := h2
            have h3 : i ≠ gr.start := by
              intro hc
              exact (hinv.sr_valid i h1' (by omega)) (hc ▸ htU)
            rw [hother i h3 (by omega)]
            exact hinv.sr_valid i h1' (by omega)
          sets_valid := by
            intro s hs i h1 h2
            have hsa := hsetall s hs
            have h3 : i ≠ gr.start := by
              intro hc
              exact (hinv.sets_valid s hs i h1 h2) (hc ▸ htU)
            rw [hother i h3 (by omega)]
            exact hinv.sets_valid s hs i h1 h2
          gaps_sent := by
            intro g hg i h1 h2
            have hgb := hgrbelow g hg
            have h4 : i ≠ sr.stop - 1 := by
              intro hc
              exact (hc ▸ hval) (hinv.gaps_sent g hg i h1 h2)
            rw [hother i (by omega) h4]
            exact hinv.gaps_sent g hg i h1 h2 }
        by_cases hfull : gr.stop ≤ gr.start + 1
        · rw [if_pos hfull] at h
          obtain ⟨ihl, ihc⟩ := ih _ gaps sets ⟨sr.start, sr.stop - 1⟩ none e buf2
            hwk (fun gr2 hgr2 => by cases hgr2) h
          refine ⟨by rw [ihl, hlen2], fun v hv => ?_⟩
          rw [ihc v hv, hcnt v hv]
        · rw [if_neg hfull] at h
          have hgrk : WeakGrInv ((buf.set gr.start (buf.getD (sr.stop - 1) 0)).set
              (sr.stop - 1) UNINITIALIZED) gaps ⟨gr.start + 1, gr.stop⟩ := {
            gr_nonempty := show gr.start + 1 < gr.stop by omega
            gr_bound := show gr.stop ≤ _ by rw [hlen2]; exact hgrb
            gr_below := fun g hg => hgrbelow g hg
            gr_sent := by
              intro i h1 h2
              have h1' : gr.start + 1 ≤ i := h1
              have h2' : i < gr.stop := h2
              have h4 : i ≠ sr.stop - 1 := by
                intro hc
                exact (hc ▸ hval) (hgrsent i (by omega) h2')
              rw [hother i (by omega) h4]
              exact hgrsent i (by omega) h2' }
          obtain ⟨ihl, ihc⟩ := ih _ gaps sets ⟨sr.start, sr.stop - 1⟩
            (some ⟨gr.start + 1, gr.stop⟩) e buf2 hwk
            (fun gr2 hgr2 => by cases hgr2; exact hgrk) h
          refine ⟨by rw [ihl, hlen2], fun v hv => ?_⟩
          rw [ihc v hv, hcnt v hv]

theorem getLastD_mem {α : Type} (l : List α) (d : α) (h : l ≠ []) :
    l.getLastD d ∈ l := by
  cases l with
  | nil => exact absurd rfl h
  | cons a t =>
    rw [List.getLastD_cons]
    exact List.getLastD_mem_cons t a

theorem windows_nonempty : ∀ (G : List BlockRange),
    List.Chain' (fun a b => a.stop < b.start) G →
    ∀ w ∈ windows G, w.start < w.stop := by
  intro G
  induction G with
  | nil => intro _ w hw; simp [windows] at hw
  | cons a t iht =>
    intro hch w hw
    cases t with
    | nil => simp [windows] at hw
    | cons c t2 =>
      rw [windows] at hw
      rcases List.mem_cons.mp hw with rfl | hw2
      · exact (List.chain'_cons.mp hch).1
      · exact iht (List.chain'_cons.mp hch).2 w hw2

theorem windows_chain : ∀ (G : List BlockRange),
    List.Chain' (fun a b => a.stop < b.start) G →
    (∀ g ∈ G, g.start < g.stop) →
    List.Chain' (fun a b => a.stop ≤ b.start) (windows G) := by
  intro G
  induction G with
  | nil => intro _ _; simp [windows]
  | cons a t iht =>
    intro hch hne
    cases t with
    | nil => simp [windows]
    | cons c t2 =>
      rw [windows]
      cases t2 with
      | nil => simp [windows]
      | cons e t3 =>
        rw [windows]
        refine List.chain'_cons.mpr ⟨?_, ?_⟩
        · exact le_of_lt (hne c (by simp))
        · rw [← windows]
          exact iht (List.chain'_cons.mp hch).2
            (fun g hg => hne g (List.mem_cons_of_mem _ hg))

theorem windows_tiling : ∀ (G : List BlockRange) (d : BlockRange),
    List.Chain' (fun a b => a.stop < b.start) G →
    ∀ i, i < (G.getLastD d).start →
    i < (G.headD d).start ∨ (∃ g ∈ G, g.start ≤ i ∧ i < g.stop) ∨
      ∃ w ∈ windows G, w.start ≤ i ∧ i < w.stop := by
  intro G
  induction G with
  | nil => intro d _ i hi; exact Or.inl hi
  | cons a t iht =>
    intro d hch i hi
    cases t with
    | nil => exact Or.inl hi
    | cons c t2 =>
      by_cases h1 : i < a.start
      · exact Or.inl h1
      · push_neg at h1
        by_cases h2 : i < a.stop
        · exact Or.inr (Or.inl ⟨a, List.mem_cons_self _ _, h1, h2⟩)
        · push_neg at h2
          by_cases h3 : i < c.start
          · refine Or.inr (Or.inr ⟨⟨a.stop, c.start⟩, ?_, h2, h3⟩)
            rw [windows]
            exact List.mem_cons_self _ _
          · push_neg at h3
            have hi2 : i < ((c :: t2).getLastD d).start := by
              rw [← getLastD_cons_ne a d (c :: t2) (by simp)]
              exact hi
            rcases iht d (List.chain'_cons.mp hch).2 i hi2 with h4 | ⟨g, hg, h5⟩ | ⟨w, hw, h5⟩
            · simp only [List.headD_cons] at h4
              omega
            · exact Or.inr (Or.inl ⟨g, List.mem_cons_of_mem _ hg, h5⟩)
            · refine Or.inr (Or.inr ⟨w, ?_, h5⟩)
              rw [windows]
              exact List.mem_cons_of_mem _ hw

theorem windows_cells : ∀ (G : List BlockRange) (d : BlockRange),
    List.Chain' (fun a b => a.stop < b.start) G →
    (∀ g ∈ G, g.start < g.stop) →
    ∀ w ∈ windows G, ∀ i, w.start ≤ i → i < w.stop →
      (G.headD d).stop ≤ i ∧ i < (G.getLastD d).start ∧
        ∀ g ∈ G, ¬(g.start ≤ i ∧ i < g.stop) := by
  intro G
  induction G with
  | nil => intro d _ _ w hw; simp [windows] at hw
  | cons a t iht =>
    intro d hch hne w hw i hwi1 hwi2
    cases t with
    | nil => simp [windows] at hw
    | cons c t2 =>
      have hchtail := (List.chain'_cons.mp hch).2
      have hnetail : ∀ g ∈ c :: t2, g.start < g.stop :=
        fun g hg => hne g (List.mem_cons_of_mem _ hg)
      have hac : a.stop < c.start := (List.chain'_cons.mp hch).1
      have hlasteq : ((c :: t2).getLastD d) = ((a :: c :: t2).getLastD d) :=
        (getLastD_cons_ne a d (c :: t2) (by simp)).symm
      rw [windows] at hw
      rcases List.mem_cons.mp hw with rfl | hw2
      · have hi1 : a.stop ≤ i := hwi1
        have hi2 : i < c.start := hwi2
        have hcle := chain_start_le_last (c :: t2) d hchtail hnetail c
          (List.mem_cons_self _ _)
        refine ⟨by simpa using hi1, ?_, ?_⟩
        · rw [← hlasteq]; omega
        · intro g hg
          rcases List.mem_cons.mp hg with rfl | hg2
          · omega
          · rcases List.mem_cons.mp hg2 with rfl | hg3
            · omega
            · have := chain_gap_all c t2 hchtail
                (fun x hx => hnetail x (List.mem_cons_of_mem _ hx)) g hg3
              have := hne c (by simp)
              omega
      · obtain ⟨hh1, hh2, hh3⟩ := iht d hchtail hnetail w hw2 i hwi1 hwi2
        simp only [List.headD_cons] at hh1
        have hcne := hne c (by simp)
        refine ⟨?_, ?_, ?_⟩
        · simp only [List.headD_cons]
          omega
        · rw [← hlasteq]; exact hh2
        · intro g hg
          rcases List.mem_cons.mp hg with rfl | hg2
          · omega
          · exact hh3 g hg2

theorem windows_last_facts : ∀ (G : List BlockRange) (b : BlockRange),
    List.Chain' (fun a b => a.stop < b.start) G →
    (∀ g ∈ G, g.start < g.stop) →
    (windows G).getLast? = some b →
    b.stop = (G.getLastD default).start ∧
      ∀ g ∈ G.dropLast, g.stop ≤ b.start := by
  intro G
  induction G with
  | nil => intro b _ _ hb; simp [windows] at hb
  | cons a t iht =>
    intro b hch hne hb
    cases t with
    | nil => simp [windows] at hb
    | cons c t2 =>
      have hchtail := (List.chain'_cons.mp hch).2
      have hnetail : ∀ g ∈ c :: t2, g.start < g.stop :=
        fun g hg => hne g (List.mem_cons_of_mem _ hg)
      have hac : a.stop < c.start := (List.chain'_cons.mp hch).1
      rw [windows] at hb
      cases t2 with
      | nil =>
        simp only [windows, List.getLast?_singleton, Option.some.injEq] at hb
        subst hb
        refine ⟨by simp, ?_⟩
        intro g hg
        simp only [List.dropLast_cons₂, List.dropLast_single] at hg
        have : g = a := by simpa using hg
        subst this
        exact le_refl _
      | cons e t3 =>
        rw [windows] at hb
        rw [List.getLast?_cons_cons, ← windows] at hb
        obtain ⟨ih1, ih2⟩ := iht b hchtail hnetail hb
        constructor
        · rw [ih1, getLastD_cons_ne a default (c :: e :: t3) (by simp)]
        · intro g hg
          rw [List.dropLast_cons₂] at hg
          rcases List.mem_cons.mp hg with rfl | hg2
          · have hcmem : c ∈ (c :: e :: t3).dropLast := by
              rw [List.dropLast_cons₂]
              exact List.mem_cons_self _ _
            have := ih2 c hcmem
            have := hne c (by simp)
            omega
          · exact ih2 g hg2

theorem windows_eq_nil : ∀ (G : List BlockRange), windows G = [] →
    G = [] ∨ ∃ g, G = [g] := by
  intro G h
  cases G with
  | nil => exact Or.inl rfl
  | cons a t =>
    cases t with
    | nil => exact Or.inr ⟨a, rfl⟩
    | cons c t2 => rw [windows] at h; exact absurd h (by simp)

end ProposalList

instance : IsTotal BlockRange (fun a b => a.start ≤ b.start) :=
  ⟨fun a b => Nat.le_total a.start b.start⟩

instance : IsTrans BlockRange (fun a b => a.start ≤ b.start) :=
  ⟨fun _ _ _ hab hbc => le_trans hab hbc⟩

namespace ProposalList

/-- Facts about the sorted non-empty recorded ranges: under pairwise
separation and the classification of sentinel cells, the sorted gap
list is a separated ascending chain and classifies the sentinel cells
below the cursor. -/
theorem gaps_sorted_facts (rb : List BlockRange) (buf : List Nat) (B : Nat)
    (G : List BlockRange)
    (hstop : ∀ r ∈ rb, r.start < r.stop → r.stop ≤ B)
    (hsep : List.Pairwise (fun r s => r.start < r.stop → s.start < s.stop →
      r.stop < s.start ∨ s.stop < r.start) rb)
    (hclass : ∀ i, i < B → (buf.getD i 0 = UNINITIALIZED ↔
      ∃ r ∈ rb, r.start ≤ i ∧ i < r.stop))
    (hG : G = List.insertionSort (fun a b => a.start ≤ b.start)
      (rb.filter (fun r => decide (r.start < r.stop)))) :
    (∀ g, g ∈ G ↔ (g ∈ rb ∧ g.start < g.stop)) ∧
    (∀ g ∈ G, g.start < g.stop) ∧ (∀ g ∈ G, g.stop ≤ B) ∧
    List.Chain' (fun a b => a.stop < b.start) G ∧
    (∀ i, i < B → (buf.getD i 0 = UNINITIALIZED ↔
      ∃ g ∈ G, g.start ≤ i ∧ i < g.stop)) := by
  have hperm : G.Perm (rb.filter (fun r => decide (r.start < r.stop))) := by
    rw [hG]; exact List.perm_insertionSort _ _
  have hmem : ∀ g, g ∈ G ↔ (g ∈ rb ∧ g.start < g.stop) := by
    intro g
    rw [hperm.mem_iff, List.mem_filter]
    simp
  have hne : ∀ g ∈ G, g.start < g.stop := fun g hg => ((hmem g).mp hg).2
  have hstopG : ∀ g ∈ G, g.stop ≤ B := fun g hg =>
    hstop g ((hmem g).mp hg).1 ((hmem g).mp hg).2
  have hsorted : List.Sorted (fun a b => a.start ≤ b.start) G := by
    rw [hG]; exact List.sorted_insertionSort _ _
  have hsepG : List.Pairwise (fun r s =>
      r.start < r.stop → s.start < s.stop →
        r.stop < s.start ∨ s.stop < r.start) G := by
    refine (hperm.pairwise_iff ?_).mpr
      (List.Pairwise.sublist (List.filter_sublist rb) hsep)
    intro x y hxy h1 h2
    rcases hxy h2 h1 with h3 | h3
    · exact Or.inr h3
    · exact Or.inl h3
  have hchain : List.Chain' (fun a b => a.stop < b.start) G := by
    refine List.Pairwise.chain' ?_
    refine List.Pairwise.imp_of_mem ?_ (hsorted.and hsepG)
    intro a b ha hb hab
    obtain ⟨h1, h2⟩ := hab
    rcases h2 (hne a ha) (hne b hb) with h3 | h3
    · exact h3
    · have := hne b hb
      omega
  refine ⟨hmem, hne, hstopG, hchain, ?_⟩
  intro i hi
  rw [hclass i hi]
  constructor
  · rintro ⟨r, hr, h1, h2⟩
    exact ⟨r, (hmem r).mpr ⟨hr, by omega⟩, h1, h2⟩
  · rintro ⟨g, hg, h1, h2⟩
    exact ⟨g, ((hmem g).mp hg).1, h1, h2⟩

/-- Entry invariant of the outer compaction loop when the highest gap
reaches the cursor (no final initialised stretch): the source stack is
the reversed window list and the initial source range its head. -/
theorem outer_entry_inv (buf : List Nat) (B : Nat) (G : List BlockRange)
    (b : BlockRange) (rest : List BlockRange)
    (hB : B ≤ buf.length)
    (hne : ∀ g ∈ G, g.start < g.stop)
    (hstopG : ∀ g ∈ G, g.stop ≤ B)
    (hchain : List.Chain' (fun a b => a.stop < b.start) G)
    (hclassG : ∀ i, i < B → (buf.getD i 0 = UNINITIALIZED ↔
      ∃ g ∈ G, g.start ≤ i ∧ i < g.stop))
    (hhigh : ∀ i, B ≤ i → i < buf.length → buf.getD i 0 = UNINITIALIZED)
    (hGne : G ≠ [])
    (htopeq : (G.getLastD default).stop = B)
    (hrev : (windows G).reverse = b :: rest) :
    OuterInv buf G rest b := by
  have hlastmem : G.getLastD default ∈ G := getLastD_mem G default hGne
  have hlastne : (G.getLastD default).start < (G.getLastD default).stop :=
    hne _ hlastmem
  have hlast? : (windows G).getLast? = some b := by
    rw [← List.head?_reverse, hrev]
    rfl
  obtain ⟨hbstop, hdrop⟩ := windows_last_facts G b hchain hne hlast?
  have hbmem : b ∈ windows G := by
    rw [← List.mem_reverse, hrev]
    exact List.mem_cons_self _ _
  have hrestmem : ∀ s ∈ rest, s ∈ windows G := by
    intro s hs
    rw [← List.mem_reverse, hrev]
    exact List.mem_cons_of_mem _ hs
  have hwne := windows_nonempty G hchain
  have hwcells := windows_cells G default hchain hne
  exact {
    gaps_ne := hGne
    gaps_nonempty := hne
    gaps_bound := fun g hg => le_trans (hstopG g hg) hB
    gaps_chain := hchain
    sr_le := le_of_lt (hwne b hbmem)
    sr_bound := by rw [hbstop]; omega
    sr_top := by rw [hbstop]
    sets_nonempty := fun s hs => hwne s (hrestmem s hs)
    sets_chain := by
      rw [← hrev]
      exact List.chain'_reverse.mpr (windows_chain G hchain hne)
    high := by
      intro i h1 h2
      rw [hbstop] at h1
      by_cases h3 : i < B
      · exact (hclassG i h3).mpr ⟨G.getLastD default, hlastmem, h1, by omega⟩
      · exact hhigh i (by omega) h2
    sr_valid := by
      intro i h1 h2
      obtain ⟨hc1, hc2, hc3⟩ := hwcells b hbmem i h1 h2
      intro hu
      obtain ⟨g, hg, hgi⟩ := (hclassG i (by omega)).mp hu
      exact hc3 g hg hgi
    sets_valid := by
      intro s hs i h1 h2
      obtain ⟨hc1, hc2, hc3⟩ := hwcells s (hrestmem s hs) i h1 h2
      intro hu
      obtain ⟨g, hg, hgi⟩ := (hclassG i (by omega)).mp hu
      exact hc3 g hg hgi
    gaps_sent := by
      intro g hg i h1 h2
      have := hstopG g hg
      exact (hclassG i (by omega)).mpr ⟨g, hg, h1, h2⟩
    low_valid := by
      intro i hi hv
      rw [hbstop] at hi
      rcases windows_tiling G default hchain i hi with h4 | ⟨g, hg, h5⟩ | ⟨w, hw, h5⟩
      · exact Or.inl h4
      · exact absurd ((hclassG i (by
          have := hstopG g hg; omega)).mpr ⟨g, hg, h5⟩) hv
      · have hw2 : w ∈ b :: rest := by
          rw [← hrev, List.mem_reverse]
          exact hw
        rcases List.mem_cons.mp hw2 with rfl | hw3
        · exact Or.inr (Or.inr h5)
        · exact Or.inr (Or.inl ⟨w, hw3, h5⟩)
    low_sent := by
      intro i hi hu
      have hib : i < B := by
        rw [hbstop] at hi
        omega
      exact (hclassG i hib).mp hu
    nontop_side := fun g hg => Or.inr (hdrop g hg) }

/-- Entry invariant of the content-preservation pass when no final
stretch is pushed. -/
theorem weak_entry_inv (buf : List Nat) (B : Nat) (G : List BlockRange)
    (b : BlockRange) (rest : List BlockRange)
    (hB : B ≤ buf.length)
    (hne : ∀ g ∈ G, g.start < g.stop)
    (hstopG : ∀ g ∈ G, g.stop ≤ B)
    (hchain : List.Chain' (fun a b => a.stop < b.start) G)
    (hclassG : ∀ i, i < B → (buf.getD i 0 = UNINITIALIZED ↔
      ∃ g ∈ G, g.start ≤ i ∧ i < g.stop))
    (hrev : (windows G).reverse = b :: rest) :
    WeakInv buf G rest b := by
  have hlast? : (windows G).getLast? = some b := by
    rw [← List.head?_reverse, hrev]
    rfl
  obtain ⟨hbstop, hdrop⟩ := windows_last_facts G b hchain hne hlast?
  have hbmem : b ∈ windows G := by
    rw [← List.mem_reverse, hrev]
    exact List.mem_cons_self _ _
  have hrestmem : ∀ s ∈ rest, s ∈ windows G := by
    intro s hs
    rw [← List.mem_reverse, hrev]
    exact List.mem_cons_of_mem _ hs
  have hwne := windows_nonempty G hchain
  have hwcells := windows_cells G default hchain hne
  have hGne : G ≠ [] := by
    intro hc
    subst hc
    simp [windows] at hrev
  have hlastmem : G.getLastD default ∈ G := getLastD_mem G default hGne
  have hlastne := hne _ hlastmem
  have hlaststop := hstopG _ hlastmem
  exact {
    gaps_nonempty := hne
    gaps_bound := fun g hg => le_trans (hstopG g hg) hB
    gaps_chain := hchain
    sr_le := le_of_lt (hwne b hbmem)
    sr_bound := by rw [hbstop]; omega
    sets_nonempty := fun s hs => hwne s (hrestmem s hs)
    sets_chain := by
      rw [← hrev]
      exact List.chain'_reverse.mpr (windows_chain G hchain hne)
    sr_valid := by
      intro i h1 h2
      obtain ⟨hc1, hc2, hc3⟩ := hwcells b hbmem i h1 h2
      intro hu
      obtain ⟨g, hg, hgi⟩ := (hclassG i (by omega)).mp hu
      exact hc3 g hg hgi
    sets_valid := by
      intro s hs i h1 h2
      obtain ⟨hc1, hc2, hc3⟩ := hwcells s (hrestmem s hs) i h1 h2
      intro hu
      obtain ⟨g, hg, hgi⟩ := (hclassG i (by omega)).mp hu
      exact hc3 g hg hgi
    gaps_sent := by
      intro g hg i h1 h2
      have := hstopG g hg
      exact (hclassG i (by omega)).mpr ⟨g, hg, h1, h2⟩ }

/-- Entry invariant of the content-preservation pass when the buffer
ends with initialised data: the initial source range is the final
stretch between the highest gap and the cursor. -/
theorem weak_entry_final_inv (buf : List Nat) (B : Nat) (G : List BlockRange)
    (hB : B ≤ buf.length)
    (hne : ∀ g ∈ G, g.start < g.stop)
    (hstopG : ∀ g ∈ G, g.stop ≤ B)
    (hchain : List.Chain' (fun a b => a.stop < b.start) G)
    (hclassG : ∀ i, i < B → (buf.getD i 0 = UNINITIALIZED ↔
      ∃ g ∈ G, g.start ≤ i ∧ i < g.stop))
    (hGne : G ≠ [])
    (htoplt : (G.getLastD default).stop < B) :
    WeakInv buf G ((windows G).reverse)
      ⟨(G.getLastD default).stop, B⟩ := by
  have hwne := windows_nonempty G hchain
  have hwcells := windows_cells G default hchain hne
  have hlastmem : G.getLastD default ∈ G := getLastD_mem G default hGne
  have hlastne := hne _ hlastmem
  have hstopall := chain_stop_le_last G default hchain hne
  exact {
    gaps_nonempty := hne
    gaps_bound := fun g hg => le_trans (hstopG g hg) hB
    gaps_chain := hchain
    sr_le := le_of_lt htoplt
    sr_bound := hB
    sets_nonempty := fun s hs => hwne s (List.mem_reverse.mp hs)
    sets_chain := by
      cases hrev : (windows G).reverse with
      | nil => simp
      | cons b rest =>
        refine List.chain'_cons.mpr ⟨?_, ?_⟩
        · have hlast? : (windows G).getLast? = some b := by
            rw [← List.head?_reverse, hrev]
            rfl
          obtain ⟨hbstop, _⟩ := windows_last_facts G b hchain hne hlast?
          show b.stop ≤ (G.getLastD default).stop
          rw [hbstop]
          omega
        · rw [← hrev]
          exact List.chain'_reverse.mpr (windows_chain G hchain hne)
    sr_valid := by
      intro i h1 h2
      have h1' : (G.getLastD default).stop ≤ i := h1
      have h2' : i < B := h2
      intro hu
      obtain ⟨g, hg, hg1, hg2⟩ := (hclassG i h2').mp hu
      have := hstopall g hg
      omega
    sets_valid := by
      intro s hs i h1 h2
      obtain ⟨hc1, hc2, hc3⟩ := hwcells s (List.mem_reverse.mp hs) i h1 h2
      intro hu
      obtain ⟨g, hg, hgi⟩ := (hclassG i (by omega)).mp hu
      exact hc3 g hg hgi
    gaps_sent := by
      intro g hg i h1 h2
      have := hstopG g hg
      exact (hclassG i (by omega)).mpr ⟨g, hg, h1, h2⟩ }

/-- Invariant of the outer compaction loop that carries no constraint
on the position of the source stack relative to the highest gap, so it
also holds when the buffer ends with initialised data above the
highest recorded gap. It suffices for the unconditional half of the
postcondition: every cell below the returned end is initialised. -/
structure OuterInvA (buf : List Nat) (gaps sets : List BlockRange)
    (sr : BlockRange) : Prop where
  gaps_ne : gaps ≠ []
  gaps_nonempty : ∀ g ∈ gaps, g.start < g.stop
  gaps_bound : ∀ g ∈ gaps, g.stop ≤ buf.length
  gaps_chain : List.Chain' (fun a b => a.stop < b.start) gaps
  sr_le : sr.start ≤ sr.stop
  sr_bound : sr.stop ≤ buf.length
  sets_nonempty : ∀ s ∈ sets, s.start < s.stop
  sets_chain : List.Chain' (fun a b => b.stop ≤ a.start) (sr :: sets)
  sr_valid : ∀ i, sr.start ≤ i → i < sr.stop → buf.getD i 0 ≠ UNINITIALIZED
  sets_valid : ∀ s ∈ sets, ∀ i, s.start ≤ i → i < s.stop →
    buf.getD i 0 ≠ UNINITIALIZED
  gaps_sent : ∀ g ∈ gaps, ∀ i, g.start ≤ i → i < g.stop →
    buf.getD i 0 = UNINITIALIZED
  low_sent : ∀ i, i < sr.stop → buf.getD i 0 = UNINITIALIZED →
    ∃ g ∈ gaps, g.start ≤ i ∧ i < g.stop
  nontop_side : ∀ g ∈ gaps.dropLast, sr.stop < g.start ∨ g.stop ≤ sr.start

/-- Inner-loop version of `OuterInvA`. -/
structure InnerInvA (buf : List Nat) (gaps sets : List BlockRange)
    (sr gr : BlockRange) : Prop where
  gaps_ne : gaps ≠ []
  gaps_nonempty : ∀ g ∈ gaps, g.start < g.stop
  gaps_bound : ∀ g ∈ gaps, g.stop ≤ buf.length
  gaps_chain : List.Chain' (fun a b => a.stop < b.start) gaps
  gr_nonempty : gr.start < gr.stop
  gr_bound : gr.stop ≤ buf.length
  gr_below : ∀ g ∈ gaps, gr.stop ≤ g.start
  gr_sr : gr.stop ≤ sr.start
  sr_le : sr.start ≤ sr.stop
  sr_bound : sr.stop ≤ buf.length
  sets_nonempty : ∀ s ∈ sets, s.start < s.stop
  sets_chain : List.Chain' (fun a b => b.stop ≤ a.start) (sr :: sets)
  sr_valid : ∀ i, sr.start ≤ i → i < sr.stop → buf.getD i 0 ≠ UNINITIALIZED
  sets_valid : ∀ s ∈ sets, ∀ i, s.start ≤ i → i < s.stop →
    buf.getD i 0 ≠ UNINITIALIZED
  gaps_sent : ∀ g ∈ gaps, ∀ i, g.start ≤ i → i < g.stop →
    buf.getD i 0 = UNINITIALIZED
  gr_sent : ∀ i, gr.start ≤ i → i < gr.stop → buf.getD i 0 = UNINITIALIZED
  low_sent : ∀ i, i < sr.stop → buf.getD i 0 = UNINITIALIZED →
    (gr.start ≤ i ∧ i < gr.stop) ∨ ∃ g ∈ gaps, g.start ≤ i ∧ i < g.stop

/-- Every cell below the end value returned by the compaction loops is
initialised — with no assumption about data above the highest gap, so
in particular in the configurations where the full postcondition
fails. -/
theorem compact_loop_valid_below : ∀ (fuel : Nat) (buf : List Nat)
    (gaps sets : List BlockRange) (sr : BlockRange) (gr? : Option BlockRange)
    (e : Nat) (buf2 : List Nat),
    (match gr? with
     | none => OuterInvA buf gaps sets sr
     | some gr => InnerInvA buf gaps sets sr gr) →
    compact_loop buf gaps sets sr gr? fuel = some (e, buf2) →
    buf2.length = buf.length ∧
    ∀ i, i < e → buf2.getD i 0 ≠ UNINITIALIZED := by
  intro fuel
  induction fuel with
  | zero =>
    intro buf gaps sets sr gr? e buf2 hinv h
    exact absurd h (by cases gr? <;> simp [compact_loop])
  | succ n ih =>
    intro buf gaps sets sr gr? e buf2 hinv h
    cases gr? with
    | none =>
      replace hinv : OuterInvA buf gaps sets sr := hinv
      simp only [compact_loop] at h
      cases gaps with
      | nil => exact absurd rfl hinv.gaps_ne
      | cons g0 rest =>
        cases rest with
        | nil =>
          simp only [Option.some.injEq, Prod.mk.injEq] at h
          obtain ⟨he, hb⟩ := h
          subst hb
          refine ⟨rfl, ?_⟩
          intro i hi hu
          rw [← he] at hi
          obtain ⟨g, hg, hg1, hg2⟩ := hinv.low_sent i (by omega) hu
          have : g = g0 := by simpa using hg
          subst this
          omega
        | cons g1 rest2 =>
          dsimp only at h
          by_cases hlt : sr.stop < g0.start
          · rw [if_pos hlt] at h
            simp only [Option.some.injEq, Prod.mk.injEq] at h
            obtain ⟨he, hb⟩ := h
            subst hb; subst he
            refine ⟨rfl, ?_⟩
            intro i hi hu
            obtain ⟨g, hg, hg1, hg2⟩ := hinv.low_sent i hi hu
            rcases List.mem_cons.mp hg with rfl | hgtail
            · omega
            · have h3 := chain_gap_all g0 (g1 :: rest2) hinv.gaps_chain
                (fun x hx => hinv.gaps_nonempty x (List.mem_cons_of_mem _ hx))
                g hgtail
              have h4 : g0.start < g0.stop :=
                hinv.gaps_nonempty g0 (List.mem_cons_self _ _)
              omega
          · rw [if_neg hlt] at h
            have hg0ne : g0.start < g0.stop :=
              hinv.gaps_nonempty g0 (List.mem_cons_self _ _)
            have hg0drop : g0 ∈ (g0 :: g1 :: rest2).dropLast := by
              rw [List.dropLast_cons₂]
              exact List.mem_cons_self _ _
            have hgr_sr : g0.stop ≤ sr.start := by
              rcases hinv.nontop_side g0 hg0drop with h1 | h1
              · omega
              · exact h1
            have hbelow := chain_gap_all g0 (g1 :: rest2) hinv.gaps_chain
              (fun x hx => hinv.gaps_nonempty x (List.mem_cons_of_mem _ hx))
            refine ih buf (g1 :: rest2) sets sr (some g0) e buf2 ?_ h
            exact {
              gaps_ne := by simp
              gaps_nonempty := fun g hg =>
                hinv.gaps_nonempty g (List.mem_cons_of_mem _ hg)
              gaps_bound := fun g hg =>
                hinv.gaps_bound g (List.mem_cons_of_mem _ hg)
              gaps_chain := (List.chain'_cons.mp hinv.gaps_chain).2
              gr_nonempty := hg0ne
              gr_bound := hinv.gaps_bound g0 (List.mem_cons_self _ _)
              gr_below := fun g hg => le_of_lt (hbelow g hg)
              gr_sr := hgr_sr
              sr_le := hinv.sr_le
              sr_bound := hinv.sr_bound
              sets_nonempty := hinv.sets_nonempty
              sets_chain := hinv.sets_chain
              sr_valid := hinv.sr_valid
              sets_valid := hinv.sets_valid
              gaps_sent := fun g hg =>
                hinv.gaps_sent g (List.mem_cons_of_mem _ hg)
              gr_sent := hinv.gaps_sent g0 (List.mem_cons_self _ _)
              low_sent := by
                intro i hi hu
                obtain ⟨g, hg, hg1, hg2⟩ := hinv.low_sent i hi hu
                rcases List.mem_cons.mp hg with rfl | hgtail
                · exact Or.inl ⟨hg1, hg2⟩
                · exact Or.inr ⟨g, hgtail, hg1, hg2⟩ }
    | some gr =>
      replace hinv : InnerInvA buf gaps sets sr gr := hinv
      simp only [compact_loop] at h
      by_cases hse : sr.stop ≤ sr.start
      · rw [if_pos hse] at h
        cases sets with
        | nil =>
          simp only [Option.some.injEq, Prod.mk.injEq] at h
          obtain ⟨he, hb⟩ := h
          subst hb; subst he
          refine ⟨rfl, ?_⟩
          intro i hi hu
          have hgrne := hinv.gr_nonempty
          have hgrsr := hinv.gr_sr
          have hsrle := hinv.sr_le
          have hi2 : i < sr.stop := by omega
          rcases hinv.low_sent i hi2 hu with ⟨h1, h2⟩ | ⟨g, hg, h1, h2⟩
          · omega
          · have := hinv.gr_below g hg; omega
        | cons b srest =>
          dsimp only at h
          by_cases hguard : gr.stop ≤ b.start
          · rw [if_pos hguard] at h
            have hchainb : List.Chain' (fun x y => y.stop ≤ x.start) (b :: srest) :=
              (List.chain'_cons.mp hinv.sets_chain).2
            have hbstop : b.stop ≤ sr.start :=
              (List.chain'_cons.mp hinv.sets_chain).1
            have hbne : b.start < b.stop :=
              hinv.sets_nonempty b (List.mem_cons_self _ _)
            refine ih buf gaps srest b (some gr) e buf2 ?_ h
            exact {
              gaps_ne := hinv.gaps_ne
              gaps_nonempty := hinv.gaps_nonempty
              gaps_bound := hinv.gaps_bound
              gaps_chain := hinv.gaps_chain
              gr_nonempty := hinv.gr_nonempty
              gr_bound := hinv.gr_bound
              gr_below := hinv.gr_below
              gr_sr := hguard
              sr_le := le_of_lt hbne
              sr_bound := by
                have h1 := hinv.sr_bound
                have h2 := hinv.sr_le
                omega
              sets_nonempty := fun s hs =>
                hinv.sets_nonempty s (List.mem_cons_of_mem _ hs)
              sets_chain := hchainb
              sr_valid := hinv.sets_valid b (List.mem_cons_self _ _)
              sets_valid := fun s hs =>
                hinv.sets_valid s (List.mem_cons_of_mem _ hs)
              gaps_sent := hinv.gaps_sent
              gr_sent := hinv.gr_sent
              low_sent := by
                intro i hi hu
                have hi2 : i < sr.stop := by have := hinv.sr_le; omega
                exact hinv.low_sent i hi2 hu }
          · rw [if_neg hguard] at h
            simp only [Option.some.injEq, Prod.mk.injEq] at h
            obtain ⟨he, hb⟩ := h
            subst hb; subst he
            refine ⟨rfl, ?_⟩
            intro i hi hu
            have hgrne := hinv.gr_nonempty
            have hgrsr := hinv.gr_sr
            have hsrle := hinv.sr_le
            have hi2 : i < sr.stop := by omega
            rcases hinv.low_sent i hi2 hu with ⟨h1, h2⟩ | ⟨g, hg, h1, h2⟩
            · omega
            · have := hinv.gr_below g hg; omega
      · push_neg at hse
        rw [if_neg (by omega)] at h
        have hgrne := hinv.gr_nonempty
        have hgrsr := hinv.gr_sr
        have hsrb := hinv.sr_bound
        have hgrb := hinv.gr_bound
        have htlen : gr.start < buf.length := by omega
        have hselen : sr.stop - 1 < buf.length := by omega
        have hval : buf.getD (sr.stop - 1) 0 ≠ UNINITIALIZED :=
          hinv.sr_valid _ (by omega) (by omega)
        have hsetall := chain_set_all sr sets hinv.sets_chain hinv.sets_nonempty
        have hlen2 : ((buf.set gr.start (buf.getD (sr.stop - 1) 0)).set
            (sr.stop - 1) UNINITIALIZED).length = buf.length := by simp
        have hother : ∀ j, j ≠ gr.start → j ≠ sr.stop - 1 →
            ((buf.set gr.start (buf.getD (sr.stop - 1) 0)).set
              (sr.stop - 1) UNINITIALIZED).getD j 0 = buf.getD j 0 := by
          intro j h1 h2
          rw [list_getD_set_ne _ _ _ _ _ (fun hc => h2 hc.symm),
            list_getD_set_ne _ _ _ _ _ (fun hc => h1 hc.symm)]
        have htval : ((buf.set gr.start (buf.getD (sr.stop - 1) 0)).set
            (sr.stop - 1) UNINITIALIZED).getD gr.start 0 =
            buf.getD (sr.stop - 1) 0 := by
          rw [list_getD_set_ne _ _ _ _ _ (by omega)]
          exact list_getD_set_self buf gr.start _ 0 htlen
        have srval2 : ∀ i, sr.start ≤ i → i < sr.stop - 1 →
            ((buf.set gr.start (buf.getD (sr.stop - 1) 0)).set
              (sr.stop - 1) UNINITIALIZED).getD i 0 ≠ UNINITIALIZED := by
          intro i h1 h2
          rw [hother i (by omega) (by omega)]
          exact hinv.sr_valid i h1 (by omega)
        have setsval2 : ∀ s ∈ sets, ∀ i, s.start ≤ i → i < s.stop →
            ((buf.set gr.start (buf.getD (sr.stop - 1) 0)).set
              (sr.stop - 1) UNINITIALIZED).getD i 0 ≠ UNINITIALIZED := by
          intro s hs i h1 h2
          have hsa := hsetall s hs
          by_cases h3 : i = gr.start
          · exact absurd (hinv.gr_sent i (by omega) (by omega))
              (hinv.sets_valid s hs i h1 h2)
          · rw [hother i h3 (by omega)]
            exact hinv.sets_valid s hs i h1 h2
        have gapssent2 : ∀ g ∈ gaps, ∀ i, g.start ≤ i → i < g.stop →
            ((buf.set gr.start (buf.getD (sr.stop - 1) 0)).set
              (sr.stop - 1) UNINITIALIZED).getD i 0 = UNINITIALIZED := by
          intro g hg i h1 h2
          have hgb := hinv.gr_below g hg
          by_cases h3 : i = sr.stop - 1
          · exact absurd (hinv.gaps_sent g hg i h1 h2)
              (by rw [h3]; exact hval)
          · rw [hother i (by omega) h3]
            exact hinv.gaps_sent g hg i h1 h2
        by_cases hfull : gr.stop ≤ gr.start + 1
        · rw [if_pos hfull] at h
          have hstopeq : gr.stop = gr.start + 1 := by omega
          refine (ih _ gaps sets ⟨sr.start, sr.stop - 1⟩ none e buf2 ?_ h).imp
            (fun h1 => by rw [h1, hlen2]) id
          exact {
            gaps_ne := hinv.gaps_ne
            gaps_nonempty := hinv.gaps_nonempty
            gaps_bound := fun g hg => by
              rw [hlen2]; exact hinv.gaps_bound g hg
            gaps_chain := hinv.gaps_chain
            sr_le := show sr.start ≤ sr.stop - 1 by omega
            sr_bound := show sr.stop - 1 ≤ _ by rw [hlen2]; omega
            sets_nonempty := hinv.sets_nonempty
            sets_chain := by
              cases sets with
              | nil => simp
              | cons c t =>
                refine List.chain'_cons.mpr ⟨?_, (List.chain'_cons.mp hinv.sets_chain).2⟩
                exact (List.chain'_cons.mp hinv.sets_chain).1
            sr_valid := srval2
            sets_valid := setsval2
            gaps_sent := gapssent2
            low_sent := by
              intro i hi hu
              have hi2 : i < sr.stop - 1 := hi
              by_cases h3 : i = gr.start
              · rw [h3, htval] at hu
                exact absurd hu hval
              · rw [hother i h3 (by omega)] at hu
                rcases hinv.low_sent i (by omega) hu with ⟨h4, h5⟩ | ⟨g, hg, h4, h5⟩
                · omega
                · exact ⟨g, hg, h4, h5⟩
            nontop_side := by
              intro g hg
              have hgmem : g ∈ gaps := (List.dropLast_sublist gaps).subset hg
              have hgne2 : g.start < g.stop := hinv.gaps_nonempty g hgmem
              rcases ranges_disjoint_of_valid_sent buf sr g (by omega) hgne2
                  hinv.sr_valid (hinv.gaps_sent g hgmem) with h1 | h1
              · exact Or.inl (show sr.stop - 1 < g.start by omega)
              · exact Or.inr h1 }
        · rw [if_neg hfull] at h
          refine (ih _ gaps sets ⟨sr.start, sr.stop - 1⟩
            (some ⟨gr.start + 1, gr.stop⟩) e buf2 ?_ h).imp
            (fun h1 => by rw [h1, hlen2]) id
          exact {
            gaps_ne := hinv.gaps_ne
            gaps_nonempty := hinv.gaps_nonempty
            gaps_bound := fun g hg => by
              rw [hlen2]; exact hinv.gaps_bound g hg
            gaps_chain := hinv.gaps_chain
            gr_nonempty := show gr.start + 1 < gr.stop by omega
            gr_bound := show gr.stop ≤ _ by rw [hlen2]; exact hgrb
            gr_below := fun g hg => hinv.gr_below g hg
            gr_sr := show gr.stop ≤ sr.start from hgrsr
            sr_le := show sr.start ≤ sr.stop - 1 by omega
            sr_bound := show sr.stop - 1 ≤ _ by rw [hlen2]; omega
            sets_nonempty := hinv.sets_nonempty
            sets_chain := by
              cases sets with
              | nil => simp
              | cons c t =>
                refine List.chain'_cons.mpr ⟨?_, (List.chain'_cons.mp hinv.sets_chain).2⟩
                exact (List.chain'_cons.mp hinv.sets_chain).1
            sr_valid := srval2
            sets_valid := setsval2
            gaps_sent := gapssent2
            gr_sent := by
              intro i h1 h2
              have h1a : gr.start + 1 ≤ i := h1
              have h2a : i < gr.stop := h2
              rw [hother i (by omega) (by omega)]
              exact hinv.gr_sent i (by omega) h2a
            low_sent := by
              intro i hi hu
              have hi2 : i < sr.stop - 1 := hi
              by_cases h3 : i = gr.start
              · rw [h3, htval] at hu
                exact absurd hu hval
              · rw [hother i h3 (by omega)] at hu
                rcases hinv.low_sent i (by omega) hu with ⟨h4, h5⟩ | ⟨g, hg, h4, h5⟩
                · exact Or.inl
                    (show gr.start + 1 ≤ i ∧ i < gr.stop from ⟨by omega, h5⟩)
                · exact Or.inr ⟨g, hg, h4, h5⟩ }

/-- Entry invariant of the unconditional pass when the buffer ends
with initialised data above the highest gap: the initial source range
is the final stretch between the highest gap and the cursor. -/
theorem outer_entry_invA_final (buf : List Nat) (B : Nat)
    (G : List BlockRange)
    (hB : B ≤ buf.length)
    (hne : ∀ g ∈ G, g.start < g.stop)
    (hstopG : ∀ g ∈ G, g.stop ≤ B)
    (hchain : List.Chain' (fun a b => a.stop < b.start) G)
    (hclassG : ∀ i, i < B → (buf.getD i 0 = UNINITIALIZED ↔
      ∃ g ∈ G, g.start ≤ i ∧ i < g.stop))
    (hGne : G ≠ [])
    (htoplt : (G.getLastD default).stop < B) :
    OuterInvA buf G ((windows G).reverse)
      ⟨(G.getLastD default).stop, B⟩ := by
  have hwne := windows_nonempty G hchain
  have hwcells := windows_cells G default hchain hne
  have hlastmem : G.getLastD default ∈ G := getLastD_mem G default hGne
  have hlastne := hne _ hlastmem
  have hstopall := chain_stop_le_last G default hchain hne
  exact {
    gaps_ne := hGne
    gaps_nonempty := hne
    gaps_bound := fun g hg => le_trans (hstopG g hg) hB
    gaps_chain := hchain
    sr_le := le_of_lt htoplt
    sr_bound := hB
    sets_nonempty := fun s hs => hwne s (List.mem_reverse.mp hs)
    sets_chain := by
      cases hrev : (windows G).reverse with
      | nil => simp
      | cons b rest =>
        refine List.chain'_cons.mpr ⟨?_, ?_⟩
        · have hlast? : (windows G).getLast? = some b := by
            rw [← List.head?_reverse, hrev]
            rfl
          obtain ⟨hbstop, _⟩ := windows_last_facts G b hchain hne hlast?
          show b.stop ≤ (G.getLastD default).stop
          rw [hbstop]
          omega
        · rw [← hrev]
          exact List.chain'_reverse.mpr (windows_chain G hchain hne)
    sr_valid := by
      intro i h1 h2
      have h1a : (G.getLastD default).stop ≤ i := h1
      have h2a : i < B := h2
      intro hu
      obtain ⟨g, hg, hg1, hg2⟩ := (hclassG i h2a).mp hu
      have := hstopall g hg
      omega
    sets_valid := by
      intro s hs i h1 h2
      obtain ⟨hc1, hc2, hc3⟩ := hwcells s (List.mem_reverse.mp hs) i h1 h2
      intro hu
      obtain ⟨g, hg, hgi⟩ := (hclassG i (by omega)).mp hu
      exact hc3 g hg hgi
    gaps_sent := by
      intro g hg i h1 h2
      have := hstopG g hg
      exact (hclassG i (by omega)).mpr ⟨g, hg, h1, h2⟩
    low_sent := by
      intro i hi hu
      have hi2 : i < B := hi
      exact (hclassG i hi2).mp hu
    nontop_side := by
      intro g hg
      have hgmem : g ∈ G := (List.dropLast_sublist G).subset hg
      exact Or.inr
        (show g.stop ≤ (G.getLastD default).stop from hstopall g hgmem) }

/-- C3 (amended): after one compaction call, every cell below the new
cursor `next_free` is initialised — unconditionally; and provided the
buffer does not end with initialised data above the highest recorded
gap, i.e. some non-empty recorded range reaches the cursor (or no
non-empty range is recorded at all), every cell from `next_free` up to
the capacity is `UNINITIALIZED`. The precondition states the
configuration a push/free round leaves behind: ranges below the
cursor, pairwise separated without touching, recording exactly the
sentinel cells below the cursor, with everything above the cursor
sentinel. -/
theorem claim_C3_compaction_postcondition
    (pl : ProposalList) (fuel e : Nat) (pl2 : ProposalList)
    (hB : pl.begin_of_next_block ≤ pl.proposal_list.length)
    (hstop : ∀ r ∈ pl.unfinished_blocks, r.start < r.stop →
      r.stop ≤ pl.begin_of_next_block)
    (hsep : List.Pairwise (fun r s => r.start < r.stop → s.start < s.stop →
      r.stop < s.start ∨ s.stop < r.start) pl.unfinished_blocks)
    (hclass : ∀ i, i < pl.begin_of_next_block →
      (pl.proposal_list.getD i 0 = UNINITIALIZED ↔
        ∃ r ∈ pl.unfinished_blocks, r.start ≤ i ∧ i < r.stop))
    (hhigh : ∀ i, pl.begin_of_next_block ≤ i → i < pl.proposal_list.length →
      pl.proposal_list.getD i 0 = UNINITIALIZED)
    (h : ProposalList.compact_unfinished_ranges pl fuel = some (e, pl2)) :
    pl2.begin_of_next_block = e ∧
    pl2.proposal_list.length = pl.proposal_list.length ∧
    (∀ i, i < e → pl2.proposal_list.getD i 0 ≠ UNINITIALIZED) ∧
    (((∃ r ∈ pl.unfinished_blocks, r.start < r.stop) →
        ∃ r ∈ pl.unfinished_blocks, r.start < r.stop ∧
          r.stop = pl.begin_of_next_block) →
      ∀ i, e ≤ i → i < pl2.proposal_list.length →
        pl2.proposal_list.getD i 0 = UNINITIALIZED) := by
  simp only [compact_unfinished_ranges] at h
  by_cases hempty : (pl.unfinished_blocks.filter
      (fun r => decide (r.start < r.stop))).isEmpty = true
  · rw [if_pos hempty] at h
    simp only [Option.some.injEq, Prod.mk.injEq] at h
    obtain ⟨he, hp⟩ := h
    subst hp
    refine ⟨he, rfl, ?_, ?_⟩
    · intro i hi hu
      rw [← he] at hi
      obtain ⟨r, hr, h1, h2⟩ := (hclass i (by omega)).mp hu
      have hrf : r ∈ pl.unfinished_blocks.filter
          (fun r => decide (r.start < r.stop)) :=
        List.mem_filter.mpr ⟨hr, by simp; omega⟩
      rw [List.isEmpty_iff.mp hempty] at hrf
      simp at hrf
    · intro _ i h1 h2
      rw [← he] at h1
      exact hhigh i h1 h2
  · rw [if_neg hempty] at h
    generalize hGdef : List.insertionSort (fun a b => a.start ≤ b.start)
      (pl.unfinished_blocks.filter (fun r => decide (r.start < r.stop))) = G at h
    obtain ⟨hmem, hne, hstopG, hchain, hclassG⟩ :=
      gaps_sorted_facts pl.unfinished_blocks pl.proposal_list
        pl.begin_of_next_block G hstop hsep hclass hGdef.symm
    have hfilterne : pl.unfinished_blocks.filter
        (fun r => decide (r.start < r.stop)) ≠ [] := by
      intro hc
      rw [hc] at hempty
      exact hempty rfl
    have hGne : G ≠ [] := by
      intro hc
      have hp := List.perm_insertionSort (fun a b => a.start ≤ b.start)
        (pl.unfinished_blocks.filter (fun r => decide (r.start < r.stop)))
      rw [hGdef, hc] at hp
      exact hfilterne hp.symm.eq_nil
    have hex : ∃ r ∈ pl.unfinished_blocks, r.start < r.stop := by
      cases hcf : pl.unfinished_blocks.filter
          (fun r => decide (r.start < r.stop)) with
      | nil => exact absurd hcf hfilterne
      | cons a t =>
        have ha : a ∈ pl.unfinished_blocks.filter
            (fun r => decide (r.start < r.stop)) := by
          rw [hcf]; exact List.mem_cons_self _ _
        have := List.mem_filter.mp ha
        exact ⟨a, this.1, by simpa using this.2⟩
    by_cases hfin : (G.getLastD default).stop = pl.begin_of_next_block
    · rw [if_neg (fun hcc => hcc hfin)] at h
      cases hrev : (List.reverse (windows G)) with
      | nil =>
        rw [hrev] at h
        have hwnil : windows G = [] := List.reverse_eq_nil_iff.mp hrev
        rcases windows_eq_nil G hwnil with hc | ⟨g, hGg⟩
        · exact absurd hc hGne
        · subst hGg
          simp only [compact_from_lists, List.getLastD_cons, List.getLastD_nil,
            Option.some.injEq, Prod.mk.injEq] at h
          obtain ⟨he, hp⟩ := h
          subst hp
          have hgB : g.stop = pl.begin_of_next_block := by
            simpa using hfin
          refine ⟨he, rfl, ?_, ?_⟩
          · intro i hi hu
            rw [← he] at hi
            obtain ⟨g2, hg2, h1, h2⟩ := (hclassG i (by
              have := hne g (by simp); omega)).mp hu
            have : g2 = g := by simpa using hg2
            subst this
            omega
          · intro _ i h1 h2
            rw [← he] at h1
            by_cases h3 : i < pl.begin_of_next_block
            · refine (hclassG i h3).mpr ⟨g, by simp, by omega, by omega⟩
            · exact hhigh i (by omega) h2
      | cons b rest =>
        rw [hrev] at h
        simp only [compact_from_lists] at h
        cases hcl : compact_loop pl.proposal_list G rest b none fuel with
        | none => rw [hcl] at h; exact absurd h (by simp)
        | some p =>
          obtain ⟨e2, buf2⟩ := p
          rw [hcl] at h
          simp only [Option.some.injEq, Prod.mk.injEq] at h
          obtain ⟨he2, hp⟩ := h
          subst hp
          have hOI := outer_entry_inv pl.proposal_list pl.begin_of_next_block G
            b rest hB hne hstopG hchain hclassG hhigh hGne hfin hrev
          obtain ⟨hlen, hpost⟩ :=
            compact_loop_spec fuel pl.proposal_list G rest b none e2 buf2 hOI hcl
          refine ⟨he2, hlen, ?_, ?_⟩
          · intro i hi
            rw [← he2] at hi
            exact hpost.1 i hi
          · intro _ i h1 h2
            rw [← he2] at h1
            have h2a : i < buf2.length := h2
            exact hpost.2 i h1 (by omega)
    · rw [if_pos hfin] at h
      rw [show (windows G ++
          [(⟨(G.getLastD default).stop, pl.begin_of_next_block⟩ :
            BlockRange)]).reverse
          = ⟨(G.getLastD default).stop, pl.begin_of_next_block⟩ ::
            (windows G).reverse by simp] at h
      simp only [compact_from_lists] at h
      cases hcl : compact_loop pl.proposal_list G ((windows G).reverse)
          ⟨(G.getLastD default).stop, pl.begin_of_next_block⟩ none fuel with
      | none => rw [hcl] at h; exact absurd h (by simp)
      | some p =>
        obtain ⟨e2, buf2⟩ := p
        rw [hcl] at h
        simp only [Option.some.injEq, Prod.mk.injEq] at h
        obtain ⟨he2, hp⟩ := h
        subst hp
        have htoplt : (G.getLastD default).stop < pl.begin_of_next_block :=
          lt_of_le_of_ne (hstopG _ (getLastD_mem G default hGne)) hfin
        have hOA := outer_entry_invA_final pl.proposal_list
          pl.begin_of_next_block G hB hne hstopG hchain hclassG hGne htoplt
        obtain ⟨hlen, hvalid⟩ := compact_loop_valid_below fuel
          pl.proposal_list G ((windows G).reverse)
          ⟨(G.getLastD default).stop, pl.begin_of_next_block⟩ none e2 buf2
          hOA hcl
        refine ⟨he2, hlen, ?_, ?_⟩
        · intro i hi
          rw [← he2] at hi
          exact hvalid i hi
        · intro hP
          obtain ⟨r0, hr0, hr0ne, hr0stop⟩ := hP hex
          have hr0G : r0 ∈ G := (hmem r0).mpr ⟨hr0, hr0ne⟩
          have : (G.getLastD default).stop = pl.begin_of_next_block := by
            have h1 := chain_stop_le_last G default hchain hne r0 hr0G
            have h2 := hstopG _ (getLastD_mem G default hGne)
            omega
          exact absurd this hfin

/-- C9: compaction preserves the number of cells holding each
non-sentinel value — every relocation reads an initialised cell and
blanks it while writing the value into a sentinel gap cell. No
assumption is made on whether initialised data ends at the cursor. -/
theorem claim_C9_compaction_preserves_content
    (pl : ProposalList) (fuel e : Nat) (pl2 : ProposalList)
    (hB : pl.begin_of_next_block ≤ pl.proposal_list.length)
    (hstop : ∀ r ∈ pl.unfinished_blocks, r.start < r.stop →
      r.stop ≤ pl.begin_of_next_block)
    (hsep : List.Pairwise (fun r s => r.start < r.stop → s.start < s.stop →
      r.stop < s.start ∨ s.stop < r.start) pl.unfinished_blocks)
    (hclass : ∀ i, i < pl.begin_of_next_block →
      (pl.proposal_list.getD i 0 = UNINITIALIZED ↔
        ∃ r ∈ pl.unfinished_blocks, r.start ≤ i ∧ i < r.stop))
    (h : ProposalList.compact_unfinished_ranges pl fuel = some (e, pl2)) :
    pl2.proposal_list.length = pl.proposal_list.length ∧
    ∀ v, v ≠ UNINITIALIZED →
      pl2.proposal_list.count v = pl.proposal_list.count v := by
  simp only [compact_unfinished_ranges] at h
  by_cases hempty : (pl.unfinished_blocks.filter
      (fun r => decide (r.start < r.stop))).isEmpty = true
  · rw [if_pos hempty] at h
    simp only [Option.some.injEq, Prod.mk.injEq] at h
    obtain ⟨he, hp⟩ := h
    subst hp
    exact ⟨rfl, fun v _ => rfl⟩
  · rw [if_neg hempty] at h
    generalize hGdef : List.insertionSort (fun a b => a.start ≤ b.start)
      (pl.unfinished_blocks.filter (fun r => decide (r.start < r.stop))) = G at h
    obtain ⟨hmem, hne, hstopG, hchain, hclassG⟩ :=
      gaps_sorted_facts pl.unfinished_blocks pl.proposal_list
        pl.begin_of_next_block G hstop hsep hclass hGdef.symm
    have hfilterne : pl.unfinished_blocks.filter
        (fun r => decide (r.start < r.stop)) ≠ [] := by
      intro hc
      rw [hc] at hempty
      exact hempty rfl
    have hGne : G ≠ [] := by
      intro hc
      have hp := List.perm_insertionSort (fun a b => a.start ≤ b.start)
        (pl.unfinished_blocks.filter (fun r => decide (r.start < r.stop)))
      rw [hGdef, hc] at hp
      exact hfilterne hp.symm.eq_nil
    by_cases hfin : (G.getLastD default).stop ≠ pl.begin_of_next_block
    · rw [if_pos hfin] at h
      rw [show (windows G ++
          [(⟨(G.getLastD default).stop, pl.begin_of_next_block⟩ : BlockRange)]).reverse
          = ⟨(G.getLastD default).stop, pl.begin_of_next_block⟩ ::
            (windows G).reverse by simp] at h
      simp only [compact_from_lists] at h
      cases hcl : compact_loop pl.proposal_list G ((windows G).reverse)
          ⟨(G.getLastD default).stop, pl.begin_of_next_block⟩ none fuel with
      | none => rw [hcl] at h; exact absurd h (by simp)
      | some p =>
        obtain ⟨e2, buf2⟩ := p
        rw [hcl] at h
        simp only [Option.some.injEq, Prod.mk.injEq] at h
        obtain ⟨he2, hp⟩ := h
        subst hp
        have htoplt : (G.getLastD default).stop < pl.begin_of_next_block := by
          have := hstopG _ (getLastD_mem G default hGne)
          omega
        have hwk := weak_entry_final_inv pl.proposal_list
          pl.begin_of_next_block G hB hne hstopG hchain hclassG hGne htoplt
        obtain ⟨hlen, hcnt⟩ := compact_loop_counts fuel pl.proposal_list G
          ((windows G).reverse) ⟨(G.getLastD default).stop,
            pl.begin_of_next_block⟩ none e2 buf2 hwk
          (fun gr hgr => by cases hgr) hcl
        exact ⟨hlen, hcnt⟩
    · rw [if_neg hfin] at h
      cases hrev : (List.reverse (windows G)) with
      | nil =>
        rw [hrev] at h
        have hwnil : windows G = [] := List.reverse_eq_nil_iff.mp hrev
        rcases windows_eq_nil G hwnil with hc | ⟨g, hGg⟩
        · exact absurd hc hGne
        · subst hGg
          simp only [compact_from_lists, Option.some.injEq,
            Prod.mk.injEq] at h
          obtain ⟨he, hp⟩ := h
          subst hp
          exact ⟨rfl, fun v _ => rfl⟩
      | cons b rest =>
        rw [hrev] at h
        simp only [compact_from_lists] at h
        cases hcl : compact_loop pl.proposal_list G rest b none fuel with
        | none => rw [hcl] at h; exact absurd h (by simp)
        | some p =>
          obtain ⟨e2, buf2⟩ := p
          rw [hcl] at h
          simp only [Option.some.injEq, Prod.mk.injEq] at h
          obtain ⟨he2, hp⟩ := h
          subst hp
          have hwk := weak_entry_inv pl.proposal_list pl.begin_of_next_block
            G b rest hB hne hstopG hchain hclassG hrev
          obtain ⟨hlen, hcnt⟩ := compact_loop_counts fuel pl.proposal_list G
            rest b none e2 buf2 hwk (fun gr hgr => by cases hgr) hcl
          exact ⟨hlen, hcnt⟩

end ProposalList

theorem claim_C3_compaction_postcondition_witness :
    ((⟨[7, UNINITIALIZED], 1, [⟨0, 0⟩], 0⟩ :
        ProposalList)).begin_of_next_block = 1 ∧
    (∀ i, i < 1 →
      ([7, UNINITIALIZED] : List Nat).getD i 0 ≠ UNINITIALIZED) := by
  have h := ProposalList.claim_C3_compaction_postcondition
    ⟨[7, UNINITIALIZED], 1, [⟨0, 0⟩], 0⟩ 1 1 ⟨[7, UNINITIALIZED], 1, [⟨0, 0⟩], 0⟩
    (by decide)
    (fun r hr hlt => by
      rw [List.mem_singleton.mp hr] at hlt
      exact absurd hlt (by decide))
    (by simp)
    (fun i hi => by
      have hi2 : i < 1 := hi
      have h0 : i = 0 := by omega
      subst h0
      constructor
      · intro hu
        exact absurd hu (by decide)
      · rintro ⟨r, hr, h1, h2⟩
        rw [List.mem_singleton.mp hr] at h2
        have h2a : (0 : Nat) < 0 := h2
        omega)
    (fun i h1 h2 => by
      have h1a : (1 : Nat) ≤ i := h1
      have h2a : i < 2 := by simpa using h2
      have h0 : i = 1 := by omega
      subst h0
      rfl)
    (by decide)
  exact ⟨h.1, h.2.2.1⟩

theorem claim_C9_compaction_preserves_content_witness :
    ([7, UNINITIALIZED] : List Nat).count 7 =
      ([7, UNINITIALIZED] : List Nat).count 7 := by
  have h := ProposalList.claim_C9_compaction_preserves_content
    ⟨[7, UNINITIALIZED], 1, [⟨0, 0⟩], 0⟩ 1 1 ⟨[7, UNINITIALIZED], 1, [⟨0, 0⟩], 0⟩
    (by decide)
    (fun r hr hlt => by
      rw [List.mem_singleton.mp hr] at hlt
      exact absurd hlt (by decide))
    (by simp)
    (fun i hi => by
      have hi2 : i < 1 := hi
      have h0 : i = 0 := by omega
      subst h0
      constructor
      · intro hu
        exact absurd hu (by decide)
      · rintro ⟨r, hr, h1, h2⟩
        rw [List.mem_singleton.mp hr] at h2
        have h2a : (0 : Nat) < 0 := h2
        omega)
    (by decide)
  exact h.2 7 (by decide)

end NLPA
